import Mathlib

/-!
The connman plugin plugins/session_policy_local.c.

A shallow embedding of the session policy plugin: the three hash tables
(file_hash, session_hash, selinux_hash), the heap objects they point to
(policy_group, policy_config) and the functions that mutate them.  Pointers
are natural numbers; the heap is a pair of finite maps from addresses to
objects, with a bump allocator (heap_top).  Calls that leave the plugin
(connman_session_config_update, connman_session_destroy, the creation
callback) are appended to an effect log.  A function that reads through a
NULL pointer on some path has an Option result, none on that path.
-/

namespace SessionPolicyLocal

/-! ## Data model -/

/-- The struct connman_session_config (connman/session.h): the five fields
copy_session_config copies.  Booleans are connman_bool_t, the enumerations
are kept as their integer value, bearers as their service type. -/
structure connman_session_config where
  priority : Bool
  roaming_policy : Nat
  type : Nat
  ecall : Bool
  allowed_bearers : List Nat
deriving DecidableEq, Repr

/-- The struct policy_file: the list of the addresses of its groups. -/
structure policy_file where
  groups : List Nat
deriving DecidableEq, Repr

/-- The struct policy_group: selinux is a char pointer (none is NULL), config
is owned by the group, sessions lists the addresses of the policy_config
objects using the group. -/
structure policy_group where
  selinux : Option String
  config : connman_session_config
  sessions : List Nat
deriving DecidableEq, Repr

/-- The struct policy_config, owned by a session: session is the
connman_session pointer (0 is NULL), group the policy_group pointer (none is
NULL). -/
structure policy_config where
  selinux : Option String
  config : connman_session_config
  session : Nat
  group : Option Nat
deriving DecidableEq, Repr

/-- Calls from the plugin into the session core, in the order they are made. -/
inductive Effect where
  | config_update (session : Nat)
  | session_destroy (session : Nat)
  | callback (session : Nat) (config : Option connman_session_config) (err : Int)
deriving DecidableEq, Repr

/-- The plugin state: the three GHashTables, the heap and the effect log.
session_hash is an association list (session, policy address); its order
stands for the iteration order of the GHashTable. -/
structure State where
  file_hash : String → Option policy_file
  session_hash : List (Nat × Nat)
  selinux_hash : String → Option Nat
  groups : Nat → Option policy_group
  policies : Nat → Option policy_config
  heap_top : Nat
  log : List Effect

/-- Modelled from the spec: the key-value file parser is an external
collaborator (GKeyFile) providing the names of the sections
(g_key_file_get_groups) and get-string and get-bool lookups by section and
key (g_key_file_get_string, g_key_file_get_boolean). -/
structure GKeyFile where
  group_names : List String
  get_string : String → String → Option String
  get_boolean : String → String → Bool

/-- Modelled from the spec: the session runtime and its parsers, defined in
connman outside the plugin.  default_config is what
connman_session_create_default_config returns and
connman_session_set_default_config writes; each bearer token is parsed
individually, bearers_rc is the return code of connman_session_parse_bearers
for a token (negative: rejected) and bearers_app its effect on the list. -/
structure Runtime where
  default_config : connman_session_config
  parse_roaming_policy : String → Nat
  parse_connection_type : String → Nat
  bearers_rc : String → Int
  bearers_app : String → List Nat → List Nat

/-- The world outside the process during one event: load_from_file is the
outcome of g_key_file_load_from_file for a file name of POLICYDIR (the
key-file it read, or the code of the GError it set, a gint), config_update
the return value of connman_session_config_update for a session. -/
structure World where
  load_from_file : String → Except Int GKeyFile
  config_update : Nat → Int

def EINVAL : Int := 22

def IN_MODIFY : Nat := 0x2
def IN_MOVED_FROM : Nat := 0x40
def IN_MOVED_TO : Nat := 0x80
def IN_CREATE : Nat := 0x100
def IN_DELETE : Nat := 0x200

/-- The state after session_policy_local_init created the three empty
tables, before read_policies. -/
def init : State :=
  { file_hash := fun _ => none
    session_hash := []
    selinux_hash := fun _ => none
    groups := fun _ => none
    policies := fun _ => none
    heap_top := 1
    log := [] }

def emit (st : State) (e : Effect) : State :=
  { st with log := st.log ++ [e] }

/-! ## glib helpers -/

/-- Split a character list at every occurrence of the delimiter. -/
def splitChars (d : Char) : List Char → List (List Char)
  | [] => [[]]
  | c :: cs =>
    if c = d then [] :: splitChars d cs
    else match splitChars d cs with
      | [] => [[c]]
      | t :: ts => (c :: t) :: ts

/-- The glib g_strsplit with a one-character delimiter and max_tokens 0: the
empty string gives the empty vector. -/
def g_strsplit (s : String) (d : Char) : List String :=
  if s.data = [] then [] else (splitChars d s.data).map String.mk

/-- The glib g_str_has_suffix. -/
def g_str_has_suffix (s suffix : String) : Bool :=
  suffix.data.isSuffixOf s.data

/-! ## The plugin's functions -/

def copy_session_config (dst src : connman_session_config) : connman_session_config :=
  { dst with
    allowed_bearers := src.allowed_bearers
    ecall := src.ecall
    type := src.type
    roaming_policy := src.roaming_policy
    priority := src.priority }

/-- The function set_policy: prepend the policy to the group's sessions, point
the policy at the group, copy the group's config.  Dereferencing a freed
pointer is left as a no-op. -/
def set_policy (st : State) (policy group : Nat) : State :=
  match st.policies policy, st.groups group with
  | some pc, some gr =>
    { st with
      groups := Function.update st.groups group
        (some { gr with sessions := policy :: gr.sessions })
      policies := Function.update st.policies policy
        (some { pc with group := some group
                        config := copy_session_config pc.config gr.config }) }
  | _, _ => st

/-- The function parse_selinux_type: tokens[2] is the NULL terminator of the
vector when it has exactly two tokens, and g_strdup(NULL) is NULL. -/
def parse_selinux_type (context : String) : Option String :=
  let tokens := g_strsplit context ':'
  if tokens.length < 2 then none
  else tokens.get? 2

/-- The function create_policy: a zeroed policy_config with a default config. -/
def create_policy (rt : Runtime) : policy_config :=
  { selinux := none, config := rt.default_config, session := 0, group := none }

/-- The function cleanup_config, the value destructor of session_hash. -/
def cleanup_config (st : State) (policy : Nat) : State :=
  match st.policies policy with
  | none => st
  | some pc =>
    let st1 : State :=
      match pc.group with
      | some g =>
        (match st.groups g with
         | some gr =>
           { st with
             groups := Function.update st.groups g
               (some { gr with sessions := gr.sessions.erase policy }) }
         | none => st)
      | none => st
    { st1 with policies := Function.update st1.policies policy none }

/-- The call g_hash_table_replace (session_hash, session, policy): an old
value for the key is destroyed with cleanup_config. -/
def session_hash_replace (st : State) (session policy : Nat) : State :=
  let st1 : State :=
    match st.session_hash.lookup session with
    | some old => cleanup_config st old
    | none => st
  { st1 with
    session_hash := (session, policy) :: st1.session_hash.filter (fun e => e.1 != session) }

/-- The function selinux_context_reply, the completion of the asynchronous
identity resolution of policy_local_create. -/
def selinux_context_reply (rt : Runtime) (st : State) (context : String)
    (session : Nat) (err : Int) : State :=
  if err < 0 then emit st (Effect.callback session none err)
  else
    match parse_selinux_type context with
    | none => emit st (Effect.callback session none (-EINVAL))
    | some ident =>
      let policy := st.heap_top
      let st1 : State :=
        { st with
          policies := Function.update st.policies policy
            (some { create_policy rt with selinux := some ident, session := session })
          heap_top := st.heap_top + 1 }
      let st2 : State :=
        match st1.selinux_hash ident with
        | some group => set_policy st1 policy group
        | none => st1
      let st3 := session_hash_replace st2 session policy
      emit st3 (Effect.callback session ((st3.policies policy).map (fun pc => pc.config)) err)

def policy_local_destroy (st : State) (session : Nat) : State :=
  match st.session_hash.lookup session with
  | none => st
  | some policy =>
    let st1 := cleanup_config st policy
    { st1 with session_hash := st1.session_hash.filter (fun e => e.1 != session) }

/-- The call connman_session_parse_bearers (token, list). -/
def connman_session_parse_bearers (rt : Runtime) (token : String) (list : List Nat) :
    Int × List Nat :=
  (rt.bearers_rc token, rt.bearers_app token list)

/-- The token loop of load_policy: stop at the first negative return code. -/
def parse_tokens (rt : Runtime) : List String → Int → List Nat → Int × List Nat
  | [], err, l => (err, l)
  | t :: ts, _, l =>
    let r := connman_session_parse_bearers rt t l
    if r.1 < 0 then r else parse_tokens rt ts r.1 r.2

def load_policy (rt : Runtime) (keyfile : GKeyFile) (groupname : String)
    (group : policy_group) : Int × policy_group :=
  match keyfile.get_string groupname "selinux" with
  | none => (-EINVAL, { group with selinux := none })
  | some sel =>
    let c0 := group.config
    let c1 := { c0 with priority := keyfile.get_boolean groupname "Priority" }
    let c2 :=
      match keyfile.get_string groupname "RoamingPolicy" with
      | some str => { c1 with roaming_policy := rt.parse_roaming_policy str }
      | none => c1
    let c3 :=
      match keyfile.get_string groupname "ConnectionType" with
      | some str => { c2 with type := rt.parse_connection_type str }
      | none => c2
    let c4 := { c3 with ecall := keyfile.get_boolean groupname "EmergencyCall" }
    let r : Int × List Nat :=
      match keyfile.get_string groupname "AllowedBearers" with
      | some str => parse_tokens rt (g_strsplit str ' ') 0 c4.allowed_bearers
      | none => (0, c4.allowed_bearers)
    (r.1, { group with selinux := some sel, config := { c4 with allowed_bearers := r.2 } })

/-- The function update_session.  connman_session_config_update and
connman_session_destroy belong to the session core: both calls are recorded
in the log, and the destruction reaches the plugin as a later
policy_local_destroy. -/
def update_session (w : World) (st : State) (policy : Nat) : State :=
  match st.policies policy with
  | none => st
  | some pc =>
    if pc.session = 0 then st
    else
      let st1 := emit st (Effect.config_update pc.session)
      if w.config_update pc.session < 0 then emit st1 (Effect.session_destroy pc.session)
      else st1

def set_default_config (rt : Runtime) (w : World) (st : State) (policy : Nat) : State :=
  match st.policies policy with
  | none => st
  | some pc =>
    update_session w
      { st with
        policies := Function.update st.policies policy
          (some { pc with config := rt.default_config, group := none }) }
      policy

def cleanup_group (rt : Runtime) (w : World) (st : State) (group : Nat) : State :=
  match st.groups group with
  | none => st
  | some gr =>
    let st1 := gr.sessions.foldl (set_default_config rt w) st
    let st2 : State :=
      match gr.selinux with
      | some k => { st1 with selinux_hash := Function.update st1.selinux_hash k none }
      | none => st1
    { st2 with groups := Function.update st2.groups group none }

def cleanup_file (rt : Runtime) (w : World) (st : State) (file : policy_file) : State :=
  file.groups.foldl (cleanup_group rt w) st

/-- The body of the loop of recheck_sessions for one entry of session_hash. -/
def recheck_one (w : World) (st : State) (entry : Nat × Nat) : State :=
  match st.policies entry.2 with
  | none => st
  | some pc =>
    match pc.group with
    | some _ => st
    | none =>
      match pc.selinux.bind st.selinux_hash with
      | some group => update_session w (set_policy st entry.2 group) entry.2
      | none => st

def recheck_sessions (w : World) (st : State) : State :=
  st.session_hash.foldl (recheck_one w) st

/-- A zeroed policy_group with a zeroed config, as g_new0 returns them. -/
def zero_group : policy_group :=
  { selinux := none
    config := { priority := false, roaming_policy := 0, type := 0, ecall := false,
                allowed_bearers := [] }
    sessions := [] }

/-- The loop of load_file over the section names; the argument err is the
value of the C variable err on entry, the result holds its value on exit. -/
def load_groups (rt : Runtime) (keyfile : GKeyFile) :
    List String → State → policy_file → Int → Int × State × policy_file
  | [], st, file, err => (err, st, file)
  | name :: rest, st, file, _ =>
    let group := st.heap_top
    let st1 : State :=
      { st with groups := Function.update st.groups group (some zero_group)
                heap_top := st.heap_top + 1 }
    let r := load_policy rt keyfile name zero_group
    if r.1 < 0 then
      (r.1, { st1 with groups := Function.update st1.groups group none }, file)
    else
      let st2 : State :=
        { st1 with
          groups := Function.update st1.groups group (some r.2)
          selinux_hash :=
            match r.2.selinux with
            | some k => Function.update st1.selinux_hash k (some group)
            | none => st1.selinux_hash }
      load_groups rt keyfile rest st2 { groups := group :: file.groups } r.1

/-- The function load_keyfile: its return value and the key-file it stores
through the pointer argument (none is NULL).  When g_key_file_load_from_file
fails the return value is -error->code, which is 0 for the code 0, and the
key-file is NULL. -/
def load_keyfile (w : World) (pathname : String) : Int × Option GKeyFile :=
  match w.load_from_file pathname with
  | Except.ok keyfile => (0, some keyfile)
  | Except.error code => (-code, none)

/-- The statements of load_file from g_key_file_get_groups on, for a key-file
that was read: the loop over the sections, and the cleanup of the groups
built so far when a section was rejected. -/
def load_file_body (rt : Runtime) (w : World) (st : State) (keyfile : GKeyFile)
    (file : policy_file) : Int × State × policy_file :=
  let r := load_groups rt keyfile keyfile.group_names st file 0
  if r.1 < 0 then (r.1, r.2.2.groups.foldl (cleanup_group rt w) r.2.1, r.2.2)
  else r

/-- The function load_file; the world is keyed by the file name, which
stands for the path POLICYDIR/filename.  Only a negative return value of
load_keyfile returns early.  When load_keyfile returned a non-negative value without a
key-file, g_key_file_get_groups (NULL) is NULL and the loop reads
groupnames[0] through it: the process is killed, load_file has no result
(none). -/
def load_file (rt : Runtime) (w : World) (st : State) (filename : String)
    (file : policy_file) : Option (Int × State × policy_file) :=
  let r := load_keyfile w filename
  if r.1 < 0 then some (r.1, st, file)
  else
    match r.2 with
    | none => none
    | some keyfile => some (load_file_body rt w st keyfile file)

def is_filename_valid (filename : Option String) : Bool :=
  match filename with
  | none => false
  | some name =>
    if name.data.head? = some '.' then false
    else g_str_has_suffix name ".policy"

/-- The call g_hash_table_remove (file_hash, filename): the value destructor
is cleanup_file. -/
def file_hash_remove (rt : Runtime) (w : World) (st : State) (filename : String) : State :=
  match st.file_hash filename with
  | none => st
  | some file =>
    cleanup_file rt w { st with file_hash := Function.update st.file_hash filename none } file

/-- The call g_hash_table_replace (file_hash, filename, file). -/
def file_hash_replace (rt : Runtime) (w : World) (st : State) (filename : String)
    (file : policy_file) : State :=
  let st1 := file_hash_remove rt w st filename
  { st1 with file_hash := Function.update st1.file_hash filename (some file) }

/-- The loop of read_policies over the names g_dir_read_name yields; the
result is none when load_file has none. -/
def read_names (rt : Runtime) (w : World) : List String → State → Option State
  | [], st => some st
  | filename :: rest, st =>
    if is_filename_valid (some filename) = false then read_names rt w rest st
    else
      match load_file rt w st filename { groups := [] } with
      | none => none
      | some r =>
        if r.1 < 0 then read_names rt w rest r.2.1
        else read_names rt w rest (file_hash_replace rt w r.2.1 filename r.2.2)

/-- The function read_policies; dir holds the names g_dir_read_name yields
(none: g_dir_open failed).  The result is none when load_file has none. -/
def read_policies (rt : Runtime) (w : World) (st : State) (dir : Option (List String)) :
    Option (Int × State) :=
  match dir with
  | none => some (-EINVAL, st)
  | some names => (read_names rt w names st).map (fun st2 => (0, st2))

/-- The function notify_handler.  The result is none when load_file has
none. -/
def notify_handler (rt : Runtime) (w : World) (st : State) (mask : Nat)
    (filename : Option String) : Option State :=
  if mask &&& IN_CREATE ≠ 0 then some st
  else if is_filename_valid filename = false then some st
  else
    match filename with
    | none => some st
    | some name =>
      let st1 := file_hash_remove rt w st name
      if mask &&& (IN_DELETE ||| IN_MOVED_FROM) ≠ 0 then some st1
      else if mask &&& (IN_MOVED_TO ||| IN_MODIFY) ≠ 0 then
        match load_file rt w st1 name { groups := [] } with
        | none => none
        | some r =>
          if r.1 < 0 then some r.2.1
          else some (recheck_sessions w (file_hash_replace rt w r.2.1 name r.2.2))
      else some st1

/-! ## Reachable states -/

/-- States reachable from the empty tables by watch events (those
notify_handler returns from), completions of session creations (for a real,
non-NULL session) and session destructions. -/
inductive Reachable (rt : Runtime) : State → Prop where
  | init : Reachable rt init
  | notify (st st2 : State) (w : World) (mask : Nat) (filename : Option String) :
      Reachable rt st → notify_handler rt w st mask filename = some st2 → Reachable rt st2
  | reply (st : State) (context : String) (session : Nat) (err : Int) :
      Reachable rt st → session ≠ 0 →
      Reachable rt (selinux_context_reply rt st context session err)
  | destroy (st : State) (session : Nat) :
      Reachable rt st → Reachable rt (policy_local_destroy st session)

/-- States reachable from the state session_policy_local_init leaves, the
directory scan read_policies on the empty tables with no session yet, by
watch events (those notify_handler returns from), completions of session
creations (for a real, non-NULL session) and session destructions. -/
inductive ReachableScan (rt : Runtime) : State → Prop where
  | scan (w : World) (dir : Option (List String)) (r : Int × State) :
      read_policies rt w init dir = some r → ReachableScan rt r.2
  | notify (st st2 : State) (w : World) (mask : Nat) (filename : Option String) :
      ReachableScan rt st → notify_handler rt w st mask filename = some st2 →
      ReachableScan rt st2
  | reply (st : State) (context : String) (session : Nat) (err : Int) :
      ReachableScan rt st → session ≠ 0 →
      ReachableScan rt (selinux_context_reply rt st context session err)
  | destroy (st : State) (session : Nat) :
      ReachableScan rt st → ReachableScan rt (policy_local_destroy st session)

/-! ## Consistency of the heap and of the tables -/

/-- What set_default_config writes into a policy_config. -/
def detach (rt : Runtime) (pc : policy_config) : policy_config :=
  { pc with config := rt.default_config, group := none }

/-- The effects of update_session on a policy_config slot. -/
def push_effects (w : World) (slot : Option policy_config) : List Effect :=
  match slot with
  | none => []
  | some pc =>
    if pc.session = 0 then []
    else if w.config_update pc.session < 0 then
      [Effect.config_update pc.session, Effect.session_destroy pc.session]
    else [Effect.config_update pc.session]

/-- The sessions lists of the groups at the given addresses, concatenated. -/
def bound_of (st : State) (gs : List Nat) : List Nat :=
  gs.flatMap (fun g => match st.groups g with
    | some gr => gr.sessions
    | none => [])

/-- The identities of the live groups at the given addresses. -/
def ids_of (st : State) (gs : List Nat) : List String :=
  gs.filterMap (fun g => (st.groups g).bind (fun gr => gr.selinux))

/-- Consistency of the heap with the file table and the identity index.
pending lists the groups of the file under construction or destruction,
which the file table does not hold. -/
structure HeapInv (st : State) (pending : List Nat) : Prop where
  grp_fresh : ∀ a, st.heap_top ≤ a → st.groups a = none
  pol_fresh : ∀ a, st.heap_top ≤ a → st.policies a = none
  file_live : ∀ f pf g, st.file_hash f = some pf → g ∈ pf.groups → ∃ gr, st.groups g = some gr
  pend_live : ∀ g, g ∈ pending → ∃ gr, st.groups g = some gr
  owned : ∀ g gr, st.groups g = some gr →
    g ∈ pending ∨ ∃ f pf, st.file_hash f = some pf ∧ g ∈ pf.groups
  file_nodup : ∀ f pf, st.file_hash f = some pf → pf.groups.Nodup
  pend_nodup : pending.Nodup
  file_disj : ∀ f f2 pf pf2 g, st.file_hash f = some pf → st.file_hash f2 = some pf2 →
    g ∈ pf.groups → g ∈ pf2.groups → f = f2
  pend_disj : ∀ f pf g, st.file_hash f = some pf → g ∈ pf.groups → g ∉ pending
  idx : ∀ k g, st.selinux_hash k = some g → ∃ gr, st.groups g = some gr ∧ gr.selinux = some k
  bound_in : ∀ p pc g, st.policies p = some pc → pc.group = some g →
    ∃ gr, st.groups g = some gr ∧ p ∈ gr.sessions ∧ gr.selinux = pc.selinux
  in_bound : ∀ g gr p, st.groups g = some gr → p ∈ gr.sessions →
    ∃ pc, st.policies p = some pc ∧ pc.group = some g
  sess_nodup : ∀ g gr, st.groups g = some gr → gr.sessions.Nodup

/-- Consistency of session_hash with the policy_config objects on the heap. -/
structure TableInv (st : State) : Prop where
  tab_live : ∀ s p, (s, p) ∈ st.session_hash → ∃ pc, st.policies p = some pc ∧ pc.session = s
  live_tab : ∀ p pc, st.policies p = some pc → (pc.session, p) ∈ st.session_hash
  tab_keys : (st.session_hash.map Prod.fst).Nodup
  has_id : ∀ p pc, st.policies p = some pc → pc.selinux ≠ none ∧ pc.session ≠ 0

/-- The invariant of the states between two events. -/
def Inv (st : State) : Prop := HeapInv st [] ∧ TableInv st

/-- The group recheck_sessions binds a policy_config to: the index entry of
its identity, when it is live and its bound_group is absent. -/
def recheck_target (st : State) (policy : Nat) : Option Nat :=
  match st.policies policy with
  | none => none
  | some pc =>
    match pc.group with
    | some _ => none
    | none => pc.selinux.bind st.selinux_hash

/-- No binding is left unmatched while a match is available: a live
policy_config without bound_group has no index entry for its identity. -/
def Matched (st : State) : Prop :=
  ∀ p pc k, st.policies p = some pc → pc.group = none → pc.selinux = some k →
    st.selinux_hash k = none

/-- The Global Identity Index read as a map from identity to group config. -/
def index_config (st : State) (k : String) : Option connman_session_config :=
  (st.selinux_hash k).bind (fun g => (st.groups g).map (fun gr => gr.config))

/-! ## Sections of a key-file -/

/-- The identity a section defines: the value of its selinux key. -/
def section_id (kf : GKeyFile) (name : String) : Option String :=
  kf.get_string name "selinux"

/-- The sections the loop of load_file accepts before it stops: the
leading sections for which load_policy does not fail. -/
def accepted (rt : Runtime) (kf : GKeyFile) (names : List String) : List String :=
  names.takeWhile (fun n => decide (¬ (load_policy rt kf n zero_group).1 < 0))

/-- The position of the last occurrence of a value in a list. -/
def last_index {α : Type} [DecidableEq α] : List α → α → Option Nat
  | [], _ => none
  | x :: xs, k =>
    match last_index xs k with
    | some i => some (i + 1)
    | none => if x = k then some 0 else none

/-! ## Worked example -/

/-- A sample runtime: the default config allows any bearer (service type 0);
the bearer tokens wifi and ethernet map to the service types 3 and 2, the
empty token is skipped and every other token is rejected with -EINVAL. -/
def sample_rt : Runtime :=
  { default_config :=
      { priority := false, roaming_policy := 1, type := 0, ecall := false,
        allowed_bearers := [0] }
    parse_roaming_policy := fun _ => 1
    parse_connection_type := fun _ => 0
    bearers_rc := fun t =>
      if t = "wifi" ∨ t = "ethernet" ∨ t = "" ∨ t = "*" then 0 else -22
    bearers_app := fun t l =>
      if t = "wifi" then l ++ [3]
      else if t = "ethernet" then l ++ [2]
      else if t = "*" then l ++ [0]
      else l }

/-- The key-file with one section app: selinux=app_t, AllowedBearers=wifi ethernet. -/
def sample_keyfile : GKeyFile :=
  { group_names := ["app"]
    get_string := fun g k =>
      if g = "app" ∧ k = "selinux" then some "app_t"
      else if g = "app" ∧ k = "AllowedBearers" then some "wifi ethernet"
      else none
    get_boolean := fun _ _ => false }

/-- A key-file whose first section defines app_t and whose second section has
no selinux key. -/
def broken_keyfile : GKeyFile :=
  { group_names := ["one", "two"]
    get_string := fun g k => if g = "one" ∧ k = "selinux" then some "app_t" else none
    get_boolean := fun _ _ => false }

/-- A world where app.policy holds sample_keyfile, bad.policy holds
broken_keyfile, reading enc.policy fails with the GError code 0, reading any
other file fails with the code 1, and every push is accepted. -/
def sample_world : World :=
  { load_from_file := fun f =>
      if f = "app.policy" then Except.ok sample_keyfile
      else if f = "bad.policy" then Except.ok broken_keyfile
      else if f = "enc.policy" then Except.error 0
      else Except.error 1
    config_update := fun _ => 0 }

/-- The state after app.policy was moved into the directory; notify_handler
returns for every sample event below. -/
def st_loaded : State :=
  (notify_handler sample_rt sample_world init IN_MOVED_TO (some "app.policy")).getD init

/-- The state after session 7, whose context has the type app_t, was created. -/
def st_bound : State :=
  selinux_context_reply sample_rt st_loaded "unconfined_u:object_r:app_t:s0" 7 0

/-- The state after a second session 8 with an unknown type was created. -/
def st_two : State :=
  selinux_context_reply sample_rt st_bound "unconfined_u:object_r:other_t:s0" 8 0

/-- The state after session 7 with the type app_t was created on the empty
tables, before any policy file exists. -/
def st_unmatched : State :=
  selinux_context_reply sample_rt init "unconfined_u:object_r:app_t:s0" 7 0

/-- The state in which notify_handler calls recheck_sessions when app.policy
is moved into the directory in st_unmatched: the file is loaded and
registered, session 7 is still unmatched. -/
def st_before_recheck : State :=
  file_hash_replace sample_rt sample_world
    (load_file_body sample_rt sample_world
      (file_hash_remove sample_rt sample_world st_unmatched "app.policy") sample_keyfile
      { groups := [] }).2.1
    "app.policy"
    (load_file_body sample_rt sample_world
      (file_hash_remove sample_rt sample_world st_unmatched "app.policy") sample_keyfile
      { groups := [] }).2.2

/-- A world where app.policy and twin.policy both hold sample_keyfile, so
both define the identity app_t. -/
def twin_world : World :=
  { load_from_file := fun f =>
      if f = "app.policy" then Except.ok sample_keyfile
      else if f = "twin.policy" then Except.ok sample_keyfile
      else Except.error 1
    config_update := fun _ => 0 }

/-- The state after twin.policy was moved in next to app.policy. -/
def st_twin : State :=
  (notify_handler sample_rt twin_world st_loaded IN_MOVED_TO (some "twin.policy")).getD init

/-- The state after app.policy was then deleted. -/
def st_twin_removed : State :=
  (notify_handler sample_rt twin_world st_twin IN_DELETE (some "app.policy")).getD init

/-- The state after a modify event for bad.policy, whose load fails, while
app.policy is loaded. -/
def st_failed : State :=
  (notify_handler sample_rt sample_world st_loaded IN_MODIFY (some "bad.policy")).getD init

/-- The state after the directory scan found bad.policy, a hidden file and
app.policy, in that order. -/
def st_scanned : State :=
  ((read_policies sample_rt sample_world init
    (some ["bad.policy", ".app.policy", "app.policy"])).getD (0, init)).2

/-- The state after session 9, whose context has the unknown type other_t,
was then created. -/
def st_scan_session : State :=
  selinux_context_reply sample_rt st_scanned "unconfined_u:object_r:other_t:s0" 9 0

/-! ## Lemmas -/

/-! ### Frame lemmas for update_session -/

theorem update_session_frame (w : World) (st : State) (p : Nat) :
    (update_session w st p).file_hash = st.file_hash ∧
    (update_session w st p).session_hash = st.session_hash ∧
    (update_session w st p).selinux_hash = st.selinux_hash ∧
    (update_session w st p).groups = st.groups ∧
    (update_session w st p).policies = st.policies ∧
    (update_session w st p).heap_top = st.heap_top ∧
    (update_session w st p).log = st.log ++ push_effects w (st.policies p) := by
  unfold update_session push_effects
  cases h : st.policies p with
  | none => simp
  | some pc =>
    by_cases h0 : pc.session = 0
    · simp [h0]
    · by_cases h1 : w.config_update pc.session < 0 <;> simp [h0, h1, emit]

theorem push_effects_detach (rt : Runtime) (w : World) (slot : Option policy_config) :
    push_effects w (slot.map (detach rt)) = push_effects w slot := by
  cases slot <;> simp [push_effects, detach]

theorem set_default_config_frame (rt : Runtime) (w : World) (st : State) (p : Nat) :
    (set_default_config rt w st p).file_hash = st.file_hash ∧
    (set_default_config rt w st p).session_hash = st.session_hash ∧
    (set_default_config rt w st p).selinux_hash = st.selinux_hash ∧
    (set_default_config rt w st p).groups = st.groups ∧
    (set_default_config rt w st p).policies
      = Function.update st.policies p ((st.policies p).map (detach rt)) ∧
    (set_default_config rt w st p).heap_top = st.heap_top ∧
    (set_default_config rt w st p).log = st.log ++ push_effects w (st.policies p) := by
  unfold set_default_config
  cases h : st.policies p with
  | none =>
    refine ⟨rfl, rfl, rfl, rfl, ?_, rfl, by simp [push_effects]⟩
    show st.policies = _
    rw [Option.map_none', ← h, Function.update_eq_self]
  | some pc =>
    simp only [update_session_frame]
    simp [push_effects, detach]

theorem detach_detach (rt : Runtime) (pc : policy_config) :
    detach rt (detach rt pc) = detach rt pc := rfl

theorem detach_loop_frame (rt : Runtime) (w : World) (l : List Nat) (st : State) :
    (l.foldl (set_default_config rt w) st).file_hash = st.file_hash ∧
    (l.foldl (set_default_config rt w) st).session_hash = st.session_hash ∧
    (l.foldl (set_default_config rt w) st).selinux_hash = st.selinux_hash ∧
    (l.foldl (set_default_config rt w) st).groups = st.groups ∧
    (∀ q, (l.foldl (set_default_config rt w) st).policies q
      = if q ∈ l then (st.policies q).map (detach rt) else st.policies q) ∧
    (l.foldl (set_default_config rt w) st).heap_top = st.heap_top ∧
    (l.foldl (set_default_config rt w) st).log
      = st.log ++ l.flatMap (fun p => push_effects w (st.policies p)) := by
  induction l generalizing st with
  | nil => simp
  | cons p l ih =>
    obtain ⟨h1, h2, h3, h4, h5, h6, h7⟩ := set_default_config_frame rt w st p
    obtain ⟨i1, i2, i3, i4, i5, i6, i7⟩ := ih (set_default_config rt w st p)
    simp only [List.foldl_cons]
    refine ⟨i1.trans h1, i2.trans h2, i3.trans h3, i4.trans h4, ?_, i6.trans h6, ?_⟩
    · intro q
      rw [i5 q, h5]
      by_cases hq : q = p
      · subst hq
        by_cases hl : q ∈ l <;> simp [hl, Function.comp_def, detach_detach]
      · simp [hq, Function.update_noteq hq]
    · rw [i7, h7, h5]
      simp only [List.flatMap_cons, List.append_assoc]
      congr 2
      apply List.flatMap_congr
      intro q _
      by_cases hq : q = p
      · subst hq; simp [push_effects_detach]
      · simp [Function.update_noteq hq]

theorem cleanup_group_frame (rt : Runtime) (w : World) (st : State) (g : Nat)
    (gr : policy_group) (hg : st.groups g = some gr) :
    (cleanup_group rt w st g).file_hash = st.file_hash ∧
    (cleanup_group rt w st g).session_hash = st.session_hash ∧
    (∀ k, (cleanup_group rt w st g).selinux_hash k
      = if gr.selinux = some k then none else st.selinux_hash k) ∧
    (∀ a, (cleanup_group rt w st g).groups a = if a = g then none else st.groups a) ∧
    (∀ q, (cleanup_group rt w st g).policies q
      = if q ∈ gr.sessions then (st.policies q).map (detach rt) else st.policies q) ∧
    (cleanup_group rt w st g).heap_top = st.heap_top ∧
    (cleanup_group rt w st g).log
      = st.log ++ gr.sessions.flatMap (fun p => push_effects w (st.policies p)) := by
  obtain ⟨h1, h2, h3, h4, h5, h6, h7⟩ := detach_loop_frame rt w gr.sessions st
  unfold cleanup_group
  simp only [hg]
  cases hk : gr.selinux with
  | none =>
    simp only [hk]
    refine ⟨h1, h2, ?_, ?_, h5, h6, h7⟩
    · intro k; simp [h3]
    · intro a; simp [h4, Function.update_apply]
  | some k0 =>
    simp only [hk]
    refine ⟨h1, h2, ?_, ?_, h5, h6, h7⟩
    · intro k
      simp only [h3, Function.update_apply, Option.some.injEq]
      by_cases e : k = k0
      · simp [e]
      · simp [e, Ne.symm e]
    · intro a; simp [h4, Function.update_apply]

theorem cleanup_group_dead (rt : Runtime) (w : World) (st : State) (g : Nat)
    (hg : st.groups g = none) : cleanup_group rt w st g = st := by
  unfold cleanup_group; rw [hg]

theorem heap_cleanup_group {rt : Runtime} {w : World} {st : State} {g : Nat}
    {rest : List Nat} (h : HeapInv st (g :: rest)) :
    HeapInv (cleanup_group rt w st g) rest := by
  obtain ⟨gr, hg⟩ := h.pend_live g (List.mem_cons_self _ _)
  obtain ⟨f1, f2, f3, f4, f5, f6, f7⟩ := cleanup_group_frame rt w st g gr hg
  have hnd := List.nodup_cons.mp h.pend_nodup
  constructor
  · intro a ha
    rw [f4, h.grp_fresh a (f6 ▸ ha)]; simp
  · intro a ha
    rw [f5, h.pol_fresh a (f6 ▸ ha)]; simp
  · intro f pf g2 hf hm
    rw [f1] at hf
    have hne : g2 ≠ g := fun e => h.pend_disj f pf g2 hf hm (e ▸ List.mem_cons_self _ _)
    rw [f4, if_neg hne]
    exact h.file_live f pf g2 hf hm
  · intro g2 hm
    have hne : g2 ≠ g := fun e => hnd.1 (e ▸ hm)
    rw [f4, if_neg hne]
    exact h.pend_live g2 (List.mem_cons_of_mem _ hm)
  · intro g2 gr2 hl
    rw [f4] at hl
    by_cases e : g2 = g
    · simp [e] at hl
    · rw [if_neg e] at hl
      rcases h.owned g2 gr2 hl with hp | hp
      · left
        rcases List.mem_cons.mp hp with hp | hp
        · exact absurd hp e
        · exact hp
      · right; rw [f1]; exact hp
  · intro f pf hf; rw [f1] at hf; exact h.file_nodup f pf hf
  · exact hnd.2
  · intro f f2 pf pf2 g2 hf hf2; rw [f1] at hf hf2; exact h.file_disj f f2 pf pf2 g2 hf hf2
  · intro f pf g2 hf hm hp
    rw [f1] at hf
    exact h.pend_disj f pf g2 hf hm (List.mem_cons_of_mem _ hp)
  · intro k g2 hk
    rw [f3] at hk
    by_cases e : gr.selinux = some k
    · simp [e] at hk
    · rw [if_neg e] at hk
      obtain ⟨gr2, hl, hs⟩ := h.idx k g2 hk
      have hne : g2 ≠ g := by
        intro e2; subst e2; rw [hg] at hl; injection hl with hl; subst hl; exact e hs
      exact ⟨gr2, by rw [f4, if_neg hne]; exact hl, hs⟩
  · intro p pc g2 hp hb
    rw [f5] at hp
    by_cases e : p ∈ gr.sessions
    · rw [if_pos e] at hp
      cases hq : st.policies p with
      | none => simp [hq] at hp
      | some pc0 =>
        simp [hq] at hp; subst hp; simp [detach] at hb
    · rw [if_neg e] at hp
      obtain ⟨gr2, hl, hm, hs⟩ := h.bound_in p pc g2 hp hb
      have hne : g2 ≠ g := by
        intro e2; subst e2; rw [hg] at hl; injection hl with hl; subst hl; exact e hm
      exact ⟨gr2, by rw [f4, if_neg hne]; exact hl, hm, hs⟩
  · intro g2 gr2 p hl hm
    rw [f4] at hl
    by_cases e : g2 = g
    · simp [e] at hl
    · rw [if_neg e] at hl
      obtain ⟨pc, hp, hb⟩ := h.in_bound g2 gr2 p hl hm
      have hn : p ∉ gr.sessions := by
        intro hin
        obtain ⟨pc2, hp2, hb2⟩ := h.in_bound g gr p hg hin
        rw [hp] at hp2; injection hp2 with hp2; subst hp2
        rw [hb] at hb2; injection hb2 with hb2
        exact e hb2
      exact ⟨pc, by rw [f5, if_neg hn]; exact hp, hb⟩
  · intro g2 gr2 hl
    rw [f4] at hl
    by_cases e : g2 = g
    · simp [e] at hl
    · rw [if_neg e] at hl
      exact h.sess_nodup g2 gr2 hl

theorem heap_cleanup_loop {rt : Runtime} {w : World} (gs : List Nat) {st : State}
    {rest : List Nat} (h : HeapInv st (gs ++ rest)) :
    HeapInv (gs.foldl (cleanup_group rt w) st) rest := by
  induction gs generalizing st with
  | nil => simpa using h
  | cons g gs ih =>
    simp only [List.foldl_cons]
    exact ih (heap_cleanup_group h)

/-- TableInv only reads the table and the session and identity of the live
policy_config objects. -/
theorem table_transfer {st st2 : State} (h : TableInv st)
    (ht : st2.session_hash = st.session_hash)
    (hp : ∀ p, (st2.policies p).map (fun pc => (pc.session, pc.selinux))
      = (st.policies p).map (fun pc => (pc.session, pc.selinux))) :
    TableInv st2 := by
  have key : ∀ p pc2, st2.policies p = some pc2 →
      ∃ pc, st.policies p = some pc ∧ pc.session = pc2.session ∧ pc.selinux = pc2.selinux := by
    intro p pc2 h2
    have := hp p
    rw [h2] at this
    cases hq : st.policies p with
    | none => simp [hq] at this
    | some pc =>
      simp [hq] at this
      exact ⟨pc, rfl, this.1.symm, this.2.symm⟩
  have key2 : ∀ p pc, st.policies p = some pc →
      ∃ pc2, st2.policies p = some pc2 ∧ pc.session = pc2.session ∧ pc.selinux = pc2.selinux := by
    intro p pc h2
    have := hp p
    rw [h2] at this
    cases hq : st2.policies p with
    | none => simp [hq] at this
    | some pc2 =>
      simp [hq] at this
      exact ⟨pc2, rfl, this.1.symm, this.2.symm⟩
  constructor
  · intro s p hm
    rw [ht] at hm
    obtain ⟨pc, h1, h2⟩ := h.tab_live s p hm
    obtain ⟨pc2, h3, h4, _⟩ := key2 p pc h1
    exact ⟨pc2, h3, by rw [← h4, h2]⟩
  · intro p pc2 h2
    obtain ⟨pc, h1, h3, _⟩ := key p pc2 h2
    rw [ht, ← h3]
    exact h.live_tab p pc h1
  · rw [ht]; exact h.tab_keys
  · intro p pc2 h2
    obtain ⟨pc, h1, h3, h4⟩ := key p pc2 h2
    rw [← h3, ← h4]
    exact h.has_id p pc h1

theorem map_view_detach (rt : Runtime) (slot : Option policy_config) :
    (slot.map (detach rt)).map (fun pc => (pc.session, pc.selinux))
      = slot.map (fun pc => (pc.session, pc.selinux)) := by
  cases slot <;> simp [detach]

theorem table_cleanup_group {rt : Runtime} {w : World} {st : State} (g : Nat)
    (h : TableInv st) : TableInv (cleanup_group rt w st g) := by
  cases hg : st.groups g with
  | none => rw [cleanup_group_dead rt w st g hg]; exact h
  | some gr =>
    obtain ⟨f1, f2, f3, f4, f5, f6, f7⟩ := cleanup_group_frame rt w st g gr hg
    refine table_transfer h f2 ?_
    intro p
    rw [f5]
    by_cases e : p ∈ gr.sessions
    · rw [if_pos e, map_view_detach]
    · rw [if_neg e]

theorem table_cleanup_loop {rt : Runtime} {w : World} (gs : List Nat) {st : State}
    (h : TableInv st) :
    TableInv (gs.foldl (cleanup_group rt w) st) := by
  induction gs generalizing st with
  | nil => simpa using h
  | cons g gs ih =>
    simp only [List.foldl_cons]
    exact ih (table_cleanup_group g h)

theorem cleanup_group_groups (rt : Runtime) (w : World) (st : State) (g a : Nat) :
    (cleanup_group rt w st g).groups a = if a = g then none else st.groups a := by
  cases hg : st.groups g with
  | none =>
    rw [cleanup_group_dead rt w st g hg]
    by_cases e : a = g
    · rw [if_pos e, e, hg]
    · rw [if_neg e]
  | some gr => exact (cleanup_group_frame rt w st g gr hg).2.2.2.1 a

theorem bound_of_congr (st st2 : State) (gs : List Nat)
    (h : ∀ g, g ∈ gs → st2.groups g = st.groups g) : bound_of st2 gs = bound_of st gs := by
  unfold bound_of
  apply List.flatMap_congr
  intro g hg
  rw [h g hg]

theorem ids_of_congr (st st2 : State) (gs : List Nat)
    (h : ∀ g, g ∈ gs → st2.groups g = st.groups g) : ids_of st2 gs = ids_of st gs := by
  unfold ids_of
  apply List.filterMap_congr
  intro g hg
  rw [h g hg]

theorem cleanup_loop_frame (rt : Runtime) (w : World) (gs : List Nat) (st : State)
    (hnd : gs.Nodup) :
    (gs.foldl (cleanup_group rt w) st).file_hash = st.file_hash ∧
    (gs.foldl (cleanup_group rt w) st).session_hash = st.session_hash ∧
    (∀ k, (gs.foldl (cleanup_group rt w) st).selinux_hash k
      = if k ∈ ids_of st gs then none else st.selinux_hash k) ∧
    (∀ a, (gs.foldl (cleanup_group rt w) st).groups a = if a ∈ gs then none else st.groups a) ∧
    (∀ q, (gs.foldl (cleanup_group rt w) st).policies q
      = if q ∈ bound_of st gs then (st.policies q).map (detach rt) else st.policies q) ∧
    (gs.foldl (cleanup_group rt w) st).heap_top = st.heap_top ∧
    (gs.foldl (cleanup_group rt w) st).log
      = st.log ++ (bound_of st gs).flatMap (fun p => push_effects w (st.policies p)) := by
  induction gs generalizing st with
  | nil => simp [bound_of, ids_of]
  | cons g gs ih =>
    have hn := List.nodup_cons.mp hnd
    obtain ⟨i1, i2, i3, i4, i5, i6, i7⟩ := ih (cleanup_group rt w st g) hn.2
    have hsame : ∀ g2, g2 ∈ gs → (cleanup_group rt w st g).groups g2 = st.groups g2 := by
      intro g2 h2
      rw [cleanup_group_groups, if_neg]
      intro e; exact hn.1 (e ▸ h2)
    have hb := bound_of_congr st (cleanup_group rt w st g) gs hsame
    have hi := ids_of_congr st (cleanup_group rt w st g) gs hsame
    simp only [List.foldl_cons]
    cases hg : st.groups g with
    | none =>
      have hd := cleanup_group_dead rt w st g hg
      have e1 : bound_of st (g :: gs) = bound_of st gs := by
        simp [bound_of, hg]
      have e2 : ids_of st (g :: gs) = ids_of st gs := by
        simp [ids_of, hg]
      rw [hd] at i1 i2 i3 i4 i5 i6 i7 ⊢
      rw [e1, e2]
      refine ⟨i1, i2, i3, ?_, i5, i6, i7⟩
      intro a
      rw [i4]
      by_cases e : a = g
      · subst e; simp [hg]
      · simp [e]
    | some gr =>
      obtain ⟨f1, f2, f3, f4, f5, f6, f7⟩ := cleanup_group_frame rt w st g gr hg
      have e1 : bound_of st (g :: gs) = gr.sessions ++ bound_of st gs := by
        simp [bound_of, hg]
      refine ⟨i1.trans f1, i2.trans f2, ?_, ?_, ?_, i6.trans f6, ?_⟩
      · intro k
        rw [i3, hi, f3]
        cases hs : gr.selinux with
        | none => simp [ids_of, hg, hs]
        | some k0 =>
          by_cases e : k0 = k
          · simp [ids_of, hg, hs, e]
          · have e3 : ¬ k = k0 := fun h => e h.symm
            simp [ids_of, hg, hs, e, e3]
      · intro a
        rw [i4, f4]
        by_cases e : a = g
        · simp [e]
        · simp [e]
      · intro q
        rw [i5, hb, f5, e1]
        by_cases ha : q ∈ gr.sessions
        · by_cases hb2 : q ∈ bound_of st gs <;>
            simp [ha, hb2, Function.comp_def, detach_detach]
        · simp [ha]
      · rw [i7, f7, hb, e1, List.flatMap_append, List.append_assoc]
        congr 2
        apply List.flatMap_congr
        intro q _
        rw [f5]
        by_cases ha : q ∈ gr.sessions
        · rw [if_pos ha, push_effects_detach]
        · rw [if_neg ha]

theorem heap_congr {st st2 : State} {pending : List Nat} (h : HeapInv st pending)
    (h1 : st2.file_hash = st.file_hash) (h2 : st2.selinux_hash = st.selinux_hash)
    (h3 : st2.groups = st.groups) (h4 : st2.policies = st.policies)
    (h5 : st2.heap_top = st.heap_top) : HeapInv st2 pending := by
  constructor
  · rw [h3, h5]; exact h.grp_fresh
  · rw [h4, h5]; exact h.pol_fresh
  · rw [h1, h3]; exact h.file_live
  · rw [h3]; exact h.pend_live
  · rw [h1, h3]; exact h.owned
  · rw [h1]; exact h.file_nodup
  · exact h.pend_nodup
  · rw [h1]; exact h.file_disj
  · rw [h1]; exact h.pend_disj
  · rw [h2, h3]; exact h.idx
  · rw [h3, h4]; exact h.bound_in
  · rw [h3, h4]; exact h.in_bound
  · rw [h3]; exact h.sess_nodup

theorem heap_unregister {st : State} {rest : List Nat} (h : HeapInv st rest)
    (f : String) (pf : policy_file) (hf : st.file_hash f = some pf) :
    HeapInv { st with file_hash := Function.update st.file_hash f none } (pf.groups ++ rest) := by
  have key : ∀ f2 pf2, Function.update st.file_hash f none f2 = some pf2 →
      f2 ≠ f ∧ st.file_hash f2 = some pf2 := by
    intro f2 pf2 h2
    by_cases e : f2 = f
    · subst e; simp at h2
    · rw [Function.update_noteq e] at h2; exact ⟨e, h2⟩
  constructor
  · exact h.grp_fresh
  · exact h.pol_fresh
  · intro f2 pf2 g h2 hm
    exact h.file_live f2 pf2 g (key f2 pf2 h2).2 hm
  · intro g hm
    rcases List.mem_append.mp hm with hm | hm
    · exact h.file_live f pf g hf hm
    · exact h.pend_live g hm
  · intro g gr hl
    rcases h.owned g gr hl with hp | ⟨f2, pf2, h2, hm⟩
    · left; exact List.mem_append_right _ hp
    · by_cases e : f2 = f
      · subst e
        rw [hf] at h2; injection h2 with h2; subst h2
        left; exact List.mem_append_left _ hm
      · right
        exact ⟨f2, pf2, by simp [Function.update_noteq e, h2], hm⟩
  · intro f2 pf2 h2; exact h.file_nodup f2 pf2 (key f2 pf2 h2).2
  · refine List.Nodup.append (h.file_nodup f pf hf) h.pend_nodup ?_
    intro g h1 h2
    exact h.pend_disj f pf g hf h1 h2
  · intro f2 f3 pf2 pf3 g h2 h3
    exact h.file_disj f2 f3 pf2 pf3 g (key f2 pf2 h2).2 (key f3 pf3 h3).2
  · intro f2 pf2 g h2 hm hp
    obtain ⟨hne, h2⟩ := key f2 pf2 h2
    rcases List.mem_append.mp hp with hp | hp
    · exact hne (h.file_disj f2 f pf2 pf g h2 hf hm hp)
    · exact h.pend_disj f2 pf2 g h2 hm hp
  · exact h.idx
  · exact h.bound_in
  · exact h.in_bound
  · exact h.sess_nodup

theorem heap_register {st : State} {gs rest : List Nat} (h : HeapInv st (gs ++ rest))
    (f : String) (hf : st.file_hash f = none) :
    HeapInv { st with file_hash := Function.update st.file_hash f (some { groups := gs }) }
      rest := by
  have hnd := List.nodup_append.mp h.pend_nodup
  have key : ∀ f2 pf2, Function.update st.file_hash f (some { groups := gs }) f2 = some pf2 →
      (f2 = f ∧ pf2.groups = gs) ∨ (f2 ≠ f ∧ st.file_hash f2 = some pf2) := by
    intro f2 pf2 h2
    by_cases e : f2 = f
    · subst e; simp at h2; left; exact ⟨rfl, by rw [← h2]⟩
    · rw [Function.update_noteq e] at h2; exact Or.inr ⟨e, h2⟩
  constructor
  · exact h.grp_fresh
  · exact h.pol_fresh
  · intro f2 pf2 g h2 hm
    rcases key f2 pf2 h2 with ⟨_, e⟩ | ⟨_, e⟩
    · exact h.pend_live g (List.mem_append_left _ (e ▸ hm))
    · exact h.file_live f2 pf2 g e hm
  · intro g hm; exact h.pend_live g (List.mem_append_right _ hm)
  · intro g gr hl
    rcases h.owned g gr hl with hp | ⟨f2, pf2, h2, hm⟩
    · rcases List.mem_append.mp hp with hp | hp
      · right; exact ⟨f, { groups := gs }, by simp, hp⟩
      · left; exact hp
    · right
      have e : f2 ≠ f := by intro e; rw [e, hf] at h2; exact absurd h2 (by simp)
      exact ⟨f2, pf2, by simp [Function.update_noteq e, h2], hm⟩
  · intro f2 pf2 h2
    rcases key f2 pf2 h2 with ⟨_, e⟩ | ⟨_, e⟩
    · rw [e]; exact hnd.1
    · exact h.file_nodup f2 pf2 e
  · exact hnd.2.1
  · intro f2 f3 pf2 pf3 g h2 h3 m2 m3
    rcases key f2 pf2 h2 with ⟨a2, e2⟩ | ⟨a2, e2⟩ <;>
      rcases key f3 pf3 h3 with ⟨a3, e3⟩ | ⟨a3, e3⟩
    · rw [a2, a3]
    · exact absurd (List.mem_append_left rest (e2 ▸ m2)) (h.pend_disj f3 pf3 g e3 m3)
    · exact absurd (List.mem_append_left rest (e3 ▸ m3)) (h.pend_disj f2 pf2 g e2 m2)
    · exact h.file_disj f2 f3 pf2 pf3 g e2 e3 m2 m3
  · intro f2 pf2 g h2 hm hp
    rcases key f2 pf2 h2 with ⟨_, e⟩ | ⟨_, e⟩
    · exact hnd.2.2 (e ▸ hm) hp
    · exact h.pend_disj f2 pf2 g e hm (List.mem_append_right _ hp)
  · exact h.idx
  · exact h.bound_in
  · exact h.in_bound
  · exact h.sess_nodup

theorem file_hash_remove_file_hash (rt : Runtime) (w : World) (st : State) (f : String)
    (hnd : ∀ pf, st.file_hash f = some pf → pf.groups.Nodup) :
    (file_hash_remove rt w st f).file_hash = Function.update st.file_hash f none := by
  unfold file_hash_remove
  cases hf : st.file_hash f with
  | none =>
    show st.file_hash = _
    rw [← hf, Function.update_eq_self]
  | some pf =>
    simp only [cleanup_file]
    rw [(cleanup_loop_frame rt w pf.groups _ (hnd pf hf)).1]

theorem heap_file_hash_remove {rt : Runtime} {w : World} {st : State} {rest : List Nat}
    (h : HeapInv st rest) (f : String) :
    HeapInv (file_hash_remove rt w st f) rest := by
  unfold file_hash_remove
  cases hf : st.file_hash f with
  | none => exact h
  | some pf => exact heap_cleanup_loop pf.groups (heap_unregister h f pf hf)

theorem table_file_hash_remove {rt : Runtime} {w : World} {st : State}
    (h : TableInv st) (f : String) :
    TableInv (file_hash_remove rt w st f) := by
  unfold file_hash_remove
  cases hf : st.file_hash f with
  | none => exact h
  | some pf =>
    have h0 : TableInv { st with file_hash := Function.update st.file_hash f none } :=
      table_transfer h rfl (fun _ => rfl)
    exact table_cleanup_loop pf.groups h0

theorem heap_file_hash_replace {rt : Runtime} {w : World} {st : State}
    {gs rest : List Nat} (h : HeapInv st (gs ++ rest)) (f : String) :
    HeapInv (file_hash_replace rt w st f { groups := gs }) rest := by
  unfold file_hash_replace
  have h1 : HeapInv (file_hash_remove rt w st f) (gs ++ rest) := heap_file_hash_remove h f
  refine heap_register h1 f ?_
  rw [file_hash_remove_file_hash rt w st f (fun pf hf => h.file_nodup f pf hf)]
  simp

theorem table_file_hash_replace {rt : Runtime} {w : World} {st : State}
    (h : TableInv st) (f : String) (file : policy_file) :
    TableInv (file_hash_replace rt w st f file) := by
  unfold file_hash_replace
  have h1 : TableInv (file_hash_remove rt w st f) := table_file_hash_remove h f
  exact table_transfer h1 rfl (fun _ => rfl)

theorem load_policy_sessions (rt : Runtime) (kf : GKeyFile) (name : String)
    (gr : policy_group) : (load_policy rt kf name gr).2.sessions = gr.sessions := by
  unfold load_policy
  cases kf.get_string name "selinux" <;> rfl

theorem load_policy_selinux (rt : Runtime) (kf : GKeyFile) (name : String)
    (gr : policy_group) :
    (load_policy rt kf name gr).2.selinux = kf.get_string name "selinux" := by
  unfold load_policy
  cases kf.get_string name "selinux" <;> rfl

theorem load_policy_ok (rt : Runtime) (kf : GKeyFile) (name : String) (gr : policy_group)
    (h : ¬ (load_policy rt kf name gr).1 < 0) :
    ∃ k, kf.get_string name "selinux" = some k := by
  cases hs : kf.get_string name "selinux" with
  | some k => exact ⟨k, rfl⟩
  | none =>
    exfalso; apply h
    simp [load_policy, hs, EINVAL]

theorem heap_bump {st : State} {pending : List Nat} (h : HeapInv st pending) :
    HeapInv { st with heap_top := st.heap_top + 1 } pending := by
  constructor
  · intro a ha; exact h.grp_fresh a (Nat.le_of_succ_le ha)
  · intro a ha; exact h.pol_fresh a (Nat.le_of_succ_le ha)
  · exact h.file_live
  · exact h.pend_live
  · exact h.owned
  · exact h.file_nodup
  · exact h.pend_nodup
  · exact h.file_disj
  · exact h.pend_disj
  · exact h.idx
  · exact h.bound_in
  · exact h.in_bound
  · exact h.sess_nodup

theorem heap_add_group {st : State} {pending : List Nat} (h : HeapInv st pending)
    (gr : policy_group) (k : String) (hk : gr.selinux = some k) (hs : gr.sessions = []) :
    HeapInv
      { st with
        groups := Function.update st.groups st.heap_top (some gr)
        selinux_hash := Function.update st.selinux_hash k (some st.heap_top)
        heap_top := st.heap_top + 1 }
      (st.heap_top :: pending) := by
  have hfresh := h.grp_fresh st.heap_top (Nat.le_refl _)
  have live_ne : ∀ g gr2, st.groups g = some gr2 → g ≠ st.heap_top := by
    intro g gr2 hl e; rw [e, hfresh] at hl; exact absurd hl (by simp)
  have key : ∀ g gr2, Function.update st.groups st.heap_top (some gr) g = some gr2 →
      (g = st.heap_top ∧ gr2 = gr) ∨ (g ≠ st.heap_top ∧ st.groups g = some gr2) := by
    intro g gr2 h2
    by_cases e : g = st.heap_top
    · subst e; simp at h2; exact Or.inl ⟨rfl, h2.symm⟩
    · rw [Function.update_noteq e] at h2; exact Or.inr ⟨e, h2⟩
  have keep : ∀ g gr2, st.groups g = some gr2 →
      Function.update st.groups st.heap_top (some gr) g = some gr2 := by
    intro g gr2 hl
    rw [Function.update_noteq (live_ne g gr2 hl)]; exact hl
  constructor
  · intro a ha
    have e : a ≠ st.heap_top := by
      intro e; rw [e] at ha; exact absurd ha (Nat.not_succ_le_self _)
    show Function.update st.groups st.heap_top (some gr) a = none
    rw [Function.update_noteq e]
    exact h.grp_fresh a (Nat.le_of_succ_le ha)
  · intro a ha; exact h.pol_fresh a (Nat.le_of_succ_le ha)
  · intro f pf g hf hm
    obtain ⟨gr2, hl⟩ := h.file_live f pf g hf hm
    exact ⟨gr2, keep g gr2 hl⟩
  · intro g hm
    rcases List.mem_cons.mp hm with e | hm
    · exact ⟨gr, by show Function.update st.groups st.heap_top (some gr) g = some gr; rw [e]; simp⟩
    · obtain ⟨gr2, hl⟩ := h.pend_live g hm
      exact ⟨gr2, keep g gr2 hl⟩
  · intro g gr2 hl
    rcases key g gr2 hl with ⟨e, _⟩ | ⟨_, hl⟩
    · left; rw [e]; exact List.mem_cons_self _ _
    · rcases h.owned g gr2 hl with hp | hp
      · left; exact List.mem_cons_of_mem _ hp
      · right; exact hp
  · exact h.file_nodup
  · refine List.nodup_cons.mpr ⟨?_, h.pend_nodup⟩
    intro hm
    obtain ⟨gr2, hl⟩ := h.pend_live _ hm
    exact live_ne _ gr2 hl rfl
  · exact h.file_disj
  · intro f pf g hf hm hp
    rcases List.mem_cons.mp hp with e | hp
    · obtain ⟨gr2, hl⟩ := h.file_live f pf g hf hm
      exact live_ne g gr2 hl e
    · exact h.pend_disj f pf g hf hm hp
  · intro k2 g h2
    show ∃ gr2, Function.update st.groups st.heap_top (some gr) g = some gr2 ∧ _
    by_cases e : k2 = k
    · subst e
      have : g = st.heap_top := by
        have h3 : Function.update st.selinux_hash k2 (some st.heap_top) k2 = some g := h2
        simp at h3; exact h3.symm
      subst this
      exact ⟨gr, by simp, hk⟩
    · have h3 : Function.update st.selinux_hash k (some st.heap_top) k2 = some g := h2
      rw [Function.update_noteq e] at h3
      obtain ⟨gr2, hl, hs2⟩ := h.idx k2 g h3
      exact ⟨gr2, keep g gr2 hl, hs2⟩
  · intro p pc g hp hb
    obtain ⟨gr2, hl, hm, hs2⟩ := h.bound_in p pc g hp hb
    exact ⟨gr2, keep g gr2 hl, hm, hs2⟩
  · intro g gr2 p hl hm
    rcases key g gr2 hl with ⟨_, e⟩ | ⟨_, hl⟩
    · rw [e, hs] at hm; exact absurd hm (List.not_mem_nil _)
    · exact h.in_bound g gr2 p hl hm
  · intro g gr2 hl
    rcases key g gr2 hl with ⟨_, e⟩ | ⟨_, hl⟩
    · rw [e, hs]; exact List.nodup_nil
    · exact h.sess_nodup g gr2 hl

theorem load_groups_frame (rt : Runtime) (kf : GKeyFile) (names : List String) (st : State)
    (file : policy_file) (err : Int) :
    (load_groups rt kf names st file err).2.1.file_hash = st.file_hash ∧
    (load_groups rt kf names st file err).2.1.session_hash = st.session_hash ∧
    (load_groups rt kf names st file err).2.1.policies = st.policies ∧
    (load_groups rt kf names st file err).2.1.log = st.log := by
  induction names generalizing st file err with
  | nil => simp [load_groups]
  | cons name rest ih =>
    unfold load_groups
    by_cases hr : (load_policy rt kf name zero_group).1 < 0
    · simp [hr]
    · simp only [hr, if_false]
      obtain ⟨i1, i2, i3, i4⟩ := ih _ _ (load_policy rt kf name zero_group).1
      exact ⟨i1, i2, i3, i4⟩

theorem heap_load_groups {rt : Runtime} {kf : GKeyFile} (names : List String)
    {st : State} {file : policy_file} {rest : List Nat} (err : Int)
    (h : HeapInv st (file.groups ++ rest)) :
    HeapInv (load_groups rt kf names st file err).2.1
      ((load_groups rt kf names st file err).2.2.groups ++ rest) := by
  induction names generalizing st file err with
  | nil => simpa [load_groups] using h
  | cons name names ih =>
    unfold load_groups
    have hfresh := h.grp_fresh st.heap_top (Nat.le_refl _)
    by_cases hr : (load_policy rt kf name zero_group).1 < 0
    · simp only [hr, if_true]
      refine heap_congr (heap_bump h) rfl rfl ?_ rfl rfl
      show Function.update (Function.update st.groups st.heap_top (some zero_group))
        st.heap_top none = st.groups
      rw [Function.update_idem, ← hfresh, Function.update_eq_self]
    · simp only [hr, if_false]
      obtain ⟨k, hk⟩ := load_policy_ok rt kf name zero_group hr
      have hsel := load_policy_selinux rt kf name zero_group
      rw [hk] at hsel
      apply ih
      have h2 := heap_add_group h (load_policy rt kf name zero_group).2 k hsel
        (load_policy_sessions rt kf name zero_group)
      refine heap_congr h2 rfl ?_ ?_ rfl rfl
      · simp [hsel]
      · simp [Function.update_idem]

/-- The two ways load_file returns: early with the negative value of
load_keyfile, or from the statements after it with the key-file that was
read. -/
theorem load_file_some {rt : Runtime} {w : World} {st : State} {f : String}
    {file : policy_file} {r : Int × State × policy_file}
    (h : load_file rt w st f file = some r) :
    (∃ code, w.load_from_file f = Except.error code ∧ 0 < code ∧ r = (-code, st, file)) ∨
    (∃ kf, w.load_from_file f = Except.ok kf ∧ r = load_file_body rt w st kf file) := by
  unfold load_file load_keyfile at h
  cases hk : w.load_from_file f with
  | error code =>
    rw [hk] at h
    simp only at h
    by_cases hneg : -code < 0
    · rw [if_pos hneg] at h
      injection h with h
      exact Or.inl ⟨code, rfl, by omega, h.symm⟩
    · rw [if_neg hneg] at h
      exact absurd h (by simp)
  | ok kf =>
    rw [hk] at h
    simp only at h
    rw [if_neg (by decide)] at h
    injection h with h
    exact Or.inr ⟨kf, rfl, h.symm⟩

theorem load_file_ok (rt : Runtime) (w : World) (st : State) (f : String)
    (file : policy_file) (kf : GKeyFile) (hk : w.load_from_file f = Except.ok kf) :
    load_file rt w st f file = some (load_file_body rt w st kf file) := by
  unfold load_file load_keyfile
  rw [hk]
  simp only
  rw [if_neg (by decide)]

theorem load_file_error (rt : Runtime) (w : World) (st : State) (f : String)
    (file : policy_file) (code : Int) (hk : w.load_from_file f = Except.error code)
    (hpos : 0 < code) :
    load_file rt w st f file = some (-code, st, file) := by
  unfold load_file load_keyfile
  rw [hk]
  simp only
  rw [if_pos (by omega)]

theorem load_file_killed (rt : Runtime) (w : World) (st : State) (f : String)
    (file : policy_file) (code : Int) (hk : w.load_from_file f = Except.error code)
    (hle : code ≤ 0) :
    load_file rt w st f file = none := by
  unfold load_file load_keyfile
  rw [hk]
  simp only
  rw [if_neg (by omega)]

theorem heap_load_file_body {rt : Runtime} {w : World} {st : State} {rest : List Nat}
    (kf : GKeyFile) (h : HeapInv st rest) :
    ((load_file_body rt w st kf { groups := [] }).1 < 0 →
      HeapInv (load_file_body rt w st kf { groups := [] }).2.1 rest) ∧
    (¬ (load_file_body rt w st kf { groups := [] }).1 < 0 →
      HeapInv (load_file_body rt w st kf { groups := [] }).2.1
        ((load_file_body rt w st kf { groups := [] }).2.2.groups ++ rest)) := by
  unfold load_file_body
  · simp only
    have h1 : HeapInv (load_groups rt kf kf.group_names st { groups := [] } 0).2.1
        ((load_groups rt kf kf.group_names st { groups := [] } 0).2.2.groups ++ rest) :=
      heap_load_groups kf.group_names 0 (by simpa using h)
    by_cases hr : (load_groups rt kf kf.group_names st { groups := [] } 0).1 < 0
    · simp only [hr, if_true]
      constructor
      · intro _; exact heap_cleanup_loop _ h1
      · intro hn; exact absurd True.intro hn
    · simp only [hr, if_false]
      constructor
      · intro hn; exact hn.elim
      · intro _; exact h1

theorem heap_load_file {rt : Runtime} {w : World} {st : State} {rest : List Nat}
    (f : String) (h : HeapInv st rest) {r : Int × State × policy_file}
    (hl : load_file rt w st f { groups := [] } = some r) :
    (r.1 < 0 → HeapInv r.2.1 rest) ∧
    (¬ r.1 < 0 → HeapInv r.2.1 (r.2.2.groups ++ rest)) := by
  rcases load_file_some hl with ⟨code, _, hpos, e⟩ | ⟨kf, _, e⟩
  · subst e
    constructor
    · intro _; exact h
    · intro hn; exact absurd (show -code < 0 by omega) hn
  · subst e
    exact heap_load_file_body kf h

theorem table_load_file_body {rt : Runtime} {w : World} {st : State}
    (kf : GKeyFile) (file : policy_file) (h : TableInv st) :
    TableInv (load_file_body rt w st kf file).2.1 := by
  unfold load_file_body
  · simp only
    obtain ⟨_, f2, f3, _⟩ := load_groups_frame rt kf kf.group_names st file 0
    have h1 : TableInv (load_groups rt kf kf.group_names st file 0).2.1 :=
      table_transfer h f2 (fun p => by rw [f3])
    by_cases hr : (load_groups rt kf kf.group_names st file 0).1 < 0
    · simp only [hr, if_true]
      exact table_cleanup_loop _ h1
    · simp only [hr, if_false]
      exact h1

theorem table_load_file {rt : Runtime} {w : World} {st : State}
    (f : String) (file : policy_file) (h : TableInv st) {r : Int × State × policy_file}
    (hl : load_file rt w st f file = some r) : TableInv r.2.1 := by
  rcases load_file_some hl with ⟨code, _, _, e⟩ | ⟨kf, _, e⟩
  · subst e; exact h
  · subst e; exact table_load_file_body kf file h

theorem set_policy_frame (st : State) (p g : Nat) (pc : policy_config) (gr : policy_group)
    (hp : st.policies p = some pc) (hg : st.groups g = some gr) :
    set_policy st p g =
      { st with
        groups := Function.update st.groups g (some { gr with sessions := p :: gr.sessions })
        policies := Function.update st.policies p
          (some { pc with group := some g
                          config := copy_session_config pc.config gr.config }) } := by
  unfold set_policy
  simp only [hp, hg]

theorem heap_set_policy {st : State} {pending : List Nat} (h : HeapInv st pending)
    (p g : Nat) (pc : policy_config) (gr : policy_group)
    (hp : st.policies p = some pc) (hb : pc.group = none)
    (hg : st.groups g = some gr) (hid : gr.selinux = pc.selinux) :
    HeapInv (set_policy st p g) pending := by
  rw [set_policy_frame st p g pc gr hp hg]
  have hnot : p ∉ gr.sessions := by
    intro hm
    obtain ⟨pc2, h1, h2⟩ := h.in_bound g gr p hg hm
    rw [hp] at h1; injection h1 with h1; subst h1
    rw [hb] at h2; exact absurd h2 (by simp)
  have gkey : ∀ g2 gr2,
      Function.update st.groups g (some { gr with sessions := p :: gr.sessions }) g2 = some gr2 →
      (g2 = g ∧ gr2 = { gr with sessions := p :: gr.sessions }) ∨
      (g2 ≠ g ∧ st.groups g2 = some gr2) := by
    intro g2 gr2 h2
    by_cases e : g2 = g
    · subst e; simp at h2; exact Or.inl ⟨rfl, h2.symm⟩
    · rw [Function.update_noteq e] at h2; exact Or.inr ⟨e, h2⟩
  have pkey : ∀ q pc2,
      Function.update st.policies p
        (some { pc with group := some g
                        config := copy_session_config pc.config gr.config }) q = some pc2 →
      (q = p ∧ pc2 = { pc with group := some g
                               config := copy_session_config pc.config gr.config }) ∨
      (q ≠ p ∧ st.policies q = some pc2) := by
    intro q pc2 h2
    by_cases e : q = p
    · subst e; simp at h2; exact Or.inl ⟨rfl, h2.symm⟩
    · rw [Function.update_noteq e] at h2; exact Or.inr ⟨e, h2⟩
  have glive : ∀ g2 gr2, st.groups g2 = some gr2 →
      ∃ gr3, Function.update st.groups g (some { gr with sessions := p :: gr.sessions }) g2
        = some gr3 ∧ gr3.selinux = gr2.selinux ∧ ∀ q, q ∈ gr2.sessions → q ∈ gr3.sessions := by
    intro g2 gr2 hl
    by_cases e : g2 = g
    · have e2 : gr2 = gr := by rw [e, hg] at hl; exact (Option.some.inj hl).symm
      subst e2; subst e
      exact ⟨{ gr2 with sessions := p :: gr2.sessions }, by simp, rfl,
        fun q hq => List.mem_cons_of_mem _ hq⟩
    · exact ⟨gr2, by rw [Function.update_noteq e]; exact hl, rfl, fun q hq => hq⟩
  constructor
  · intro a ha
    show Function.update st.groups g _ a = none
    have e : a ≠ g := by
      intro e; rw [h.grp_fresh g (e ▸ ha)] at hg; exact absurd hg (by simp)
    rw [Function.update_noteq e]; exact h.grp_fresh a ha
  · intro a ha
    show Function.update st.policies p _ a = none
    have e : a ≠ p := by
      intro e; rw [h.pol_fresh p (e ▸ ha)] at hp; exact absurd hp (by simp)
    rw [Function.update_noteq e]; exact h.pol_fresh a ha
  · intro f pf g2 hf hm
    obtain ⟨gr2, hl⟩ := h.file_live f pf g2 hf hm
    obtain ⟨gr3, h3, _⟩ := glive g2 gr2 hl
    exact ⟨gr3, h3⟩
  · intro g2 hm
    obtain ⟨gr2, hl⟩ := h.pend_live g2 hm
    obtain ⟨gr3, h3, _⟩ := glive g2 gr2 hl
    exact ⟨gr3, h3⟩
  · intro g2 gr2 hl
    rcases gkey g2 gr2 hl with ⟨e, _⟩ | ⟨_, hl⟩
    · rw [e]; exact h.owned g gr hg
    · exact h.owned g2 gr2 hl
  · exact h.file_nodup
  · exact h.pend_nodup
  · exact h.file_disj
  · exact h.pend_disj
  · intro k g2 hk
    obtain ⟨gr2, hl, hs⟩ := h.idx k g2 hk
    obtain ⟨gr3, h3, h4, _⟩ := glive g2 gr2 hl
    exact ⟨gr3, h3, by rw [h4, hs]⟩
  · intro q pc2 g2 hq hb2
    rcases pkey q pc2 hq with ⟨e1, e2⟩ | ⟨e1, hq⟩
    · subst e1; subst e2
      simp at hb2; subst hb2
      exact ⟨{ gr with sessions := q :: gr.sessions },
        by show Function.update st.groups g _ g = _; simp,
        List.mem_cons_self _ _, hid⟩
    · obtain ⟨gr2, hl, hm, hs⟩ := h.bound_in q pc2 g2 hq hb2
      obtain ⟨gr3, h3, h4, h5⟩ := glive g2 gr2 hl
      exact ⟨gr3, h3, h5 q hm, by rw [h4, hs]⟩
  · intro g2 gr2 q hl hm
    have old : ∀ g3 gr3, st.groups g3 = some gr3 → q ∈ gr3.sessions →
        ∃ pc2, Function.update st.policies p
          (some { pc with group := some g
                          config := copy_session_config pc.config gr.config }) q = some pc2 ∧
          pc2.group = some g3 := by
      intro g3 gr3 hl3 hm3
      obtain ⟨pc2, h1, h2⟩ := h.in_bound g3 gr3 q hl3 hm3
      have e : q ≠ p := by
        intro e; subst e; rw [hp] at h1; injection h1 with h1; subst h1
        rw [hb] at h2; exact absurd h2 (by simp)
      exact ⟨pc2, by rw [Function.update_noteq e]; exact h1, h2⟩
    rcases gkey g2 gr2 hl with ⟨e1, e2⟩ | ⟨_, hl⟩
    · subst e1; subst e2
      rcases List.mem_cons.mp hm with e | hm
      · subst e
        exact ⟨{ pc with group := some g2
                         config := copy_session_config pc.config gr.config },
          by show Function.update st.policies q _ q = _; simp, rfl⟩
      · exact old g2 gr hg hm
    · exact old g2 gr2 hl hm
  · intro g2 gr2 hl
    rcases gkey g2 gr2 hl with ⟨e1, e2⟩ | ⟨_, hl⟩
    · subst e2
      exact List.nodup_cons.mpr ⟨hnot, h.sess_nodup g gr hg⟩
    · exact h.sess_nodup g2 gr2 hl

theorem set_policy_view (st : State) (p g : Nat) (q : Nat) :
    ((set_policy st p g).policies q).map (fun pc => (pc.session, pc.selinux))
      = (st.policies q).map (fun pc => (pc.session, pc.selinux)) ∧
    (set_policy st p g).session_hash = st.session_hash ∧
    (set_policy st p g).file_hash = st.file_hash ∧
    (set_policy st p g).selinux_hash = st.selinux_hash ∧
    (set_policy st p g).heap_top = st.heap_top ∧
    (set_policy st p g).log = st.log := by
  unfold set_policy
  cases hp : st.policies p with
  | none => simp
  | some pc =>
    cases hg : st.groups g with
    | none => simp
    | some gr =>
      simp only [and_true]
      by_cases e : q = p
      · subst e; simp [hp]
      · simp [Function.update_noteq e]

theorem table_set_policy {st : State} (h : TableInv st) (p g : Nat) :
    TableInv (set_policy st p g) :=
  table_transfer h (set_policy_view st p g 0).2.1 (fun q => (set_policy_view st p g q).1)

theorem heap_recheck_one {w : World} {st : State} {pending : List Nat}
    (h : HeapInv st pending) (e : Nat × Nat) :
    HeapInv (recheck_one w st e) pending := by
  unfold recheck_one
  cases hp : st.policies e.2 with
  | none => exact h
  | some pc =>
    simp only
    cases hb : pc.group with
    | some g => exact h
    | none =>
      simp only
      cases hl : pc.selinux.bind st.selinux_hash with
      | none => exact h
      | some g =>
        simp only
        obtain ⟨k, hk, hk2⟩ := Option.bind_eq_some.mp hl
        obtain ⟨gr, hg, hs⟩ := h.idx k g hk2
        have h2 := heap_set_policy h e.2 g pc gr hp hb hg (by rw [hs, hk])
        obtain ⟨u1, u2, u3, u4, u5, u6, u7⟩ := update_session_frame w (set_policy st e.2 g) e.2
        exact heap_congr h2 u1 u3 u4 u5 u6

theorem table_recheck_one {w : World} {st : State}
    (h : TableInv st) (e : Nat × Nat) :
    TableInv (recheck_one w st e) := by
  unfold recheck_one
  cases hp : st.policies e.2 with
  | none => exact h
  | some pc =>
    simp only
    cases hb : pc.group with
    | some g => exact h
    | none =>
      simp only
      cases hl : pc.selinux.bind st.selinux_hash with
      | none => exact h
      | some g =>
        simp only
        obtain ⟨u1, u2, u3, u4, u5, u6, u7⟩ := update_session_frame w (set_policy st e.2 g) e.2
        exact table_transfer (table_set_policy h e.2 g) u2 (fun q => by rw [u5])

theorem heap_recheck_loop {w : World} (l : List (Nat × Nat)) {st : State}
    {pending : List Nat} (h : HeapInv st pending) :
    HeapInv (l.foldl (recheck_one w) st) pending := by
  induction l generalizing st with
  | nil => exact h
  | cons e l ih => exact ih (heap_recheck_one h e)

theorem table_recheck_loop {w : World} (l : List (Nat × Nat)) {st : State}
    (h : TableInv st) : TableInv (l.foldl (recheck_one w) st) := by
  induction l generalizing st with
  | nil => exact h
  | cons e l ih => exact ih (table_recheck_one h e)

/-! ### Association lists -/

theorem lookup_mem {l : List (Nat × Nat)} {s q : Nat} (h : l.lookup s = some q) :
    (s, q) ∈ l := by
  induction l with
  | nil => simp at h
  | cons e l ih =>
    obtain ⟨a, b⟩ := e
    by_cases e1 : s = a
    · subst e1
      simp [List.lookup] at h
      subst h; exact List.mem_cons_self _ _
    · have : (s == a) = false := by simpa using e1
      simp [List.lookup, this] at h
      exact List.mem_cons_of_mem _ (ih h)

theorem lookup_none_not_mem {l : List (Nat × Nat)} {s : Nat} (h : l.lookup s = none)
    (q : Nat) : (s, q) ∉ l := by
  intro hm
  rw [List.lookup_eq_none_iff] at h
  have := h (s, q) hm
  simp at this

theorem mem_unique_of_nodup_keys {l : List (Nat × Nat)} (hnd : (l.map Prod.fst).Nodup)
    {s q q2 : Nat} (h1 : (s, q) ∈ l) (h2 : (s, q2) ∈ l) : q = q2 := by
  induction l with
  | nil => simp at h1
  | cons e l ih =>
    simp only [List.map_cons, List.nodup_cons, List.mem_map, not_exists, not_and] at hnd
    rcases List.mem_cons.mp h1 with h1 | h1 <;> rcases List.mem_cons.mp h2 with h2 | h2
    · rw [← h1] at h2; injection h2 with _ h2; exact h2.symm
    · exact absurd (by rw [← h1]) (hnd.1 (s, q2) h2)
    · exact absurd (by rw [← h2]) (hnd.1 (s, q) h1)
    · exact ih hnd.2 h1 h2

/-! ### cleanup_config -/

theorem cleanup_config_frame (st : State) (q : Nat) :
    (cleanup_config st q).file_hash = st.file_hash ∧
    (cleanup_config st q).session_hash = st.session_hash ∧
    (cleanup_config st q).selinux_hash = st.selinux_hash ∧
    (cleanup_config st q).policies = Function.update st.policies q none ∧
    (cleanup_config st q).heap_top = st.heap_top ∧
    (cleanup_config st q).log = st.log := by
  unfold cleanup_config
  cases hq : st.policies q with
  | none =>
    refine ⟨rfl, rfl, rfl, ?_, rfl, rfl⟩
    show st.policies = _
    rw [← hq, Function.update_eq_self]
  | some pc =>
    cases hb : pc.group with
    | none => simp [hb]
    | some g =>
      cases hg : st.groups g <;> simp [hb, hg]

theorem cleanup_config_groups {st : State} {pending : List Nat} (h : HeapInv st pending)
    (q : Nat) (a : Nat) :
    (cleanup_config st q).groups a
      = (st.groups a).map (fun gr => { gr with sessions := gr.sessions.erase q }) := by
  have noq : ∀ g gr pc, st.policies q = some pc → pc.group ≠ some g →
      st.groups g = some gr → gr.sessions.erase q = gr.sessions := by
    intro g gr pc hq hb hg
    apply List.erase_of_not_mem
    intro hm
    obtain ⟨pc2, h1, h2⟩ := h.in_bound g gr q hg hm
    rw [hq] at h1; injection h1 with h1; subst h1
    exact hb h2
  have dead : st.policies q = none → ∀ g gr, st.groups g = some gr →
      gr.sessions.erase q = gr.sessions := by
    intro hq g gr hg
    apply List.erase_of_not_mem
    intro hm
    obtain ⟨pc2, h1, _⟩ := h.in_bound g gr q hg hm
    rw [hq] at h1; exact absurd h1 (by simp)
  unfold cleanup_config
  cases hq : st.policies q with
  | none =>
    show st.groups a = _
    cases hg : st.groups a with
    | none => rfl
    | some gr => simp [dead hq a gr hg]
  | some pc =>
    cases hb : pc.group with
    | none =>
      simp only [hb]
      show st.groups a = _
      cases hg : st.groups a with
      | none => rfl
      | some gr => simp [noq a gr pc hq (by simp [hb]) hg]
    | some g =>
      obtain ⟨gr, hg, _⟩ := h.bound_in q pc g hq hb
      simp only [hb, hg]
      by_cases e : a = g
      · subst e; simp [hg]
      · show Function.update st.groups g _ a = _
        rw [Function.update_noteq e]
        cases hga : st.groups a with
        | none => rfl
        | some gr2 =>
          have : pc.group ≠ some a := by rw [hb]; intro h3; injection h3 with h3; exact e h3.symm
          simp [noq a gr2 pc hq this hga]

theorem heap_cleanup_config {st : State} {pending : List Nat} (h : HeapInv st pending)
    (q : Nat) : HeapInv (cleanup_config st q) pending := by
  obtain ⟨f1, f2, f3, f4, f5, f6⟩ := cleanup_config_frame st q
  have f7 := cleanup_config_groups h q
  have glive : ∀ g gr, st.groups g = some gr →
      (cleanup_config st q).groups g
        = some { gr with sessions := gr.sessions.erase q } := by
    intro g gr hg; rw [f7, hg]; rfl
  have gkey : ∀ g gr2, (cleanup_config st q).groups g = some gr2 →
      ∃ gr, st.groups g = some gr ∧ gr2 = { gr with sessions := gr.sessions.erase q } := by
    intro g gr2 h2
    rw [f7] at h2
    cases hg : st.groups g with
    | none => rw [hg] at h2; simp at h2
    | some gr => rw [hg] at h2; simp at h2; exact ⟨gr, rfl, h2.symm⟩
  have pkey : ∀ p pc, (cleanup_config st q).policies p = some pc →
      p ≠ q ∧ st.policies p = some pc := by
    intro p pc h2
    rw [f4] at h2
    by_cases e : p = q
    · subst e; simp at h2
    · rw [Function.update_noteq e] at h2; exact ⟨e, h2⟩
  constructor
  · intro a ha; rw [f7, h.grp_fresh a (f5 ▸ ha)]; rfl
  · intro a ha
    rw [f4]
    by_cases e : a = q
    · subst e; simp
    · rw [Function.update_noteq e]; exact h.pol_fresh a (f5 ▸ ha)
  · intro f pf g hf hm
    rw [f1] at hf
    obtain ⟨gr, hg⟩ := h.file_live f pf g hf hm
    exact ⟨_, glive g gr hg⟩
  · intro g hm
    obtain ⟨gr, hg⟩ := h.pend_live g hm
    exact ⟨_, glive g gr hg⟩
  · intro g gr2 hl
    obtain ⟨gr, hg, _⟩ := gkey g gr2 hl
    rw [f1]; exact h.owned g gr hg
  · rw [f1]; exact h.file_nodup
  · exact h.pend_nodup
  · rw [f1]; exact h.file_disj
  · rw [f1]; exact h.pend_disj
  · intro k g hk
    rw [f3] at hk
    obtain ⟨gr, hg, hs⟩ := h.idx k g hk
    exact ⟨_, glive g gr hg, hs⟩
  · intro p pc g hp hb
    obtain ⟨hne, hp⟩ := pkey p pc hp
    obtain ⟨gr, hg, hm, hs⟩ := h.bound_in p pc g hp hb
    exact ⟨_, glive g gr hg, (List.mem_erase_of_ne hne).mpr hm, hs⟩
  · intro g gr2 p hl hm
    obtain ⟨gr, hg, e⟩ := gkey g gr2 hl
    subst e
    have hnd := h.sess_nodup g gr hg
    have hm2 := (List.Nodup.mem_erase_iff hnd).mp hm
    obtain ⟨pc, hp, hb⟩ := h.in_bound g gr p hg hm2.2
    exact ⟨pc, by rw [f4, Function.update_noteq hm2.1]; exact hp, hb⟩
  · intro g gr2 hl
    obtain ⟨gr, hg, e⟩ := gkey g gr2 hl
    subst e
    exact (h.sess_nodup g gr hg).erase q

theorem heap_alloc_policy {st : State} {pending : List Nat} (h : HeapInv st pending)
    (pc : policy_config) (hb : pc.group = none) :
    HeapInv
      { st with
        policies := Function.update st.policies st.heap_top (some pc)
        heap_top := st.heap_top + 1 }
      pending := by
  have hfresh := h.pol_fresh st.heap_top (Nat.le_refl _)
  constructor
  · intro a ha; exact h.grp_fresh a (Nat.le_of_succ_le ha)
  · intro a ha
    have e : a ≠ st.heap_top := by
      intro e; rw [e] at ha; exact absurd ha (Nat.not_succ_le_self _)
    show Function.update st.policies st.heap_top (some pc) a = none
    rw [Function.update_noteq e]
    exact h.pol_fresh a (Nat.le_of_succ_le ha)
  · exact h.file_live
  · exact h.pend_live
  · exact h.owned
  · exact h.file_nodup
  · exact h.pend_nodup
  · exact h.file_disj
  · exact h.pend_disj
  · exact h.idx
  · intro p pc2 g hp hb2
    have hp2 : Function.update st.policies st.heap_top (some pc) p = some pc2 := hp
    by_cases e : p = st.heap_top
    · subst e; simp at hp2; subst hp2; rw [hb] at hb2; exact absurd hb2 (by simp)
    · rw [Function.update_noteq e] at hp2
      exact h.bound_in p pc2 g hp2 hb2
  · intro g gr p hg hm
    obtain ⟨pc2, hp, hb2⟩ := h.in_bound g gr p hg hm
    have e : p ≠ st.heap_top := by
      intro e; rw [e, hfresh] at hp; exact absurd hp (by simp)
    exact ⟨pc2, by show Function.update st.policies st.heap_top (some pc) p = _;
                   rw [Function.update_noteq e]; exact hp, hb2⟩
  · exact h.sess_nodup

theorem session_hash_replace_frame (st : State) (s p : Nat) :
    (session_hash_replace st s p).file_hash = st.file_hash ∧
    (session_hash_replace st s p).session_hash
      = (s, p) :: st.session_hash.filter (fun e => e.1 != s) ∧
    (session_hash_replace st s p).selinux_hash = st.selinux_hash ∧
    (∀ a, (session_hash_replace st s p).policies a
      = if st.session_hash.lookup s = some a then none else st.policies a) ∧
    (session_hash_replace st s p).heap_top = st.heap_top ∧
    (session_hash_replace st s p).log = st.log := by
  unfold session_hash_replace
  cases hl : st.session_hash.lookup s with
  | none => simp
  | some q =>
    obtain ⟨f1, f2, f3, f4, f5, f6⟩ := cleanup_config_frame st q
    simp only [f1, f2, f3, f4, f5, f6, true_and, and_true, Option.some.injEq]
    intro a
    by_cases e : a = q
    · subst e; simp
    · rw [Function.update_noteq e, if_neg (fun h => e h.symm)]

theorem heap_session_hash_replace {st : State} {pending : List Nat}
    (h : HeapInv st pending) (s p : Nat) :
    HeapInv (session_hash_replace st s p) pending := by
  unfold session_hash_replace
  cases hl : st.session_hash.lookup s with
  | none => exact heap_congr h rfl rfl rfl rfl rfl
  | some q => exact heap_congr (heap_cleanup_config h q) rfl rfl rfl rfl rfl

theorem filter_keys_nodup {l : List (Nat × Nat)} (s : Nat) (h : (l.map Prod.fst).Nodup) :
    ((l.filter (fun e => e.1 != s)).map Prod.fst).Nodup :=
  h.sublist (List.Sublist.map _ (List.filter_sublist l))

theorem table_session_hash_replace {st st2 : State} (h : TableInv st) (s p : Nat)
    (pc : policy_config) (hs : s ≠ 0) (hfresh : st.policies p = none)
    (ht : st2.session_hash = st.session_hash)
    (hp : st2.policies p = some pc) (hps : pc.session = s) (hid : pc.selinux ≠ none)
    (hv : ∀ a, a ≠ p → (st2.policies a).map (fun pc => (pc.session, pc.selinux))
      = (st.policies a).map (fun pc => (pc.session, pc.selinux))) :
    TableInv (session_hash_replace st2 s p) := by
  obtain ⟨_, f2, _, f4, _, _⟩ := session_hash_replace_frame st2 s p
  rw [ht] at f2 f4
  have factA : ∀ q, st.session_hash.lookup s = some q → (s, q) ∈ st.session_hash :=
    fun q hq => lookup_mem hq
  have factB : ∀ a, (s, a) ∈ st.session_hash → st.session_hash.lookup s = some a := by
    intro a ha
    cases hl : st.session_hash.lookup s with
    | none => exact absurd ha (lookup_none_not_mem hl a)
    | some q => rw [mem_unique_of_nodup_keys h.tab_keys (lookup_mem hl) ha]
  have up : ∀ a pc0, a ≠ p → st.policies a = some pc0 →
      ∃ pc2, st2.policies a = some pc2 ∧ pc2.session = pc0.session ∧
        pc2.selinux = pc0.selinux := by
    intro a pc0 hne h0
    have := hv a hne
    rw [h0] at this
    cases h2 : st2.policies a with
    | none => rw [h2] at this; simp at this
    | some pc2 => rw [h2] at this; simp at this; exact ⟨pc2, rfl, this.1, this.2⟩
  have down : ∀ a pc2, a ≠ p → st2.policies a = some pc2 →
      ∃ pc0, st.policies a = some pc0 ∧ pc2.session = pc0.session ∧
        pc2.selinux = pc0.selinux := by
    intro a pc2 hne h2
    have := hv a hne
    rw [h2] at this
    cases h0 : st.policies a with
    | none => rw [h0] at this; simp at this
    | some pc0 => rw [h0] at this; simp at this; exact ⟨pc0, rfl, this.1, this.2⟩
  have pkey : ∀ a pc2, (session_hash_replace st2 s p).policies a = some pc2 →
      st.session_hash.lookup s ≠ some a ∧ st2.policies a = some pc2 := by
    intro a pc2 h2
    rw [f4] at h2
    by_cases e : st.session_hash.lookup s = some a
    · rw [if_pos e] at h2; exact absurd h2 (by simp)
    · rw [if_neg e] at h2; exact ⟨e, h2⟩
  constructor
  · intro s2 p2 hm
    rw [f2] at hm
    rcases List.mem_cons.mp hm with hm | hm
    · injection hm with e1 e2
      subst e1; subst e2
      refine ⟨pc, ?_, hps⟩
      rw [f4, if_neg]
      · exact hp
      · intro hl
        obtain ⟨pc0, h0, _⟩ := h.tab_live _ _ (factA _ hl)
        rw [hfresh] at h0; exact absurd h0 (by simp)
    · simp only [List.mem_filter, bne_iff_ne, ne_eq] at hm
      obtain ⟨pc0, h0, hs0⟩ := h.tab_live s2 p2 hm.1
      have hne : p2 ≠ p := by
        intro e; rw [e, hfresh] at h0; exact absurd h0 (by simp)
      obtain ⟨pc2, h2, h3, _⟩ := up p2 pc0 hne h0
      refine ⟨pc2, ?_, by rw [h3, hs0]⟩
      rw [f4, if_neg]
      · exact h2
      · intro hl
        obtain ⟨pc1, h1, hs1⟩ := h.tab_live _ _ (factA _ hl)
        rw [h0] at h1; injection h1 with h1; subst h1
        exact hm.2 (hs0.symm.trans hs1)
  · intro a pc2 hx
    obtain ⟨hno, h2⟩ := pkey a pc2 hx
    rw [f2]
    by_cases e : a = p
    · subst e
      rw [hp] at h2; injection h2 with h2; subst h2
      rw [hps]; exact List.mem_cons_self _ _
    · obtain ⟨pc0, h0, h3, _⟩ := down a pc2 e h2
      apply List.mem_cons_of_mem
      simp only [List.mem_filter, bne_iff_ne, ne_eq]
      have hm := h.live_tab a pc0 h0
      rw [← h3] at hm
      refine ⟨hm, ?_⟩
      intro e2
      rw [e2] at hm
      exact hno (factB a hm)
  · rw [f2]
    simp only [List.map_cons, List.nodup_cons]
    refine ⟨?_, filter_keys_nodup s h.tab_keys⟩
    simp [List.mem_map, List.mem_filter]
  · intro a pc2 hx
    obtain ⟨_, h2⟩ := pkey a pc2 hx
    by_cases e : a = p
    · subst e
      rw [hp] at h2; injection h2 with h2; subst h2
      exact ⟨hid, by rw [hps]; exact hs⟩
    · obtain ⟨pc0, h0, h3, h4⟩ := down a pc2 e h2
      rw [h3, h4]
      exact h.has_id a pc0 h0

theorem inv_selinux_context_reply {rt : Runtime} {st : State} (h : Inv st)
    (context : String) (session : Nat) (err : Int) (hs : session ≠ 0) :
    Inv (selinux_context_reply rt st context session err) := by
  obtain ⟨hh, ht⟩ := h
  unfold selinux_context_reply
  by_cases he : err < 0
  · rw [if_pos he]
    exact ⟨heap_congr hh rfl rfl rfl rfl rfl, table_transfer ht rfl (fun _ => rfl)⟩
  · rw [if_neg he]
    cases hi : parse_selinux_type context with
    | none => exact ⟨heap_congr hh rfl rfl rfl rfl rfl, table_transfer ht rfl (fun _ => rfl)⟩
    | some ident =>
      simp only
      have hfresh := hh.pol_fresh st.heap_top (Nat.le_refl _)
      have h1 := heap_alloc_policy hh
        { create_policy rt with selinux := some ident, session := session } rfl
      cases hl : st.selinux_hash ident with
      | none =>
        simp only
        refine ⟨heap_congr (heap_session_hash_replace h1 session st.heap_top) rfl rfl rfl rfl rfl, ?_⟩
        refine table_transfer (?_ : TableInv (session_hash_replace _ session st.heap_top))
          rfl (fun _ => rfl)
        refine table_session_hash_replace ht session st.heap_top
          { create_policy rt with selinux := some ident, session := session }
          hs hfresh rfl (by simp) rfl (by simp) ?_
        intro a ha
        simp [Function.update_noteq ha]
      | some g =>
        simp only
        obtain ⟨gr, hg, hsel⟩ := h1.idx ident g hl
        have h2 := heap_set_policy h1 st.heap_top g
          { create_policy rt with selinux := some ident, session := session } gr
          (by simp) rfl hg hsel
        refine ⟨heap_congr (heap_session_hash_replace h2 session st.heap_top) rfl rfl rfl rfl rfl, ?_⟩
        refine table_transfer (?_ : TableInv (session_hash_replace _ session st.heap_top))
          rfl (fun _ => rfl)
        have hv := set_policy_view
          { st with
            policies := Function.update st.policies st.heap_top
              (some { create_policy rt with selinux := some ident, session := session })
            heap_top := st.heap_top + 1 } st.heap_top g
        have hp0 := (hv st.heap_top).1
        simp only [Function.update_same, Option.map_some'] at hp0
        cases hq : (set_policy
          { st with
            policies := Function.update st.policies st.heap_top
              (some { create_policy rt with selinux := some ident, session := session })
            heap_top := st.heap_top + 1 } st.heap_top g).policies st.heap_top with
        | none => rw [hq] at hp0; simp at hp0
        | some pc =>
          rw [hq] at hp0
          simp only [Option.map_some', Option.some.injEq, Prod.mk.injEq] at hp0
          refine table_session_hash_replace ht session st.heap_top pc hs hfresh
            (hv 0).2.1 hq hp0.1 (by rw [hp0.2]; simp) ?_
          intro a ha
          rw [(hv a).1]
          simp [Function.update_noteq ha]

theorem inv_policy_local_destroy {st : State} (h : Inv st) (session : Nat) :
    Inv (policy_local_destroy st session) := by
  obtain ⟨hh, ht⟩ := h
  unfold policy_local_destroy
  cases hl : st.session_hash.lookup session with
  | none => exact ⟨hh, ht⟩
  | some q =>
    simp only
    refine ⟨heap_congr (heap_cleanup_config hh q) rfl rfl rfl rfl rfl, ?_⟩
    obtain ⟨_, f2, _, f4, _, _⟩ := cleanup_config_frame st q
    have hq := lookup_mem hl
    obtain ⟨pcq, hpq, hsq⟩ := ht.tab_live _ _ hq
    constructor
    · intro s p hm
      simp only [f2, List.mem_filter, bne_iff_ne, ne_eq] at hm
      obtain ⟨pc, hp, hs⟩ := ht.tab_live s p hm.1
      have hne : p ≠ q := by
        intro e; subst e; rw [hpq] at hp; injection hp with hp; subst hp
        exact hm.2 (hs.symm.trans hsq)
      exact ⟨pc, by show (cleanup_config st q).policies p = _;
                    rw [f4, Function.update_noteq hne]; exact hp, hs⟩
    · intro p pc hp
      have hp2 : (cleanup_config st q).policies p = some pc := hp
      rw [f4] at hp2
      have hne : p ≠ q := by intro e; subst e; simp at hp2
      rw [Function.update_noteq hne] at hp2
      have hm := ht.live_tab p pc hp2
      show (pc.session, p) ∈ (cleanup_config st q).session_hash.filter _
      simp only [f2, List.mem_filter, bne_iff_ne, ne_eq]
      refine ⟨hm, ?_⟩
      intro e
      rw [e] at hm
      exact hne (mem_unique_of_nodup_keys ht.tab_keys hm hq)
    · show ((cleanup_config st q).session_hash.filter _ |>.map Prod.fst).Nodup
      rw [f2]; exact filter_keys_nodup session ht.tab_keys
    · intro p pc hp
      have hp2 : (cleanup_config st q).policies p = some pc := hp
      rw [f4] at hp2
      have hne : p ≠ q := by intro e; subst e; simp at hp2
      rw [Function.update_noteq hne] at hp2
      exact ht.has_id p pc hp2

theorem inv_file_hash_remove {rt : Runtime} {w : World} {st : State} (h : Inv st)
    (f : String) : Inv (file_hash_remove rt w st f) :=
  ⟨heap_file_hash_remove h.1 f, table_file_hash_remove h.2 f⟩

theorem inv_recheck_sessions {w : World} {st : State} (h : Inv st) :
    Inv (recheck_sessions w st) :=
  ⟨heap_recheck_loop _ h.1, table_recheck_loop _ h.2⟩

theorem inv_load_and_register_body {rt : Runtime} {w : World} {st : State} (h : Inv st)
    (f : String) (kf : GKeyFile) :
    ((load_file_body rt w st kf { groups := [] }).1 < 0 →
      Inv (load_file_body rt w st kf { groups := [] }).2.1) ∧
    (¬ (load_file_body rt w st kf { groups := [] }).1 < 0 →
      Inv (file_hash_replace rt w (load_file_body rt w st kf { groups := [] }).2.1 f
        (load_file_body rt w st kf { groups := [] }).2.2)) := by
  obtain ⟨l1, l2⟩ := @heap_load_file_body rt w st [] kf h.1
  have lt : TableInv (load_file_body rt w st kf { groups := [] }).2.1 :=
    table_load_file_body kf { groups := [] } h.2
  constructor
  · intro hn; exact ⟨l1 hn, lt⟩
  · intro hn
    exact ⟨heap_file_hash_replace (l2 hn) f, table_file_hash_replace lt f _⟩

theorem inv_load_and_register {rt : Runtime} {w : World} {st : State} (h : Inv st)
    (f : String) {r : Int × State × policy_file}
    (hl : load_file rt w st f { groups := [] } = some r) :
    (r.1 < 0 → Inv r.2.1) ∧
    (¬ r.1 < 0 → Inv (file_hash_replace rt w r.2.1 f r.2.2)) := by
  obtain ⟨l1, l2⟩ := heap_load_file f h.1 hl
  have lt : TableInv r.2.1 := table_load_file f { groups := [] } h.2 hl
  constructor
  · intro hn; exact ⟨l1 hn, lt⟩
  · intro hn
    exact ⟨heap_file_hash_replace (l2 hn) f, table_file_hash_replace lt f _⟩

/-- The ways notify_handler returns. -/
theorem notify_handler_some {rt : Runtime} {w : World} {st st2 : State} {mask : Nat}
    {filename : Option String} (h : notify_handler rt w st mask filename = some st2) :
    st2 = st ∨
    ∃ name, filename = some name ∧ is_filename_valid (some name) = true ∧
      mask &&& IN_CREATE = 0 ∧
      ((mask &&& (IN_DELETE ||| IN_MOVED_FROM) ≠ 0 ∨ mask &&& (IN_MOVED_TO ||| IN_MODIFY) = 0) ∧
          st2 = file_hash_remove rt w st name ∨
        mask &&& (IN_DELETE ||| IN_MOVED_FROM) = 0 ∧ mask &&& (IN_MOVED_TO ||| IN_MODIFY) ≠ 0 ∧
          ∃ r, load_file rt w (file_hash_remove rt w st name) name { groups := [] } = some r ∧
            (r.1 < 0 ∧ st2 = r.2.1 ∨
              ¬ r.1 < 0 ∧
                st2 = recheck_sessions w (file_hash_replace rt w r.2.1 name r.2.2))) := by
  unfold notify_handler at h
  by_cases h1 : mask &&& IN_CREATE ≠ 0
  · rw [if_pos h1] at h; injection h with h; exact Or.inl h.symm
  · rw [if_neg h1] at h
    by_cases h2 : is_filename_valid filename = false
    · rw [if_pos h2] at h; injection h with h; exact Or.inl h.symm
    · rw [if_neg h2] at h
      cases filename with
      | none => injection h with h; exact Or.inl h.symm
      | some name =>
        simp only at h
        refine Or.inr ⟨name, rfl, by simpa using h2, by simpa using h1, ?_⟩
        by_cases h3 : mask &&& (IN_DELETE ||| IN_MOVED_FROM) ≠ 0
        · rw [if_pos h3] at h; injection h with h
          exact Or.inl ⟨Or.inl h3, h.symm⟩
        · rw [if_neg h3] at h
          by_cases h4 : mask &&& (IN_MOVED_TO ||| IN_MODIFY) ≠ 0
          · rw [if_pos h4] at h
            refine Or.inr ⟨by simpa using h3, h4, ?_⟩
            cases hl : load_file rt w (file_hash_remove rt w st name) name { groups := [] } with
            | none => rw [hl] at h; exact absurd h (by simp)
            | some r =>
              rw [hl] at h
              simp only at h
              refine ⟨r, rfl, ?_⟩
              by_cases h5 : r.1 < 0
              · rw [if_pos h5] at h; injection h with h; exact Or.inl ⟨h5, h.symm⟩
              · rw [if_neg h5] at h; injection h with h; exact Or.inr ⟨h5, h.symm⟩
          · rw [if_neg h4] at h; injection h with h
            exact Or.inl ⟨Or.inr (by simpa using h4), h.symm⟩

theorem inv_notify_handler {rt : Runtime} {w : World} {st st2 : State} (h : Inv st)
    (mask : Nat) (filename : Option String)
    (hn : notify_handler rt w st mask filename = some st2) : Inv st2 := by
  rcases notify_handler_some hn with e | ⟨name, _, _, _, ⟨_, e⟩ | ⟨_, _, r, hl, ⟨h5, e⟩ | ⟨h5, e⟩⟩⟩
  · rw [e]; exact h
  · rw [e]; exact inv_file_hash_remove h name
  · rw [e]; exact (inv_load_and_register (inv_file_hash_remove h name) name hl).1 h5
  · rw [e]
    exact inv_recheck_sessions
      ((inv_load_and_register (inv_file_hash_remove h name) name hl).2 h5)

theorem inv_init : Inv init := by
  constructor
  · constructor <;> simp [init]
  · constructor <;> simp [init]

theorem reachable_inv {rt : Runtime} {st : State} (h : Reachable rt st) : Inv st := by
  induction h with
  | init => exact inv_init
  | notify st st2 w mask filename _ hn ih => exact inv_notify_handler ih mask filename hn
  | reply st context session err _ hs ih => exact inv_selinux_context_reply ih context session err hs
  | destroy st session _ ih => exact inv_policy_local_destroy ih session

/-! ### Splitting -/

theorem splitChars_ne_nil (d : Char) (l : List Char) : splitChars d l ≠ [] := by
  cases l with
  | nil => simp [splitChars]
  | cons c cs =>
    unfold splitChars
    by_cases e : c = d
    · simp [e]
    · simp only [e, if_false]
      cases splitChars d cs <;> simp

theorem splitChars_no_delim (d : Char) (l : List Char) (h : d ∉ l) :
    splitChars d l = [l] := by
  induction l with
  | nil => rfl
  | cons c cs ih =>
    have hc : c ≠ d := fun e => h (e ▸ List.mem_cons_self _ _)
    have hcs : d ∉ cs := fun m => h (List.mem_cons_of_mem _ m)
    simp [splitChars, hc, ih hcs]

theorem splitChars_append_delim (d : Char) (a r : List Char) (h : d ∉ a) :
    splitChars d (a ++ d :: r) = a :: splitChars d r := by
  induction a with
  | nil => simp [splitChars]
  | cons c cs ih =>
    have hc : c ≠ d := fun e => h (e ▸ List.mem_cons_self _ _)
    have hcs : d ∉ cs := fun m => h (List.mem_cons_of_mem _ m)
    show splitChars d (c :: (cs ++ d :: r)) = _
    simp [splitChars, hc, ih hcs]

theorem splitChars_length (d : Char) (l : List Char) :
    (splitChars d l).length = l.count d + 1 := by
  induction l with
  | nil => rfl
  | cons c cs ih =>
    unfold splitChars
    by_cases e : c = d
    · subst e; simp [ih]
    · simp only [e, if_false]
      have hne := splitChars_ne_nil d cs
      cases hs : splitChars d cs with
      | nil => exact absurd hs hne
      | cons t ts =>
        rw [hs] at ih
        simp only [List.length_cons] at ih ⊢
        rw [ih, List.count_cons_of_ne (fun h => e h.symm)]

theorem splitChars_third (d : Char) (a b c rest : List Char) (ha : d ∉ a) (hb : d ∉ b)
    (hc : d ∉ c) (hr : rest = [] ∨ rest.head? = some d) :
    ∃ tl, splitChars d (a ++ d :: (b ++ d :: (c ++ rest))) = a :: b :: c :: tl := by
  rw [splitChars_append_delim d a _ ha, splitChars_append_delim d b _ hb]
  rcases hr with hr | hr
  · subst hr
    rw [List.append_nil, splitChars_no_delim d c hc]
    exact ⟨[], rfl⟩
  · cases rest with
    | nil => simp at hr
    | cons x xs =>
      simp at hr; subst hr
      rw [splitChars_append_delim x c xs hc]
      exact ⟨_, rfl⟩

theorem some_getD {α : Type} (o : Option α) (d : α) (h : o.isSome = true) :
    o = some (o.getD d) := by
  cases o with
  | none => exact absurd h (by simp)
  | some x => rfl

theorem notify_st_loaded :
    notify_handler sample_rt sample_world init IN_MOVED_TO (some "app.policy")
      = some st_loaded :=
  some_getD _ _ (by decide)

theorem reachable_st_loaded : Reachable sample_rt st_loaded :=
  Reachable.notify _ _ _ _ _ Reachable.init notify_st_loaded

theorem reachable_st_bound : Reachable sample_rt st_bound :=
  Reachable.reply _ _ _ _ reachable_st_loaded (by decide)

theorem reachable_st_two : Reachable sample_rt st_two :=
  Reachable.reply _ _ _ _ reachable_st_bound (by decide)

theorem accepted_cons_ok (rt : Runtime) (kf : GKeyFile) (n : String) (rest : List String)
    (h : ¬ (load_policy rt kf n zero_group).1 < 0) :
    accepted rt kf (n :: rest) = n :: accepted rt kf rest := by
  simp [accepted, List.takeWhile_cons, h]

theorem accepted_cons_fail (rt : Runtime) (kf : GKeyFile) (n : String) (rest : List String)
    (h : (load_policy rt kf n zero_group).1 < 0) :
    accepted rt kf (n :: rest) = [] := by
  simp [accepted, List.takeWhile_cons, h]

theorem accepted_length_le (rt : Runtime) (kf : GKeyFile) (names : List String) :
    (accepted rt kf names).length ≤ names.length := by
  unfold accepted
  exact (List.takeWhile_sublist _).length_le

theorem load_groups_spec (rt : Runtime) (kf : GKeyFile) (names : List String) (st : State)
    (file : policy_file) (err : Int) :
    (load_groups rt kf names st file err).2.2.groups
      = (List.range' st.heap_top (accepted rt kf names).length).reverse ++ file.groups ∧
    (load_groups rt kf names st file err).2.1.heap_top
      = st.heap_top + (accepted rt kf names).length
        + (if (accepted rt kf names).length < names.length then 1 else 0) ∧
    (∀ a, a < st.heap_top → (load_groups rt kf names st file err).2.1.groups a = st.groups a) ∧
    (∀ i n, (accepted rt kf names).get? i = some n →
      (load_groups rt kf names st file err).2.1.groups (st.heap_top + i)
        = some (load_policy rt kf n zero_group).2) ∧
    ((accepted rt kf names).length < names.length →
      (load_groups rt kf names st file err).2.1.groups
        (st.heap_top + (accepted rt kf names).length) = none) ∧
    (∀ a, (load_groups rt kf names st file err).2.1.heap_top ≤ a →
      (load_groups rt kf names st file err).2.1.groups a = st.groups a) ∧
    (∀ k, (load_groups rt kf names st file err).2.1.selinux_hash k
      = match last_index ((accepted rt kf names).map (section_id kf)) (some k) with
        | some i => some (st.heap_top + i)
        | none => st.selinux_hash k) ∧
    ((accepted rt kf names).length < names.length →
      (load_groups rt kf names st file err).1 < 0) ∧
    ((accepted rt kf names).length = names.length → ¬ err < 0 →
      ¬ (load_groups rt kf names st file err).1 < 0) := by
  induction names generalizing st file err with
  | nil => simp [load_groups, accepted, last_index]
  | cons n rest ih =>
    by_cases hr : (load_policy rt kf n zero_group).1 < 0
    · have hacc := accepted_cons_fail rt kf n rest hr
      have hl : load_groups rt kf (n :: rest) st file err
          = ((load_policy rt kf n zero_group).1,
             { st with
               groups := Function.update
                 (Function.update st.groups st.heap_top (some zero_group)) st.heap_top none
               heap_top := st.heap_top + 1 }, file) := by
        simp [load_groups, hr]
      rw [hl, hacc]
      refine ⟨by simp, by simp, ?_, ?_, ?_, ?_, ?_, ?_, ?_⟩
      · intro a ha
        have e : a ≠ st.heap_top := Nat.ne_of_lt ha
        simp [Function.update_noteq e]
      · intro i n2 h2; simp at h2
      · intro _; simp
      · intro a ha
        have e : a ≠ st.heap_top := by
          simp only at ha; omega
        simp [Function.update_noteq e]
      · intro k; simp [last_index]
      · intro _; exact hr
      · intro h2; simp at h2
    · have hacc := accepted_cons_ok rt kf n rest hr
      obtain ⟨k0, hk0⟩ := load_policy_ok rt kf n zero_group hr
      have hsel : (load_policy rt kf n zero_group).2.selinux = some k0 := by
        rw [load_policy_selinux, hk0]
      have hl : load_groups rt kf (n :: rest) st file err
          = load_groups rt kf rest
              { st with
                groups := Function.update
                  (Function.update st.groups st.heap_top (some zero_group)) st.heap_top
                  (some (load_policy rt kf n zero_group).2)
                selinux_hash := Function.update st.selinux_hash k0 (some st.heap_top)
                heap_top := st.heap_top + 1 }
              { groups := st.heap_top :: file.groups }
              (load_policy rt kf n zero_group).1 := by
        simp [load_groups, hr, hsel]
      obtain ⟨i1, i2, i3, i4, i5, i6, i7, i8, i9⟩ := ih
        { st with
          groups := Function.update
            (Function.update st.groups st.heap_top (some zero_group)) st.heap_top
            (some (load_policy rt kf n zero_group).2)
          selinux_hash := Function.update st.selinux_hash k0 (some st.heap_top)
          heap_top := st.heap_top + 1 }
        { groups := st.heap_top :: file.groups }
        (load_policy rt kf n zero_group).1
      rw [hl, hacc]
      simp only [List.length_cons] at i1 i2 i3 i4 i5 i6 i7 i8 i9 ⊢
      refine ⟨?_, ?_, ?_, ?_, ?_, ?_, ?_, ?_, ?_⟩
      · rw [i1, List.range'_succ, List.reverse_cons]
        simp
      · rw [i2]
        by_cases hlt : (accepted rt kf rest).length < rest.length
        · have : (accepted rt kf rest).length + 1 < rest.length + 1 := by omega
          simp [hlt, this]; omega
        · have : ¬ (accepted rt kf rest).length + 1 < rest.length + 1 := by omega
          simp [hlt, this]; omega
      · intro a ha
        rw [i3 a (by omega)]
        have e : a ≠ st.heap_top := Nat.ne_of_lt ha
        simp [Function.update_noteq e]
      · intro i n2 h2
        cases i with
        | zero =>
          simp at h2; subst h2
          have h3 := i3 st.heap_top (by simp)
          simp only [Function.update_same] at h3
          exact h3
        | succ j =>
          simp at h2
          have := i4 j n2 (by simpa using h2)
          rw [← this]
          congr 1; omega
      · intro hlt
        have := i5 (by omega)
        rw [← this]
        congr 1; omega
      · intro a ha
        rw [i6 a ha]
        have e : a ≠ st.heap_top := by
          rw [i2] at ha; omega
        simp [Function.update_noteq e]
      · intro k
        rw [i7 k]
        simp only [List.map_cons, last_index, section_id]
        cases hli : last_index (List.map (section_id kf) (accepted rt kf rest)) (some k) with
        | some i =>
          simp [hk0]; omega
        | none =>
          simp only [hk0]
          by_cases e : k0 = k
          · subst e; simp
          · have e2 : k ≠ k0 := fun h => e h.symm
            simp [e, Function.update_noteq e2]
      · intro hlt; exact i8 (by omega)
      · intro heq _; exact i9 (by omega) hr

theorem last_index_none_iff {α : Type} [DecidableEq α] (l : List α) (x : α) :
    last_index l x = none ↔ x ∉ l := by
  induction l with
  | nil => simp [last_index]
  | cons y ys ih =>
    simp only [last_index, List.mem_cons, not_or]
    cases h : last_index ys x with
    | some i =>
      have : ¬ x ∉ ys := fun hn => by rw [ih.mpr hn] at h; exact absurd h (by simp)
      simp [this]
    | none =>
      have hn := ih.mp h
      by_cases e : y = x
      · simp [e]
      · have e2 : ¬ x = y := fun h => e h.symm
        simp [e, e2, hn]

theorem last_index_some {α : Type} [DecidableEq α] (l : List α) (x : α) (i : Nat)
    (h : last_index l x = some i) :
    l.get? i = some x ∧ ∀ j, i < j → l.get? j ≠ some x := by
  induction l generalizing i with
  | nil => simp [last_index] at h
  | cons y ys ih =>
    simp only [last_index] at h
    cases h2 : last_index ys x with
    | some i2 =>
      rw [h2] at h
      simp at h; subst h
      obtain ⟨a1, a2⟩ := ih i2 h2
      refine ⟨by simpa using a1, ?_⟩
      intro j hj
      cases j with
      | zero => omega
      | succ j2 => simpa using a2 j2 (by omega)
    | none =>
      rw [h2] at h
      by_cases e : y = x
      · simp [e] at h; subst h
        refine ⟨by simp [e], ?_⟩
        intro j hj
        cases j with
        | zero => omega
        | succ j2 =>
          have hn := (last_index_none_iff ys x).mp h2
          intro hg
          exact hn (List.get?_mem (by simpa using hg))
      · simp [e] at h

theorem last_index_unique {α : Type} [DecidableEq α] (l : List α) (x : α) (i : Nat)
    (h1 : l.get? i = some x) (h2 : ∀ j, i < j → l.get? j ≠ some x) :
    last_index l x = some i := by
  cases h : last_index l x with
  | none =>
    exact absurd (List.get?_mem h1) ((last_index_none_iff l x).mp h)
  | some i2 =>
    obtain ⟨a1, a2⟩ := last_index_some l x i2 h
    rcases Nat.lt_trichotomy i i2 with hlt | heq | hgt
    · exact absurd a1 (h2 i2 hlt)
    · rw [heq]
    · exact absurd h1 (a2 i hgt)

theorem accepted_eq_of_length (rt : Runtime) (kf : GKeyFile) (names : List String)
    (h : (accepted rt kf names).length = names.length) : accepted rt kf names = names :=
  (List.takeWhile_sublist _).eq_of_length h

theorem accepted_all (rt : Runtime) (kf : GKeyFile) (names : List String) :
    ∀ n, n ∈ accepted rt kf names → ¬ (load_policy rt kf n zero_group).1 < 0 := by
  intro n hn
  have := List.mem_takeWhile_imp hn
  simpa using this

theorem accepted_short (rt : Runtime) (kf : GKeyFile) (names : List String)
    (h : (accepted rt kf names).length < names.length) :
    ∃ n, n ∈ names ∧ (load_policy rt kf n zero_group).1 < 0 := by
  induction names with
  | nil => simp [accepted] at h
  | cons n rest ih =>
    by_cases hr : (load_policy rt kf n zero_group).1 < 0
    · exact ⟨n, List.mem_cons_self _ _, hr⟩
    · rw [accepted_cons_ok rt kf n rest hr] at h
      obtain ⟨n2, h2, h3⟩ := ih (by simpa using h)
      exact ⟨n2, List.mem_cons_of_mem _ h2, h3⟩

theorem accepted_full (rt : Runtime) (kf : GKeyFile) (names : List String)
    (h : ∀ n, n ∈ names → ¬ (load_policy rt kf n zero_group).1 < 0) :
    accepted rt kf names = names := by
  unfold accepted
  rw [List.takeWhile_eq_self_iff]
  intro n hn
  simpa using h n hn


theorem load_file_groups_ok (rt : Runtime) (w : World) (st : State) (kf : GKeyFile)
    (file : policy_file)
    (hok : ¬ (load_file_body rt w st kf file).1 < 0) :
    load_file_body rt w st kf file = load_groups rt kf kf.group_names st file 0 ∧
    accepted rt kf kf.group_names = kf.group_names := by
  unfold load_file_body at hok ⊢
  simp only at hok ⊢
  by_cases hr : (load_groups rt kf kf.group_names st file 0).1 < 0
  · rw [if_pos hr] at hok; exact absurd hr hok
  · rw [if_neg hr]
    refine ⟨rfl, ?_⟩
    obtain ⟨_, _, _, _, _, _, _, i8, _⟩ := load_groups_spec rt kf kf.group_names st file 0
    apply accepted_eq_of_length
    have := accepted_length_le rt kf kf.group_names
    by_contra hne
    exact hr (i8 (by omega))

theorem load_file_groups_fail (rt : Runtime) (w : World) (st : State) (kf : GKeyFile)
    (file : policy_file)
    (hfail : (load_file_body rt w st kf file).1 < 0) :
    (load_groups rt kf kf.group_names st file 0).1 < 0 ∧
    (load_file_body rt w st kf file).2.1
      = (load_groups rt kf kf.group_names st file 0).2.2.groups.foldl (cleanup_group rt w)
          (load_groups rt kf kf.group_names st file 0).2.1 ∧
    (accepted rt kf kf.group_names).length < kf.group_names.length := by
  unfold load_file_body at hfail ⊢
  simp only at hfail ⊢
  by_cases hr : (load_groups rt kf kf.group_names st file 0).1 < 0
  · rw [if_pos hr]
    refine ⟨hr, rfl, ?_⟩
    obtain ⟨_, _, _, _, _, _, _, _, i9⟩ := load_groups_spec rt kf kf.group_names st file 0
    have := accepted_length_le rt kf kf.group_names
    by_contra hne
    exact i9 (by omega) (by decide) hr
  · rw [if_neg hr] at hfail; exact absurd hfail hr

/-- The closed form of a failed load_file: what it leaves behind. -/
theorem load_file_failure (rt : Runtime) (w : World) (st : State) (kf : GKeyFile)
    (hfail : (load_file_body rt w st kf { groups := [] }).1 < 0) :
    (∀ k, (load_file_body rt w st kf { groups := [] }).2.1.selinux_hash k
      = if some k ∈ (accepted rt kf kf.group_names).map (section_id kf) then none
        else st.selinux_hash k) ∧
    (∀ a, a < st.heap_top →
      (load_file_body rt w st kf { groups := [] }).2.1.groups a = st.groups a) ∧
    (∀ a, st.heap_top ≤ a → a < (load_file_body rt w st kf { groups := [] }).2.1.heap_top →
      (load_file_body rt w st kf { groups := [] }).2.1.groups a = none) ∧
    (∀ a, (load_file_body rt w st kf { groups := [] }).2.1.heap_top ≤ a →
      (load_file_body rt w st kf { groups := [] }).2.1.groups a = st.groups a) ∧
    (load_file_body rt w st kf { groups := [] }).2.1.policies = st.policies ∧
    (load_file_body rt w st kf { groups := [] }).2.1.file_hash = st.file_hash ∧
    (load_file_body rt w st kf { groups := [] }).2.1.session_hash = st.session_hash ∧
    (load_file_body rt w st kf { groups := [] }).2.1.log = st.log := by
  obtain ⟨_, hst, hshort⟩ := load_file_groups_fail rt w st kf { groups := [] } hfail
  obtain ⟨i1, i2, i3, i4, i5, i6, i7, _, _⟩ :=
    load_groups_spec rt kf kf.group_names st { groups := [] } 0
  obtain ⟨g1, g2, g3, g4⟩ := load_groups_frame rt kf kf.group_names st { groups := [] } 0
  rw [hst]
  simp only [List.append_nil] at i1
  rw [i1]
  have hnd : (List.range' st.heap_top (accepted rt kf kf.group_names).length).reverse.Nodup :=
    List.nodup_reverse.mpr (List.nodup_range' _ _)
  obtain ⟨c1, c2, c3, c4, c5, c6, c7⟩ := cleanup_loop_frame rt w _
    (load_groups rt kf kf.group_names st { groups := [] } 0).2.1 hnd
  have hmem : ∀ a, a ∈ (List.range' st.heap_top (accepted rt kf kf.group_names).length).reverse
      ↔ st.heap_top ≤ a ∧ a < st.heap_top + (accepted rt kf kf.group_names).length := by
    intro a; rw [List.mem_reverse, List.mem_range'_1]
  have hgrp : ∀ a, a ∈ (List.range' st.heap_top (accepted rt kf kf.group_names).length).reverse →
      ∃ n, (accepted rt kf kf.group_names).get? (a - st.heap_top) = some n ∧
        (load_groups rt kf kf.group_names st { groups := [] } 0).2.1.groups a
          = some (load_policy rt kf n zero_group).2 := by
    intro a ha
    obtain ⟨h1, h2⟩ := (hmem a).mp ha
    have hlt : a - st.heap_top < (accepted rt kf kf.group_names).length := by omega
    refine ⟨(accepted rt kf kf.group_names).get ⟨a - st.heap_top, hlt⟩,
      List.get?_eq_get hlt, ?_⟩
    have := i4 (a - st.heap_top) _ (List.get?_eq_get hlt)
    rw [← this]; congr 1; omega
  have hbound : bound_of (load_groups rt kf kf.group_names st { groups := [] } 0).2.1
      (List.range' st.heap_top (accepted rt kf kf.group_names).length).reverse = [] := by
    unfold bound_of
    rw [List.flatMap_eq_nil_iff]
    intro a ha
    obtain ⟨n, _, hg⟩ := hgrp a ha
    rw [hg]
    simp only
    rw [load_policy_sessions]; rfl
  have hids : ∀ k, k ∈ ids_of (load_groups rt kf kf.group_names st { groups := [] } 0).2.1
      (List.range' st.heap_top (accepted rt kf kf.group_names).length).reverse
      ↔ some k ∈ (accepted rt kf kf.group_names).map (section_id kf) := by
    intro k
    unfold ids_of
    rw [List.mem_filterMap, List.mem_map]
    constructor
    · rintro ⟨a, ha, hb⟩
      obtain ⟨n, hn, hg⟩ := hgrp a ha
      rw [hg] at hb
      simp only [Option.some_bind] at hb
      rw [load_policy_selinux] at hb
      exact ⟨n, List.get?_mem hn, hb⟩
    · rintro ⟨n, hn, hb⟩
      obtain ⟨i, hi⟩ := List.mem_iff_get?.mp hn
      have hlt : i < (accepted rt kf kf.group_names).length := by
        obtain ⟨hlt, _⟩ := List.get?_eq_some.mp hi
        exact hlt
      refine ⟨st.heap_top + i, (hmem _).mpr ⟨by omega, by omega⟩, ?_⟩
      rw [i4 i n hi]
      simp only [Option.some_bind]
      rw [load_policy_selinux]; exact hb
  refine ⟨?_, ?_, ?_, ?_, ?_, ?_, ?_, ?_⟩
  · intro k
    rw [c3 k, i7 k]
    by_cases hin : some k ∈ (accepted rt kf kf.group_names).map (section_id kf)
    · rw [if_pos ((hids k).mpr hin), if_pos hin]
    · rw [if_neg (fun h => hin ((hids k).mp h)), if_neg hin,
        (last_index_none_iff _ _).mpr hin]
  · intro a ha
    rw [c4 a, if_neg (fun h => by have := (hmem a).mp h; omega), i3 a ha]
  · intro a h1 h2
    rw [c4 a]
    rw [c6, i2, if_pos hshort] at h2
    by_cases hin : a ∈ (List.range' st.heap_top (accepted rt kf kf.group_names).length).reverse
    · rw [if_pos hin]
    · rw [if_neg hin]
      have : a = st.heap_top + (accepted rt kf kf.group_names).length := by
        have := fun h => hin ((hmem a).mpr h)
        by_contra hne
        exact this ⟨h1, by omega⟩
      rw [this]; exact i5 hshort
  · intro a ha
    rw [c6] at ha
    rw [c4 a, if_neg (fun h => by have := (hmem a).mp h; rw [i2] at ha; omega), i6 a ha]
  · funext q
    rw [c5 q, hbound, g3]; simp
  · rw [c1, g1]
  · rw [c2, g2]
  · rw [c7, hbound, g4]; simp

theorem parse_tokens_neg (rt : Runtime) (ts : List String) (e : Int) (l : List Nat) :
    (parse_tokens rt ts e l).1 < 0 ↔ (∃ t, t ∈ ts ∧ rt.bearers_rc t < 0) ∨ (ts = [] ∧ e < 0) := by
  induction ts generalizing e l with
  | nil => simp [parse_tokens]
  | cons t ts ih =>
    unfold parse_tokens
    simp only [connman_session_parse_bearers]
    by_cases hr : rt.bearers_rc t < 0
    · simp only [hr, if_true]
      constructor
      · intro _; exact Or.inl ⟨t, List.mem_cons_self _ _, hr⟩
      · intro _; trivial
    · simp only [hr, if_false]
      rw [ih]
      constructor
      · rintro (⟨t2, h2, h3⟩ | ⟨_, h3⟩)
        · exact Or.inl ⟨t2, List.mem_cons_of_mem _ h2, h3⟩
        · exact absurd h3 hr
      · rintro (⟨t2, h2, h3⟩ | ⟨h2, _⟩)
        · rcases List.mem_cons.mp h2 with e2 | h2
          · subst e2; exact absurd h3 hr
          · exact Or.inl ⟨t2, h2, h3⟩
        · simp at h2

theorem load_policy_neg (rt : Runtime) (kf : GKeyFile) (n : String) (gr : policy_group) :
    (load_policy rt kf n gr).1 < 0 ↔
      kf.get_string n "selinux" = none ∨
      ∃ str, kf.get_string n "AllowedBearers" = some str ∧
        ∃ t, t ∈ g_strsplit str ' ' ∧ rt.bearers_rc t < 0 := by
  unfold load_policy
  cases hs : kf.get_string n "selinux" with
  | none => simp [EINVAL]
  | some sel =>
    simp only
    cases hb : kf.get_string n "AllowedBearers" with
    | none => simp
    | some str =>
      simp only [parse_tokens_neg]
      simp

theorem load_file_fails_iff (rt : Runtime) (w : World) (st : State) (kf : GKeyFile)
    (file : policy_file) :
    (load_file_body rt w st kf file).1 < 0 ↔
      ∃ n, n ∈ kf.group_names ∧ (load_policy rt kf n zero_group).1 < 0 := by
  constructor
  · intro hfail
    exact accepted_short rt kf _ (load_file_groups_fail rt w st kf file hfail).2.2
  · rintro ⟨n, hn, hbad⟩
    by_contra hok
    have hacc := (load_file_groups_ok rt w st kf file hok).2
    have hn2 : n ∈ accepted rt kf kf.group_names := by rw [hacc]; exact hn
    exact accepted_all rt kf kf.group_names n hn2 hbad

theorem notify_handler_reload (rt : Runtime) (w : World) (st : State) (mask : Nat)
    (f : String) (hc : mask &&& IN_CREATE = 0) (hv : is_filename_valid (some f) = true)
    (hd : mask &&& (IN_DELETE ||| IN_MOVED_FROM) = 0)
    (hm : mask &&& (IN_MOVED_TO ||| IN_MODIFY) ≠ 0) :
    notify_handler rt w st mask (some f)
      = (load_file rt w (file_hash_remove rt w st f) f { groups := [] }).map
          (fun r => if r.1 < 0 then r.2.1
            else recheck_sessions w (file_hash_replace rt w r.2.1 f r.2.2)) := by
  unfold notify_handler
  rw [if_neg (by simp [hc]), if_neg (by simp [hv])]
  simp only
  rw [if_neg (by simp [hd]), if_pos hm]
  cases load_file rt w (file_hash_remove rt w st f) f { groups := [] } with
  | none => rfl
  | some r =>
    simp only [Option.map_some']
    by_cases h5 : r.1 < 0
    · rw [if_pos h5, if_pos h5]
    · rw [if_neg h5, if_neg h5]

theorem notify_handler_reload_ok (rt : Runtime) (w : World) (st : State) (mask : Nat)
    (f : String) (kf : GKeyFile) (hc : mask &&& IN_CREATE = 0)
    (hv : is_filename_valid (some f) = true)
    (hd : mask &&& (IN_DELETE ||| IN_MOVED_FROM) = 0)
    (hm : mask &&& (IN_MOVED_TO ||| IN_MODIFY) ≠ 0)
    (hk : w.load_from_file f = Except.ok kf) :
    notify_handler rt w st mask (some f)
      = some (if (load_file_body rt w (file_hash_remove rt w st f) kf { groups := [] }).1 < 0
          then (load_file_body rt w (file_hash_remove rt w st f) kf { groups := [] }).2.1
          else
            recheck_sessions w
              (file_hash_replace rt w
                (load_file_body rt w (file_hash_remove rt w st f) kf { groups := [] }).2.1 f
                (load_file_body rt w (file_hash_remove rt w st f) kf
                  { groups := [] }).2.2)) := by
  rw [notify_handler_reload rt w st mask f hc hv hd hm, load_file_ok rt w _ f _ kf hk]
  rfl

theorem notify_handler_remove (rt : Runtime) (w : World) (st : State) (mask : Nat)
    (f : String) (hc : mask &&& IN_CREATE = 0) (hv : is_filename_valid (some f) = true)
    (hd : mask &&& (IN_DELETE ||| IN_MOVED_FROM) ≠ 0) :
    notify_handler rt w st mask (some f) = some (file_hash_remove rt w st f) := by
  unfold notify_handler
  simp [hc, hv, hd]

theorem cleanup_loop_file_hash (rt : Runtime) (w : World) (gs : List Nat) (st : State) :
    (gs.foldl (cleanup_group rt w) st).file_hash = st.file_hash := by
  induction gs generalizing st with
  | nil => rfl
  | cons g gs ih =>
    simp only [List.foldl_cons]
    rw [ih]
    cases hg : st.groups g with
    | none => rw [cleanup_group_dead rt w st g hg]
    | some gr => exact (cleanup_group_frame rt w st g gr hg).1

theorem file_hash_remove_at (rt : Runtime) (w : World) (st : State) (f : String) :
    (file_hash_remove rt w st f).file_hash = Function.update st.file_hash f none := by
  unfold file_hash_remove
  cases hf : st.file_hash f with
  | none =>
    show st.file_hash = _
    rw [← hf, Function.update_eq_self]
  | some pf =>
    simp only [cleanup_file]
    rw [cleanup_loop_file_hash]

theorem load_file_body_file_hash (rt : Runtime) (w : World) (st : State) (kf : GKeyFile)
    (file : policy_file) : (load_file_body rt w st kf file).2.1.file_hash = st.file_hash := by
  unfold load_file_body
  · simp only
    by_cases hr : (load_groups rt kf kf.group_names st file 0).1 < 0
    · rw [if_pos hr]
      simp only
      rw [cleanup_loop_file_hash, (load_groups_frame rt kf kf.group_names st file 0).1]
    · rw [if_neg hr, (load_groups_frame rt kf kf.group_names st file 0).1]

theorem load_file_file_hash (rt : Runtime) (w : World) (st : State) (f : String)
    (file : policy_file) (r : Int × State × policy_file)
    (hl : load_file rt w st f file = some r) : r.2.1.file_hash = st.file_hash := by
  rcases load_file_some hl with ⟨code, _, _, e⟩ | ⟨kf, _, e⟩
  · subst e; rfl
  · subst e; exact load_file_body_file_hash rt w st kf file

theorem get?_map_eq {α β : Type} (f : α → β) (l : List α) (i : Nat) :
    (l.map f).get? i = (l.get? i).map f := by
  simp

theorem mem_bound_of (st : State) (gs : List Nat) (p : Nat) :
    p ∈ bound_of st gs ↔ ∃ g gr, g ∈ gs ∧ st.groups g = some gr ∧ p ∈ gr.sessions := by
  unfold bound_of
  rw [List.mem_flatMap]
  constructor
  · rintro ⟨g, hg, hp⟩
    cases hl : st.groups g with
    | none => rw [hl] at hp; simp at hp
    | some gr => rw [hl] at hp; exact ⟨g, gr, hg, hl, hp⟩
  · rintro ⟨g, gr, hg, hl, hp⟩
    exact ⟨g, hg, by rw [hl]; exact hp⟩

theorem mem_bound_of_iff {st : State} {pending : List Nat} (h : HeapInv st pending)
    (gs : List Nat) (p : Nat) :
    p ∈ bound_of st gs ↔
      ∃ pc g, st.policies p = some pc ∧ pc.group = some g ∧ g ∈ gs := by
  rw [mem_bound_of]
  constructor
  · rintro ⟨g, gr, hg, hl, hp⟩
    obtain ⟨pc, h1, h2⟩ := h.in_bound g gr p hl hp
    exact ⟨pc, g, h1, h2, hg⟩
  · rintro ⟨pc, g, h1, h2, hg⟩
    obtain ⟨gr, hl, hp, _⟩ := h.bound_in p pc g h1 h2
    exact ⟨g, gr, hg, hl, hp⟩

theorem bound_of_nodup {st : State} {pending : List Nat} (h : HeapInv st pending)
    (gs : List Nat) (hnd : gs.Nodup) : (bound_of st gs).Nodup := by
  induction gs with
  | nil => simp [bound_of]
  | cons g gs ih =>
    have hn := List.nodup_cons.mp hnd
    cases hl : st.groups g with
    | none =>
      have e : bound_of st (g :: gs) = bound_of st gs := by simp [bound_of, hl]
      rw [e]; exact ih hn.2
    | some gr =>
      have e : bound_of st (g :: gs) = gr.sessions ++ bound_of st gs := by
        simp [bound_of, hl]
      rw [e]
      refine List.Nodup.append (h.sess_nodup g gr hl) (ih hn.2) ?_
      intro p h1 h2
      obtain ⟨g2, gr2, hg2, hl2, hp2⟩ := (mem_bound_of st gs p).mp h2
      obtain ⟨pc, a1, a2⟩ := h.in_bound g gr p hl h1
      obtain ⟨pc2, b1, b2⟩ := h.in_bound g2 gr2 p hl2 hp2
      rw [a1] at b1; injection b1 with b1; subst b1
      rw [a2] at b2; injection b2 with b2; subst b2
      exact hn.1 hg2

theorem flatMap_singleton_map {α β : Type} (g : α → β) (l : List α) :
    l.flatMap (fun a => [g a]) = l.map g := by
  induction l with
  | nil => rfl
  | cons a l ih => simp [List.flatMap_cons, ih]

theorem push_effects_accepted (w : World) (pc : policy_config) (h0 : pc.session ≠ 0)
    (hacc : ∀ s, ¬ w.config_update s < 0) :
    push_effects w (some pc) = [Effect.config_update pc.session] := by
  simp [push_effects, h0, hacc pc.session]

theorem file_hash_remove_present (rt : Runtime) (w : World) (st : State) (f : String)
    (pf : policy_file) (hf : st.file_hash f = some pf) :
    file_hash_remove rt w st f
      = pf.groups.foldl (cleanup_group rt w)
          { st with file_hash := Function.update st.file_hash f none } := by
  unfold file_hash_remove
  rw [hf]
  rfl

theorem copy_session_config_eq (dst src : connman_session_config) :
    copy_session_config dst src = src := by
  cases dst; cases src; rfl

theorem session_hash_replace_groups {st : State} {pending : List Nat}
    (h : HeapInv st pending) (s p : Nat) (a : Nat) (gr : policy_group)
    (hg : st.groups a = some gr) :
    ∃ gr2, (session_hash_replace st s p).groups a = some gr2 ∧ gr2.config = gr.config ∧
      gr2.selinux = gr.selinux ∧
      ∀ x, x ∈ gr.sessions → st.session_hash.lookup s ≠ some x → x ∈ gr2.sessions := by
  unfold session_hash_replace
  cases hl : st.session_hash.lookup s with
  | none => exact ⟨gr, hg, rfl, rfl, fun x hx _ => hx⟩
  | some q =>
    refine ⟨{ gr with sessions := gr.sessions.erase q }, ?_, rfl, rfl, ?_⟩
    · show (cleanup_config st q).groups a = _
      rw [cleanup_config_groups h q a, hg]; rfl
    · intro x hx hne
      have : x ≠ q := fun e => hne (by rw [e])
      exact (List.mem_erase_of_ne this).mpr hx

theorem lookup_fresh {st : State} (ht : TableInv st) (s p : Nat)
    (hfresh : st.policies p = none) : st.session_hash.lookup s ≠ some p := by
  intro hl
  obtain ⟨pc, hp, _⟩ := ht.tab_live s p (lookup_mem hl)
  rw [hfresh] at hp; exact absurd hp (by simp)

theorem recheck_one_eq (w : World) (st : State) (e : Nat × Nat) :
    recheck_one w st e
      = match recheck_target st e.2 with
        | some g => update_session w (set_policy st e.2 g) e.2
        | none => st := by
  unfold recheck_one recheck_target
  cases hp : st.policies e.2 with
  | none => rfl
  | some pc =>
    simp only
    cases hb : pc.group with
    | some g => rfl
    | none =>
      simp only

theorem recheck_target_some {st : State} {pending : List Nat} (h : HeapInv st pending)
    (p g : Nat) (ht : recheck_target st p = some g) :
    ∃ pc gr ident, st.policies p = some pc ∧ pc.group = none ∧ pc.selinux = some ident ∧
      st.selinux_hash ident = some g ∧ st.groups g = some gr ∧ gr.selinux = pc.selinux := by
  unfold recheck_target at ht
  cases hp : st.policies p with
  | none => rw [hp] at ht; simp at ht
  | some pc =>
    rw [hp] at ht
    simp only at ht
    cases hb : pc.group with
    | some g2 => rw [hb] at ht; simp at ht
    | none =>
      rw [hb] at ht
      simp only at ht
      obtain ⟨k, hk, hk2⟩ := Option.bind_eq_some.mp ht
      obtain ⟨gr, hg, hs⟩ := h.idx k g hk2
      exact ⟨pc, gr, k, rfl, hb, hk, hk2, hg, by rw [hs, hk]⟩

/-- What one iteration of the loop of recheck_sessions does. -/
theorem recheck_one_step {st : State} {pending : List Nat} (h : HeapInv st pending)
    (w : World) (e : Nat × Nat) :
    (recheck_one w st e).selinux_hash = st.selinux_hash ∧
    (recheck_one w st e).session_hash = st.session_hash ∧
    (recheck_one w st e).file_hash = st.file_hash ∧
    (∀ q, q ≠ e.2 → (recheck_one w st e).policies q = st.policies q) ∧
    (recheck_target st e.2 = none → (recheck_one w st e).policies e.2 = st.policies e.2) ∧
    (∀ g pc gr, recheck_target st e.2 = some g → st.policies e.2 = some pc →
      st.groups g = some gr →
      (recheck_one w st e).policies e.2
        = some { pc with group := some g, config := gr.config } ∧
      ∃ gr2, (recheck_one w st e).groups g = some gr2 ∧ e.2 ∈ gr2.sessions ∧
        gr2.config = gr.config) ∧
    (∀ a gr, st.groups a = some gr →
      ∃ gr2, (recheck_one w st e).groups a = some gr2 ∧ gr2.config = gr.config ∧
        gr2.selinux = gr.selinux ∧ ∀ x, x ∈ gr.sessions → x ∈ gr2.sessions) ∧
    (recheck_one w st e).log
      = st.log ++ (match recheck_target st e.2 with
          | some _ => push_effects w (st.policies e.2)
          | none => []) := by
  rw [recheck_one_eq]
  cases ht : recheck_target st e.2 with
  | none =>
    refine ⟨rfl, rfl, rfl, fun _ _ => rfl, fun _ => rfl, ?_, ?_, by simp⟩
    · intro g pc gr h0; exact absurd h0 (by simp)
    · intro a gr hg; exact ⟨gr, hg, rfl, rfl, fun x hx => hx⟩
  | some g =>
    simp only
    obtain ⟨pc, gr, ident, hp, hb, _, _, hg, _⟩ := recheck_target_some h e.2 g ht
    obtain ⟨u1, u2, u3, u4, u5, u6, u7⟩ := update_session_frame w (set_policy st e.2 g) e.2
    have hfr := set_policy_frame st e.2 g pc gr hp hg
    rw [u1, u2, u3, u4, u5, u7, hfr]
    refine ⟨rfl, rfl, rfl, ?_, ?_, ?_, ?_, ?_⟩
    · intro q hq
      show Function.update st.policies e.2 _ q = _
      rw [Function.update_noteq hq]
    · intro h0; exact absurd h0 (by simp)
    · intro g2 pc2 gr2 h0 hp2 hg2
      injection h0 with h0; subst h0
      rw [hp] at hp2; injection hp2 with hp2; subst hp2
      rw [hg] at hg2; injection hg2 with hg2; subst hg2
      refine ⟨?_, { gr with sessions := e.2 :: gr.sessions }, ?_, List.mem_cons_self _ _, rfl⟩
      · show Function.update st.policies e.2 _ e.2 = _
        rw [Function.update_same, copy_session_config_eq]
      · show Function.update st.groups g _ g = _
        rw [Function.update_same]
    · intro a gr2 hg2
      by_cases ha : a = g
      · subst ha
        rw [hg] at hg2; injection hg2 with hg2; subst hg2
        exact ⟨{ gr with sessions := e.2 :: gr.sessions },
          by show Function.update st.groups a _ a = _; rw [Function.update_same],
          rfl, rfl, fun x hx => List.mem_cons_of_mem _ hx⟩
      · exact ⟨gr2, by show Function.update st.groups g _ a = _;
                       rw [Function.update_noteq ha]; exact hg2,
          rfl, rfl, fun x hx => hx⟩
    · congr 1
      show push_effects w (Function.update st.policies e.2 _ e.2) = _
      rw [Function.update_same, hp]
      rfl

theorem recheck_target_congr (st st2 : State) (q : Nat)
    (h1 : st2.policies q = st.policies q) (h2 : st2.selinux_hash = st.selinux_hash) :
    recheck_target st2 q = recheck_target st q := by
  unfold recheck_target
  rw [h1, h2]

/-- The closed form of the loop of recheck_sessions over entries with
pairwise distinct policy addresses. -/
theorem recheck_loop_spec (w : World) (l : List (Nat × Nat)) {st : State}
    {pending : List Nat} (h : HeapInv st pending) (hnd : (l.map Prod.snd).Nodup) :
    (l.foldl (recheck_one w) st).selinux_hash = st.selinux_hash ∧
    (l.foldl (recheck_one w) st).session_hash = st.session_hash ∧
    (l.foldl (recheck_one w) st).file_hash = st.file_hash ∧
    (∀ q, q ∉ l.map Prod.snd → (l.foldl (recheck_one w) st).policies q = st.policies q) ∧
    (∀ q, recheck_target st q = none →
      (l.foldl (recheck_one w) st).policies q = st.policies q) ∧
    (∀ q g pc gr, q ∈ l.map Prod.snd → recheck_target st q = some g →
      st.policies q = some pc → st.groups g = some gr →
      (l.foldl (recheck_one w) st).policies q
        = some { pc with group := some g, config := gr.config } ∧
      ∃ gr2, (l.foldl (recheck_one w) st).groups g = some gr2 ∧ q ∈ gr2.sessions ∧
        gr2.config = gr.config) ∧
    (∀ a gr, st.groups a = some gr →
      ∃ gr2, (l.foldl (recheck_one w) st).groups a = some gr2 ∧ gr2.config = gr.config ∧
        gr2.selinux = gr.selinux ∧ ∀ x, x ∈ gr.sessions → x ∈ gr2.sessions) ∧
    (l.foldl (recheck_one w) st).log
      = st.log ++ l.flatMap (fun e => match recheck_target st e.2 with
          | some _ => push_effects w (st.policies e.2)
          | none => []) := by
  induction l generalizing st with
  | nil =>
    refine ⟨rfl, rfl, rfl, fun _ _ => rfl, fun _ _ => rfl, ?_, ?_, by simp⟩
    · intro q g pc gr hq; simp at hq
    · intro a gr hg; exact ⟨gr, hg, rfl, rfl, fun x hx => hx⟩
  | cons e l ih =>
    simp only [List.map_cons, List.nodup_cons] at hnd
    obtain ⟨s1, s2, s3, s4, s5, s6, s7, s8⟩ := recheck_one_step h w e
    obtain ⟨i1, i2, i3, i4, i5, i6, i7, i8⟩ := ih (heap_recheck_one h e) hnd.2
    have htc : ∀ q, q ≠ e.2 → recheck_target (recheck_one w st e) q = recheck_target st q :=
      fun q hq => recheck_target_congr st _ q (s4 q hq) s1
    simp only [List.foldl_cons, List.map_cons, List.mem_cons, not_or]
    refine ⟨i1.trans s1, i2.trans s2, i3.trans s3, ?_, ?_, ?_, ?_, ?_⟩
    · intro q hq
      rw [i4 q hq.2, s4 q hq.1]
    · intro q hq
      by_cases he : q = e.2
      · subst he
        rw [i4 _ hnd.1, s5 hq]
      · rw [i5 q (by rw [htc q he]; exact hq), s4 q he]
    · intro q g pc gr hq htq hp hg
      obtain ⟨gr1, hg1, hc1, _, hm1⟩ := s7 g gr hg
      by_cases he : q = e.2
      · subst he
        obtain ⟨a1, gr2, a2, a3, a4⟩ := s6 g pc gr htq hp hg
        obtain ⟨gr3, b1, b2, _, b4⟩ := i7 g gr2 a2
        exact ⟨by rw [i4 _ hnd.1, a1], gr3, b1, b4 _ a3, by rw [b2, a4]⟩
      · have hq2 : q ∈ l.map Prod.snd := by
          rcases hq with hq | hq
          · exact absurd hq he
          · exact hq
        obtain ⟨a1, gr2, a2, a3, a4⟩ := i6 q g pc gr1 hq2 (by rw [htc q he]; exact htq)
          (by rw [s4 q he]; exact hp) hg1
        exact ⟨by rw [a1, hc1], gr2, a2, a3, by rw [a4, hc1]⟩
    · intro a gr hg
      obtain ⟨gr1, hg1, hc1, hs1, hm1⟩ := s7 a gr hg
      obtain ⟨gr2, hg2, hc2, hs2, hm2⟩ := i7 a gr1 hg1
      exact ⟨gr2, hg2, by rw [hc2, hc1], by rw [hs2, hs1], fun x hx => hm2 x (hm1 x hx)⟩
    · rw [i8, s8, List.flatMap_cons, List.append_assoc]
      congr 2
      apply List.flatMap_congr
      intro x hx
      have hne : x.2 ≠ e.2 := by
        intro he
        exact hnd.1 (he ▸ List.mem_map_of_mem Prod.snd hx)
      rw [htc x.2 hne, s4 x.2 hne]

theorem table_values_nodup {st : State} (ht : TableInv st) :
    (st.session_hash.map Prod.snd).Nodup := by
  have hl : st.session_hash.Nodup := List.Nodup.of_map _ ht.tab_keys
  refine List.Nodup.map_on ?_ hl
  intro x hx y hy hxy
  obtain ⟨s1, p1⟩ := x
  obtain ⟨s2, p2⟩ := y
  simp only at hxy
  subst hxy
  obtain ⟨pc1, h1, e1⟩ := ht.tab_live s1 p1 hx
  obtain ⟨pc2, h2, e2⟩ := ht.tab_live s2 p1 hy
  rw [h1] at h2; injection h2 with h2; subst h2
  rw [← e1, ← e2]

theorem flatMap_filter_map {α β : Type} (l : List α) (c : α → Bool) (f : α → List β)
    (g : α → β) (h1 : ∀ x, x ∈ l → c x = true → f x = [g x])
    (h2 : ∀ x, x ∈ l → c x = false → f x = []) :
    l.flatMap f = (l.filter c).map g := by
  induction l with
  | nil => rfl
  | cons x l ih =>
    have ih2 := ih (fun y hy => h1 y (List.mem_cons_of_mem _ hy))
      (fun y hy => h2 y (List.mem_cons_of_mem _ hy))
    rw [List.flatMap_cons, ih2]
    cases hc : c x with
    | true => rw [h1 x (List.mem_cons_self _ _) hc, List.filter_cons_of_pos hc]; rfl
    | false =>
      rw [h2 x (List.mem_cons_self _ _) hc, List.filter_cons_of_neg (by simp [hc])]; rfl

theorem count_push_absent (l : List (Nat × Nat)) (c : Nat × Nat → Bool) (s : Nat)
    (hs : s ∉ l.map Prod.fst) :
    ((l.filter c).map (fun e => Effect.config_update e.1)).count (Effect.config_update s)
      = 0 := by
  rw [List.count_eq_zero]
  intro hm
  obtain ⟨e, he, heq⟩ := List.mem_map.mp hm
  injection heq with heq
  exact hs (List.mem_map.mpr ⟨e, (List.mem_filter.mp he).1, heq⟩)

theorem count_push (l : List (Nat × Nat)) (c : Nat × Nat → Bool)
    (hnd : (l.map Prod.fst).Nodup) (s p : Nat) (hm : (s, p) ∈ l) :
    ((l.filter c).map (fun e => Effect.config_update e.1)).count (Effect.config_update s)
      = if c (s, p) = true then 1 else 0 := by
  induction l with
  | nil => simp at hm
  | cons e l ih =>
    simp only [List.map_cons, List.nodup_cons] at hnd
    rcases List.mem_cons.mp hm with hm | hm
    · subst hm
      have h0 := count_push_absent l c s hnd.1
      cases hc : c (s, p) with
      | true =>
        rw [List.filter_cons_of_pos hc, List.map_cons, List.count_cons_self, h0]
        simp
      | false =>
        rw [List.filter_cons_of_neg (by simp [hc]), h0]
        simp
    · have hne : e.1 ≠ s := by
        intro he
        exact hnd.1 (he ▸ List.mem_map_of_mem Prod.fst hm)
      have ih2 := ih hnd.2 hm
      cases hc : c e with
      | true =>
        rw [List.filter_cons_of_pos hc, List.map_cons,
          List.count_cons_of_ne (by intro h; injection h with h; exact hne h.symm), ih2]
      | false =>
        rw [List.filter_cons_of_neg (by simp [hc]), ih2]

theorem inv_st_before_recheck : Inv st_before_recheck :=
  (inv_load_and_register_body
    (inv_file_hash_remove
      (reachable_inv (Reachable.reply init "unconfined_u:object_r:app_t:s0" 7 0
        Reachable.init (by decide)))
      "app.policy")
    "app.policy" sample_keyfile).2 (by decide)

/-- The state st_before_recheck is the state notify_handler passes to
recheck_sessions when app.policy is moved in in st_unmatched. -/
theorem notify_st_before_recheck :
    notify_handler sample_rt sample_world st_unmatched IN_MOVED_TO (some "app.policy")
      = some (recheck_sessions sample_world st_before_recheck) := by
  rw [notify_handler_reload_ok sample_rt sample_world st_unmatched IN_MOVED_TO "app.policy"
    sample_keyfile (by decide) (by decide) (by decide) (by decide) rfl]
  rw [if_neg (by decide)]
  rfl

theorem parse_selinux_type_some_of_count (context : String)
    (h : 2 ≤ context.data.count ':') : (parse_selinux_type context).isSome = true := by
  have hne : context.data ≠ [] := by
    intro he; rw [he] at h; simp at h
  have hlen : 3 ≤ ((splitChars ':' context.data).map String.mk).length := by
    rw [List.length_map, splitChars_length]; omega
  unfold parse_selinux_type g_strsplit
  simp only [hne, if_false]
  rw [if_neg (by omega)]
  rw [List.get?_eq_get (by omega)]
  rfl

/-! ### The directory scan -/

/-- A property the steps of the scan keep holds after read_names. -/
theorem read_names_keeps {rt : Runtime} {w : World} (P : State → Prop)
    (hstep : ∀ st f r, P st → load_file rt w st f { groups := [] } = some r →
      (r.1 < 0 → P r.2.1) ∧ (¬ r.1 < 0 → P (file_hash_replace rt w r.2.1 f r.2.2)))
    (names : List String) (st st2 : State) (h : P st)
    (hr : read_names rt w names st = some st2) : P st2 := by
  induction names generalizing st with
  | nil =>
    simp only [read_names] at hr
    injection hr with hr
    rw [← hr]; exact h
  | cons f names ih =>
    unfold read_names at hr
    by_cases hv : is_filename_valid (some f) = false
    · rw [if_pos hv] at hr; exact ih st h hr
    · rw [if_neg hv] at hr
      cases hl : load_file rt w st f { groups := [] } with
      | none => rw [hl] at hr; exact absurd hr (by simp)
      | some r =>
        rw [hl] at hr
        simp only at hr
        obtain ⟨s1, s2⟩ := hstep st f r h hl
        by_cases hneg : r.1 < 0
        · rw [if_pos hneg] at hr; exact ih _ (s1 hneg) hr
        · rw [if_neg hneg] at hr; exact ih _ (s2 hneg) hr

theorem read_policies_keeps {rt : Runtime} {w : World} (P : State → Prop)
    (hstep : ∀ st f r, P st → load_file rt w st f { groups := [] } = some r →
      (r.1 < 0 → P r.2.1) ∧ (¬ r.1 < 0 → P (file_hash_replace rt w r.2.1 f r.2.2)))
    (dir : Option (List String)) (st : State) (r : Int × State) (h : P st)
    (hr : read_policies rt w st dir = some r) : P r.2 := by
  unfold read_policies at hr
  cases dir with
  | none =>
    simp only at hr
    injection hr with hr
    rw [← hr]; exact h
  | some names =>
    simp only at hr
    cases hn : read_names rt w names st with
    | none => rw [hn] at hr; exact absurd hr (by simp)
    | some st2 =>
      rw [hn] at hr
      simp only [Option.map_some'] at hr
      injection hr with hr
      rw [← hr]
      exact read_names_keeps P hstep names st st2 h hn

theorem inv_read_policies {rt : Runtime} {w : World} {st : State} (h : Inv st)
    (dir : Option (List String)) (r : Int × State)
    (hr : read_policies rt w st dir = some r) : Inv r.2 :=
  read_policies_keeps Inv (fun _ f _ hs hl => inv_load_and_register hs f hl) dir st r h hr

theorem cleanup_group_dead_policy (rt : Runtime) (w : World) (st : State) (g q : Nat)
    (h : st.policies q = none) : (cleanup_group rt w st g).policies q = none := by
  cases hg : st.groups g with
  | none => rw [cleanup_group_dead rt w st g hg]; exact h
  | some gr =>
    rw [(cleanup_group_frame rt w st g gr hg).2.2.2.2.1 q, h]
    simp

theorem cleanup_loop_dead_policy (rt : Runtime) (w : World) (gs : List Nat) (st : State)
    (q : Nat) (h : st.policies q = none) :
    (gs.foldl (cleanup_group rt w) st).policies q = none := by
  induction gs generalizing st with
  | nil => exact h
  | cons g gs ih =>
    simp only [List.foldl_cons]
    exact ih _ (cleanup_group_dead_policy rt w st g q h)

theorem load_file_dead_policy (rt : Runtime) (w : World) (st : State) (f : String)
    (file : policy_file) (q : Nat) (h : st.policies q = none) (r : Int × State × policy_file)
    (hl : load_file rt w st f file = some r) :
    r.2.1.policies q = none := by
  rcases load_file_some hl with ⟨code, _, _, e⟩ | ⟨kf, _, e⟩
  · subst e; exact h
  · subst e
    unfold load_file_body
    simp only
    have hp := (load_groups_frame rt kf kf.group_names st file 0).2.2.1
    by_cases hr : (load_groups rt kf kf.group_names st file 0).1 < 0
    · rw [if_pos hr]
      exact cleanup_loop_dead_policy rt w _ _ q (by rw [hp]; exact h)
    · rw [if_neg hr, hp]; exact h

theorem file_hash_remove_dead_policy (rt : Runtime) (w : World) (st : State) (f : String)
    (q : Nat) (h : st.policies q = none) :
    (file_hash_remove rt w st f).policies q = none := by
  unfold file_hash_remove
  cases hf : st.file_hash f with
  | none => exact h
  | some pf => exact cleanup_loop_dead_policy rt w pf.groups _ q h

theorem read_policies_dead_policy (rt : Runtime) (w : World) (st : State)
    (dir : Option (List String)) (h : ∀ q, st.policies q = none) (r : Int × State)
    (hr : read_policies rt w st dir = some r) :
    ∀ q, r.2.policies q = none := by
  refine read_policies_keeps (fun s => ∀ q, s.policies q = none) ?_ dir st r h hr
  intro s f r2 hs hl
  constructor
  · intro _ q; exact load_file_dead_policy rt w s f _ q (hs q) r2 hl
  · intro _ q
    exact file_hash_remove_dead_policy rt w _ f q
      (load_file_dead_policy rt w s f _ q (hs q) r2 hl)

/-! ### No binding stays unmatched -/

theorem matched_of_dead {st : State} (h : ∀ q, st.policies q = none) : Matched st := by
  intro p pc k hp
  rw [h p] at hp; exact absurd hp (by simp)

theorem mem_ids_of (st : State) (gs : List Nat) (g : Nat) (gr : policy_group) (k : String)
    (hg : g ∈ gs) (hl : st.groups g = some gr) (hs : gr.selinux = some k) :
    k ∈ ids_of st gs := by
  unfold ids_of
  rw [List.mem_filterMap]
  exact ⟨g, hg, by rw [hl]; exact hs⟩

theorem matched_file_hash_remove {rt : Runtime} {w : World} {st : State} (hinv : Inv st)
    (hm : Matched st) (f : String) : Matched (file_hash_remove rt w st f) := by
  cases hf : st.file_hash f with
  | none =>
    have : file_hash_remove rt w st f = st := by unfold file_hash_remove; rw [hf]
    rw [this]; exact hm
  | some pf =>
    have hh := hinv.1
    obtain ⟨_, _, c3, _, c5, _, _⟩ := cleanup_loop_frame rt w pf.groups
      { st with file_hash := Function.update st.file_hash f none } (hh.file_nodup f pf hf)
    rw [← file_hash_remove_present rt w st f pf hf] at c3 c5
    intro p pc1 k hp hb hs
    rw [c5 p] at hp
    rw [c3 k]
    by_cases hin : p ∈ bound_of st pf.groups
    · have hin2 : p ∈ bound_of { st with file_hash := Function.update st.file_hash f none }
          pf.groups := hin
      rw [if_pos hin2] at hp
      obtain ⟨pc, g, h1, h2, h3⟩ := (mem_bound_of_iff hh pf.groups p).mp hin
      have hp2 : (st.policies p).map (detach rt) = some pc1 := hp
      rw [h1] at hp2
      simp only [Option.map_some', Option.some.injEq] at hp2
      subst hp2
      obtain ⟨gr, hl, _, hsel⟩ := hh.bound_in p pc g h1 h2
      have hk : k ∈ ids_of { st with file_hash := Function.update st.file_hash f none }
          pf.groups := mem_ids_of st pf.groups g gr k h3 hl (by rw [hsel]; exact hs)
      rw [if_pos hk]
    · have hin2 : p ∉ bound_of { st with file_hash := Function.update st.file_hash f none }
          pf.groups := hin
      rw [if_neg hin2] at hp
      have h0 : st.selinux_hash k = none := hm p pc1 k hp hb hs
      by_cases hk : k ∈ ids_of { st with file_hash := Function.update st.file_hash f none }
          pf.groups
      · rw [if_pos hk]
      · rw [if_neg hk]; exact h0

theorem matched_load_fail {rt : Runtime} {w : World} {st : State} (hm : Matched st)
    (f : String) {r : Int × State × policy_file}
    (hl : load_file rt w st f { groups := [] } = some r) (hfail : r.1 < 0) :
    Matched r.2.1 := by
  rcases load_file_some hl with ⟨code, _, _, e⟩ | ⟨kf, _, e⟩
  · subst e; exact hm
  · subst e
    obtain ⟨a1, _, _, _, a5, _, _, _⟩ := load_file_failure rt w st kf hfail
    intro p pc k hp hb hs
    rw [a5] at hp
    rw [a1 k, hm p pc k hp hb hs]
    simp

theorem matched_recheck_sessions {w : World} {st : State} (hinv : Inv st) :
    Matched (recheck_sessions w st) := by
  obtain ⟨hh, ht⟩ := hinv
  obtain ⟨r1, _, _, _, r5, r6, _, _⟩ :=
    recheck_loop_spec w st.session_hash hh (table_values_nodup ht)
  unfold recheck_sessions
  intro p pcf k hp hb hs
  rw [r1]
  cases htg : recheck_target st p with
  | none =>
    rw [r5 p htg] at hp
    unfold recheck_target at htg
    rw [hp] at htg
    simp only [hb, hs] at htg
    exact htg
  | some g =>
    obtain ⟨pc, gr, _, h1, _, _, _, h5, _⟩ := recheck_target_some hh p g htg
    have hmem : p ∈ st.session_hash.map Prod.snd :=
      List.mem_map.mpr ⟨(pc.session, p), ht.live_tab p pc h1, rfl⟩
    obtain ⟨a1, _⟩ := r6 p g pc gr hmem htg h1 h5
    rw [a1] at hp
    injection hp with hp
    rw [← hp] at hb
    exact absurd hb (by simp)

theorem matched_policy_local_destroy {st : State} (hm : Matched st) (session : Nat) :
    Matched (policy_local_destroy st session) := by
  unfold policy_local_destroy
  cases hl : st.session_hash.lookup session with
  | none => exact hm
  | some q =>
    simp only
    obtain ⟨_, _, f3, f4, _, _⟩ := cleanup_config_frame st q
    intro p pc k hp hb hs
    have hp2 : (cleanup_config st q).policies p = some pc := hp
    show (cleanup_config st q).selinux_hash k = none
    rw [f4] at hp2
    rw [f3]
    by_cases e : p = q
    · subst e; simp at hp2
    · rw [Function.update_noteq e] at hp2
      exact hm p pc k hp2 hb hs

theorem matched_selinux_context_reply {rt : Runtime} {st : State} (hinv : Inv st)
    (hm : Matched st) (context : String) (session : Nat) (err : Int) :
    Matched (selinux_context_reply rt st context session err) := by
  obtain ⟨hh, ht⟩ := hinv
  unfold selinux_context_reply
  by_cases he : err < 0
  · rw [if_pos he]; exact hm
  · rw [if_neg he]
    cases hi : parse_selinux_type context with
    | none => exact hm
    | some ident =>
      simp only
      cases hl : st.selinux_hash ident with
      | none =>
        simp only
        obtain ⟨_, _, f3, f4, _, _⟩ := session_hash_replace_frame
          { st with
            policies := Function.update st.policies st.heap_top
              (some { create_policy rt with selinux := some ident, session := session })
            heap_top := st.heap_top + 1 } session st.heap_top
        intro a pc k hp hb hs
        have hp2 := f4 a
        have hp3 : (session_hash_replace
          { st with
            policies := Function.update st.policies st.heap_top
              (some { create_policy rt with selinux := some ident, session := session })
            heap_top := st.heap_top + 1 } session st.heap_top).policies a = some pc := hp
        rw [hp3] at hp2
        show (session_hash_replace _ session st.heap_top).selinux_hash k = none
        rw [f3]
        show st.selinux_hash k = none
        by_cases hlk : st.session_hash.lookup session = some a
        · rw [if_pos hlk] at hp2; exact absurd hp2 (by simp)
        · rw [if_neg hlk] at hp2
          by_cases e : a = st.heap_top
          · subst e
            simp only [Function.update_same, Option.some.injEq] at hp2
            rw [hp2] at hs
            simp only [Option.some.injEq] at hs
            rw [← hs]; exact hl
          · simp only [Function.update_noteq e] at hp2
            exact hm a pc k hp2.symm hb hs
      | some g =>
        simp only
        obtain ⟨gr, hg, _⟩ := hh.idx ident g hl
        have hfr := set_policy_frame
          { st with
            policies := Function.update st.policies st.heap_top
              (some { create_policy rt with selinux := some ident, session := session })
            heap_top := st.heap_top + 1 } st.heap_top g
          { create_policy rt with selinux := some ident, session := session } gr
          (by simp) hg
        rw [hfr]
        obtain ⟨_, _, f3, f4, _, _⟩ := session_hash_replace_frame
          { st with
            groups := Function.update st.groups g
              (some { gr with sessions := st.heap_top :: gr.sessions })
            policies := Function.update
              (Function.update st.policies st.heap_top
                (some { create_policy rt with selinux := some ident, session := session }))
              st.heap_top
              (some { selinux := some ident
                      config := copy_session_config (create_policy rt).config gr.config
                      session := session, group := some g })
            heap_top := st.heap_top + 1 } session st.heap_top
        intro a pc k hp hb hs
        have hp2 := f4 a
        have hp3 : (session_hash_replace
          { st with
            groups := Function.update st.groups g
              (some { gr with sessions := st.heap_top :: gr.sessions })
            policies := Function.update
              (Function.update st.policies st.heap_top
                (some { create_policy rt with selinux := some ident, session := session }))
              st.heap_top
              (some { selinux := some ident
                      config := copy_session_config (create_policy rt).config gr.config
                      session := session, group := some g })
            heap_top := st.heap_top + 1 } session st.heap_top).policies a = some pc := hp
        rw [hp3] at hp2
        show (session_hash_replace _ session st.heap_top).selinux_hash k = none
        rw [f3]
        show st.selinux_hash k = none
        by_cases hlk : st.session_hash.lookup session = some a
        · rw [if_pos hlk] at hp2; exact absurd hp2 (by simp)
        · rw [if_neg hlk] at hp2
          by_cases e : a = st.heap_top
          · subst e
            simp only [Function.update_same, Option.some.injEq] at hp2
            rw [hp2] at hb
            exact absurd hb (by simp)
          · simp only [Function.update_noteq e] at hp2
            exact hm a pc k hp2.symm hb hs

theorem matched_notify_handler {rt : Runtime} {w : World} {st st2 : State} (hinv : Inv st)
    (hm : Matched st) (mask : Nat) (filename : Option String)
    (hn : notify_handler rt w st mask filename = some st2) : Matched st2 := by
  rcases notify_handler_some hn with e | ⟨name, _, _, _, ⟨_, e⟩ | ⟨_, _, r, hl, ⟨h5, e⟩ | ⟨h5, e⟩⟩⟩
  · rw [e]; exact hm
  · rw [e]; exact matched_file_hash_remove hinv hm name
  · rw [e]; exact matched_load_fail (matched_file_hash_remove hinv hm name) name hl h5
  · rw [e]
    exact matched_recheck_sessions
      ((inv_load_and_register (inv_file_hash_remove hinv name) name hl).2 h5)

theorem reachable_scan_inv {rt : Runtime} {st : State} (h : ReachableScan rt st) :
    Inv st ∧ Matched st := by
  induction h with
  | scan w dir r hr =>
    exact ⟨inv_read_policies inv_init dir r hr,
      matched_of_dead (read_policies_dead_policy rt w init dir (fun _ => rfl) r hr)⟩
  | notify st st2 w mask filename _ hn ih =>
    exact ⟨inv_notify_handler ih.1 mask filename hn,
      matched_notify_handler ih.1 ih.2 mask filename hn⟩
  | reply st context session err _ hs ih =>
    exact ⟨inv_selinux_context_reply ih.1 context session err hs,
      matched_selinux_context_reply ih.1 ih.2 context session err⟩
  | destroy st session _ ih =>
    exact ⟨inv_policy_local_destroy ih.1 session, matched_policy_local_destroy ih.2 session⟩

theorem reachable_scan_of_reachable {rt : Runtime} {st : State} (h : Reachable rt st) :
    ReachableScan rt st := by
  induction h with
  | init =>
    exact ReachableScan.scan
      { load_from_file := fun _ => Except.error 1, config_update := fun _ => 0 } none
      (-EINVAL, init) rfl
  | notify st st2 w mask filename _ hn ih => exact ReachableScan.notify st st2 w mask filename ih hn
  | reply st context session err _ hs ih => exact ReachableScan.reply st context session err ih hs
  | destroy st session _ ih => exact ReachableScan.destroy st session ih

/-! ### The removal reads the world only through config_update -/

theorem update_session_world (w w2 : World) (h : w2.config_update = w.config_update) :
    update_session w2 = update_session w := by
  funext st p
  unfold update_session
  rw [h]

theorem set_default_config_world (rt : Runtime) (w w2 : World)
    (h : w2.config_update = w.config_update) :
    set_default_config rt w2 = set_default_config rt w := by
  funext st p
  unfold set_default_config
  rw [update_session_world w w2 h]

theorem cleanup_group_world (rt : Runtime) (w w2 : World)
    (h : w2.config_update = w.config_update) :
    cleanup_group rt w2 = cleanup_group rt w := by
  funext st g
  unfold cleanup_group
  rw [set_default_config_world rt w w2 h]

theorem file_hash_remove_world (rt : Runtime) (w w2 : World)
    (h : w2.config_update = w.config_update) (st : State) (f : String) :
    file_hash_remove rt w2 st f = file_hash_remove rt w st f := by
  unfold file_hash_remove cleanup_file
  rw [cleanup_group_world rt w w2 h]

theorem file_hash_remove_absent (rt : Runtime) (w : World) (st : State) (f : String)
    (hf : st.file_hash f = none) : file_hash_remove rt w st f = st := by
  unfold file_hash_remove; rw [hf]

theorem read_policies_st_scanned :
    read_policies sample_rt sample_world init
        (some ["bad.policy", ".app.policy", "app.policy"])
      = some (0, st_scanned) := by
  have h := some_getD (read_policies sample_rt sample_world init
    (some ["bad.policy", ".app.policy", "app.policy"])) (0, init) (by decide)
  rw [h]
  have h0 : ((read_policies sample_rt sample_world init
      (some ["bad.policy", ".app.policy", "app.policy"])).getD (0, init)).1 = 0 := by decide
  exact congrArg some (Prod.ext h0 rfl)

theorem reachable_scan_st_scan_session : ReachableScan sample_rt st_scan_session :=
  ReachableScan.reply _ _ _ _ (ReachableScan.scan _ _ _ read_policies_st_scanned) (by decide)

theorem notify_st_twin :
    notify_handler sample_rt twin_world st_loaded IN_MOVED_TO (some "twin.policy")
      = some st_twin :=
  some_getD _ _ (by decide)

theorem notify_st_twin_removed :
    notify_handler sample_rt twin_world st_twin IN_DELETE (some "app.policy")
      = some st_twin_removed :=
  some_getD _ _ (by decide)

theorem notify_st_failed :
    notify_handler sample_rt sample_world st_loaded IN_MODIFY (some "bad.policy")
      = some st_failed :=
  some_getD _ _ (by decide)

theorem reachable_scan_st_twin : ReachableScan sample_rt st_twin :=
  ReachableScan.notify _ _ _ _ _ (reachable_scan_of_reachable reachable_st_loaded)
    notify_st_twin

theorem reachable_scan_st_bound : ReachableScan sample_rt st_bound :=
  reachable_scan_of_reachable reachable_st_bound

theorem reachable_scan_st_twin_removed : ReachableScan sample_rt st_twin_removed :=
  ReachableScan.notify _ _ _ _ _ reachable_scan_st_twin notify_st_twin_removed

theorem reachable_scan_st_failed : ReachableScan sample_rt st_failed :=
  ReachableScan.notify _ _ _ _ _ (reachable_scan_of_reachable reachable_st_loaded)
    notify_st_failed

/-- The groups the loop of load_file built: pairwise distinct fresh
addresses, no session bound yet, and the identities of the accepted
sections. -/
theorem built_groups (rt : Runtime) (kf : GKeyFile) (names : List String) (st : State) :
    (load_groups rt kf names st { groups := [] } 0).2.2.groups.Nodup ∧
    bound_of (load_groups rt kf names st { groups := [] } 0).2.1
      (load_groups rt kf names st { groups := [] } 0).2.2.groups = [] ∧
    (∀ k, k ∈ ids_of (load_groups rt kf names st { groups := [] } 0).2.1
        (load_groups rt kf names st { groups := [] } 0).2.2.groups
      ↔ some k ∈ (accepted rt kf names).map (section_id kf)) ∧
    (∀ a, a ∈ (load_groups rt kf names st { groups := [] } 0).2.2.groups
      ↔ st.heap_top ≤ a ∧ a < st.heap_top + (accepted rt kf names).length) := by
  obtain ⟨i1, _, _, i4, _, _, _, _, _⟩ := load_groups_spec rt kf names st { groups := [] } 0
  simp only [List.append_nil] at i1
  rw [i1]
  have hmem : ∀ a, a ∈ (List.range' st.heap_top (accepted rt kf names).length).reverse
      ↔ st.heap_top ≤ a ∧ a < st.heap_top + (accepted rt kf names).length := by
    intro a; rw [List.mem_reverse, List.mem_range'_1]
  have hgrp : ∀ a, a ∈ (List.range' st.heap_top (accepted rt kf names).length).reverse →
      ∃ n, (accepted rt kf names).get? (a - st.heap_top) = some n ∧
        (load_groups rt kf names st { groups := [] } 0).2.1.groups a
          = some (load_policy rt kf n zero_group).2 := by
    intro a ha
    obtain ⟨h1, h2⟩ := (hmem a).mp ha
    have hlt : a - st.heap_top < (accepted rt kf names).length := by omega
    refine ⟨(accepted rt kf names).get ⟨a - st.heap_top, hlt⟩, List.get?_eq_get hlt, ?_⟩
    have := i4 (a - st.heap_top) _ (List.get?_eq_get hlt)
    rw [← this]; congr 1; omega
  refine ⟨List.nodup_reverse.mpr (List.nodup_range' _ _), ?_, ?_, hmem⟩
  · unfold bound_of
    rw [List.flatMap_eq_nil_iff]
    intro a ha
    obtain ⟨n, _, hg⟩ := hgrp a ha
    rw [hg]
    simp only
    rw [load_policy_sessions]; rfl
  · intro k
    unfold ids_of
    rw [List.mem_filterMap, List.mem_map]
    constructor
    · rintro ⟨a, ha, hb⟩
      obtain ⟨n, hn, hg⟩ := hgrp a ha
      rw [hg] at hb
      simp only [Option.some_bind] at hb
      rw [load_policy_selinux] at hb
      exact ⟨n, List.get?_mem hn, hb⟩
    · rintro ⟨n, hn, hb⟩
      obtain ⟨i, hi⟩ := List.mem_iff_get?.mp hn
      have hlt : i < (accepted rt kf names).length := by
        obtain ⟨hlt, _⟩ := List.get?_eq_some.mp hi
        exact hlt
      refine ⟨st.heap_top + i, (hmem _).mpr ⟨by omega, by omega⟩, ?_⟩
      rw [i4 i n hi]
      simp only [Option.some_bind]
      rw [load_policy_selinux]; exact hb

/-- The index, read as a map to configs, after a successful load_file, in
terms of the state before. -/
theorem index_config_after_load (rt : Runtime) (w : World) (st : State)
    (kf : GKeyFile)
    (hok : ¬ (load_file_body rt w st kf { groups := [] }).1 < 0)
    (hidx : ∀ k g, st.selinux_hash k = some g → g < st.heap_top) (k : String) :
    index_config (load_file_body rt w st kf { groups := [] }).2.1 k
      = match last_index (kf.group_names.map (section_id kf)) (some k) with
        | some i => (kf.group_names.get? i).map
            (fun n => (load_policy rt kf n zero_group).2.config)
        | none => index_config st k := by
  obtain ⟨hl, hacc⟩ := load_file_groups_ok rt w st kf { groups := [] } hok
  obtain ⟨_, _, i3, i4, _, _, i7, _, _⟩ :=
    load_groups_spec rt kf kf.group_names st { groups := [] } 0
  rw [hl]
  rw [hacc] at i4 i7
  unfold index_config
  rw [i7 k]
  cases hli : last_index (kf.group_names.map (section_id kf)) (some k) with
  | some i =>
    simp only [Option.some_bind]
    obtain ⟨a1, _⟩ := last_index_some _ _ i hli
    rw [get?_map_eq] at a1
    cases hn : kf.group_names.get? i with
    | none => rw [hn] at a1; simp at a1
    | some n => rw [i4 i n hn]; rfl
  | none =>
    simp only
    cases hs : st.selinux_hash k with
    | none => rfl
    | some g =>
      simp only [Option.some_bind]
      rw [i3 g (hidx k g hs)]

theorem heap_index_lt {st : State} {pending : List Nat} (h : HeapInv st pending)
    (k : String) (g : Nat) (hs : st.selinux_hash k = some g) : g < st.heap_top := by
  by_contra hn
  obtain ⟨gr, hg, _⟩ := h.idx k g hs
  rw [h.grp_fresh g (by omega)] at hg
  exact absurd hg (by simp)

theorem index_config_recheck_sessions {w : World} {st : State} (h : Inv st) (k : String) :
    index_config (recheck_sessions w st) k = index_config st k := by
  obtain ⟨r1, _, _, _, _, _, r7, _⟩ :=
    recheck_loop_spec w st.session_hash h.1 (table_values_nodup h.2)
  unfold index_config recheck_sessions
  rw [r1]
  cases hs : st.selinux_hash k with
  | none => rfl
  | some g =>
    obtain ⟨gr, hg, _⟩ := h.1.idx k g hs
    obtain ⟨gr2, hg2, hc, _⟩ := r7 g gr hg
    simp only [Option.some_bind]
    rw [hg2, hg]
    simp [hc]

theorem file_hash_replace_absent (rt : Runtime) (w : World) (st : State) (f : String)
    (file : policy_file) (hf : st.file_hash f = none) :
    file_hash_replace rt w st f file
      = { st with file_hash := Function.update st.file_hash f (some file) } := by
  unfold file_hash_replace
  rw [file_hash_remove_absent rt w st f hf]

/-- The index after the groups a successful load_file built have been cleaned
up again, on the identities the file does not define: it is the index before
the load.  The state t is the state after the load up to a later recheck. -/
theorem index_config_cleanup_built (rt : Runtime) (w : World) (st t : State)
    (kf : GKeyFile) (hh : HeapInv st [])
    (hok : ¬ (load_file_body rt w st kf { groups := [] }).1 < 0)
    (hsel : t.selinux_hash = (load_file_body rt w st kf { groups := [] }).2.1.selinux_hash)
    (hgrp : ∀ a gr, (load_file_body rt w st kf { groups := [] }).2.1.groups a = some gr →
      ∃ gr2, t.groups a = some gr2 ∧ gr2.config = gr.config ∧ gr2.selinux = gr.selinux)
    (k : String) (hli : last_index (kf.group_names.map (section_id kf)) (some k) = none) :
    index_config (cleanup_file rt w t (load_file_body rt w st kf { groups := [] }).2.2) k
      = index_config st k := by
  have hpend := (@heap_load_file_body rt w st [] kf hh).2 hok
  obtain ⟨hl, hacc⟩ := load_file_groups_ok rt w st kf { groups := [] } hok
  rw [hl] at hsel hgrp hpend ⊢
  obtain ⟨_, _, i3, _, _, _, i7, _, _⟩ :=
    load_groups_spec rt kf kf.group_names st { groups := [] } 0
  obtain ⟨b1, _, b3, b4⟩ := built_groups rt kf kf.group_names st
  rw [hacc] at b3 b4 i7
  obtain ⟨_, _, c3, c4, _, _, _⟩ := cleanup_loop_frame rt w
    (load_groups rt kf kf.group_names st { groups := [] } 0).2.2.groups t b1
  have hnot : some k ∉ kf.group_names.map (section_id kf) := (last_index_none_iff _ _).mp hli
  have hids : k ∉ ids_of t (load_groups rt kf kf.group_names st { groups := [] } 0).2.2.groups := by
    intro hm
    unfold ids_of at hm
    rw [List.mem_filterMap] at hm
    obtain ⟨g, hg, hb⟩ := hm
    obtain ⟨gr, hgr⟩ := hpend.pend_live g (by simpa using hg)
    obtain ⟨gr2, hg2, _, hs2⟩ := hgrp g gr hgr
    rw [hg2] at hb
    simp only [Option.some_bind] at hb
    rw [hs2] at hb
    exact hnot ((b3 k).mp (mem_ids_of _ _ g gr k hg hgr hb))
  unfold index_config cleanup_file
  rw [c3 k, if_neg hids, hsel, i7 k, hli]
  simp only
  cases hs : st.selinux_hash k with
  | none => rfl
  | some g =>
    have hlt := heap_index_lt hh k g hs
    obtain ⟨gr, hg, _⟩ := hh.idx k g hs
    have hg1 := i3 g hlt
    rw [hg] at hg1
    obtain ⟨gr2, hg2, hc, _⟩ := hgrp g gr hg1
    have hng : g ∉ (load_groups rt kf kf.group_names st { groups := [] } 0).2.2.groups := by
      intro hm
      have := ((b4 g).mp hm).1
      omega
    simp only [Option.some_bind]
    rw [c4 g, if_neg hng, hg2, hg]
    simp [hc]

/-- The round trip on the C functions, for any state t that agrees with the
state after the first load on the index and on the configs and identities
of the groups. -/
theorem index_config_round_trip (rt : Runtime) (w : World) (st t : State)
    (kf : GKeyFile) (hh : HeapInv st [])
    (hok : ¬ (load_file_body rt w st kf { groups := [] }).1 < 0)
    (hsel : t.selinux_hash = (load_file_body rt w st kf { groups := [] }).2.1.selinux_hash)
    (hgrp : ∀ a gr, (load_file_body rt w st kf { groups := [] }).2.1.groups a = some gr →
      ∃ gr2, t.groups a = some gr2 ∧ gr2.config = gr.config ∧ gr2.selinux = gr.selinux)
    (ht : HeapInv (cleanup_file rt w t (load_file_body rt w st kf { groups := [] }).2.2) [])
    (k : String) :
    index_config (load_file_body rt w
        (cleanup_file rt w t (load_file_body rt w st kf { groups := [] }).2.2) kf
        { groups := [] }).2.1 k
      = index_config (load_file_body rt w st kf { groups := [] }).2.1 k := by
  have hok2 : ¬ (load_file_body rt w
      (cleanup_file rt w t (load_file_body rt w st kf { groups := [] }).2.2) kf
      { groups := [] }).1 < 0 := by
    rw [load_file_fails_iff rt w _ kf _]
    rw [load_file_fails_iff rt w _ kf _] at hok
    exact hok
  rw [index_config_after_load rt w _ kf hok2 (heap_index_lt ht),
    index_config_after_load rt w st kf hok (heap_index_lt hh)]
  cases hli : last_index (kf.group_names.map (section_id kf)) (some k) with
  | some i => rfl
  | none =>
    simp only
    exact index_config_cleanup_built rt w st t kf hh hok hsel hgrp k hli

theorem load_file_parses (rt : Runtime) (w : World) (st : State) (kf : GKeyFile)
    (hparse : ∀ n, n ∈ kf.group_names → ¬ (load_policy rt kf n zero_group).1 < 0) :
    ¬ (load_file_body rt w st kf { groups := [] }).1 < 0 := by
  rw [load_file_fails_iff rt w st kf _]
  rintro ⟨n, hn, hbad⟩
  exact hparse n hn hbad

/-- A successful reload event in closed form, with the index it leaves. -/
theorem notify_handler_reload_index (rt : Runtime) (w : World) (st : State) (mask : Nat)
    (f : String) (kf : GKeyFile) (hinv : Inv st) (hf : st.file_hash f = none)
    (hk : w.load_from_file f = Except.ok kf)
    (hparse : ∀ n, n ∈ kf.group_names → ¬ (load_policy rt kf n zero_group).1 < 0)
    (hc : mask &&& IN_CREATE = 0) (hv : is_filename_valid (some f) = true)
    (hd : mask &&& (IN_DELETE ||| IN_MOVED_FROM) = 0)
    (hm : mask &&& (IN_MOVED_TO ||| IN_MODIFY) ≠ 0) :
    ∃ e, notify_handler rt w st mask (some f) = some e ∧
      (∀ k, index_config e k
        = index_config (load_file_body rt w st kf { groups := [] }).2.1 k) ∧
      e.selinux_hash = (load_file_body rt w st kf { groups := [] }).2.1.selinux_hash ∧
      e.file_hash f = some (load_file_body rt w st kf { groups := [] }).2.2 ∧
      (∀ a gr, (load_file_body rt w st kf { groups := [] }).2.1.groups a = some gr →
        ∃ gr2, e.groups a = some gr2 ∧
          gr2.config = gr.config ∧ gr2.selinux = gr.selinux) := by
  have hok := load_file_parses rt w st kf hparse
  have hA := (inv_load_and_register_body hinv f kf).2 hok
  have hfl : (load_file_body rt w st kf { groups := [] }).2.1.file_hash f = none := by
    rw [load_file_body_file_hash]; exact hf
  rw [notify_handler_reload_ok rt w st mask f kf hc hv hd hm hk,
    file_hash_remove_absent rt w st f hf, if_neg hok]
  obtain ⟨r1, _, r3, _, _, _, r7, _⟩ :=
    recheck_loop_spec w _ hA.1 (table_values_nodup hA.2)
  rw [file_hash_replace_absent rt w _ f _ hfl] at hA r1 r3 r7 ⊢
  refine ⟨_, rfl, fun k => ?_, ?_, ?_, ?_⟩
  · rw [index_config_recheck_sessions hA k]; rfl
  · exact r1
  · unfold recheck_sessions
    rw [r3]
    simp
  · intro a gr hg
    obtain ⟨gr2, h2, h3, h4, _⟩ := r7 a gr hg
    exact ⟨gr2, h2, h3, h4⟩

theorem notify_handler_round_trip (rt : Runtime) (w : World) (st : State) (f : String)
    (kf : GKeyFile) (hinv : Inv st) (hk : w.load_from_file f = Except.ok kf)
    (hparse : ∀ n, n ∈ kf.group_names → ¬ (load_policy rt kf n zero_group).1 < 0)
    (hv : is_filename_valid (some f) = true)
    (m1 m2 m3 : Nat)
    (hc1 : m1 &&& IN_CREATE = 0) (hd1 : m1 &&& (IN_DELETE ||| IN_MOVED_FROM) = 0)
    (hm1 : m1 &&& (IN_MOVED_TO ||| IN_MODIFY) ≠ 0)
    (hc2 : m2 &&& IN_CREATE = 0) (hd2 : m2 &&& (IN_DELETE ||| IN_MOVED_FROM) ≠ 0)
    (hc3 : m3 &&& IN_CREATE = 0) (hd3 : m3 &&& (IN_DELETE ||| IN_MOVED_FROM) = 0)
    (hm3 : m3 &&& (IN_MOVED_TO ||| IN_MODIFY) ≠ 0) :
    ∃ e1 e2 e3, notify_handler rt w st m1 (some f) = some e1 ∧
      notify_handler rt w e1 m2 (some f) = some e2 ∧
      notify_handler rt w e2 m3 (some f) = some e3 ∧
      ∀ k, index_config e3 k = index_config e1 k := by
  -- the first event removes the file before it loads it
  have hs0 : Inv (file_hash_remove rt w st f) := inv_file_hash_remove hinv f
  have hf0 : (file_hash_remove rt w st f).file_hash f = none := by
    rw [file_hash_remove_at]; simp
  have e1 : notify_handler rt w st m1 (some f)
      = notify_handler rt w (file_hash_remove rt w st f) m1 (some f) := by
    rw [notify_handler_reload rt w st m1 f hc1 hv hd1 hm1,
      notify_handler_reload rt w (file_hash_remove rt w st f) m1 f hc1 hv hd1 hm1,
      file_hash_remove_absent rt w (file_hash_remove rt w st f) f hf0]
  rw [e1]
  generalize file_hash_remove rt w st f = s0 at hs0 hf0
  have hok := load_file_parses rt w s0 kf hparse
  obtain ⟨x1, hx1, a1, a2, a3, a4⟩ :=
    notify_handler_reload_index rt w s0 m1 f kf hs0 hf0 hk hparse hc1 hv hd1 hm1
  have hE1 : Inv x1 := inv_notify_handler hs0 m1 (some f) hx1
  have hE2 : Inv (file_hash_remove rt w x1 f) := inv_file_hash_remove hE1 f
  have e2 : file_hash_remove rt w x1 f
      = cleanup_file rt w
          { x1 with file_hash := Function.update x1.file_hash f none }
          (load_file_body rt w s0 kf { groups := [] }).2.2 := by
    rw [file_hash_remove_present rt w _ f _ a3]
    rfl
  have hf2 : (file_hash_remove rt w x1 f).file_hash f = none := by
    rw [file_hash_remove_at]; simp
  obtain ⟨x3, hx3, b1, _, _, _⟩ :=
    notify_handler_reload_index rt w _ m3 f kf hE2 hf2 hk hparse hc3 hv hd3 hm3
  refine ⟨x1, file_hash_remove rt w x1 f, x3, hx1,
    notify_handler_remove rt w x1 m2 f hc2 hv hd2, hx3, fun k => ?_⟩
  rw [b1 k, a1 k]
  rw [e2] at hE2 ⊢
  exact index_config_round_trip rt w s0
    { x1 with file_hash := Function.update x1.file_hash f none }
    kf hs0.1 hok a2 a4 hE2.1 k

/-! ## Claims -/

/-! ### C1 -/

/-- C1: in every state reachable from the empty tables by watch events,
completions of session creations and session destructions, every binding
(s, p) recorded in session_hash is a live policy_config, and for every group
address g: its bound_group is g if and only if g is a live group whose
sessions list contains p; when it is bound to g, p occurs exactly once in
that list and g belongs to a file of the file table.  Conversely every
member of a live group's sessions list is a binding of session_hash. -/
theorem cross_references_matched (rt : Runtime) (st : State) (h : Reachable rt st) :
    (∀ s p, (s, p) ∈ st.session_hash →
      ∃ pc, st.policies p = some pc ∧
        ∀ g, (pc.group = some g ↔ ∃ gr, st.groups g = some gr ∧ p ∈ gr.sessions) ∧
          (pc.group = some g →
            ∃ gr, st.groups g = some gr ∧ gr.sessions.count p = 1 ∧
              ∃ f pf, st.file_hash f = some pf ∧ g ∈ pf.groups)) ∧
    (∀ g gr p, st.groups g = some gr → p ∈ gr.sessions →
      ∃ s, (s, p) ∈ st.session_hash) := by
  obtain ⟨hh, ht⟩ := reachable_inv h
  constructor
  · intro s p hm
    obtain ⟨pc, hp, _⟩ := ht.tab_live s p hm
    refine ⟨pc, hp, fun g => ⟨⟨?_, ?_⟩, ?_⟩⟩
    · intro hb
      obtain ⟨gr, hg, hin, _⟩ := hh.bound_in p pc g hp hb
      exact ⟨gr, hg, hin⟩
    · rintro ⟨gr, hg, hin⟩
      obtain ⟨pc2, hp2, hb2⟩ := hh.in_bound g gr p hg hin
      rw [hp] at hp2; injection hp2 with hp2; subst hp2
      exact hb2
    · intro hb
      obtain ⟨gr, hg, hin, _⟩ := hh.bound_in p pc g hp hb
      refine ⟨gr, hg, List.count_eq_one_of_mem (hh.sess_nodup g gr hg) hin, ?_⟩
      rcases hh.owned g gr hg with hp2 | hp2
      · exact absurd hp2 (List.not_mem_nil _)
      · exact hp2
  · intro g gr p hg hin
    obtain ⟨pc, hp, _⟩ := hh.in_bound g gr p hg hin
    exact ⟨pc.session, ht.live_tab p pc hp⟩

theorem cross_references_matched_witness :
    Reachable sample_rt st_bound ∧
    ∃ pc, st_bound.policies 2 = some pc ∧ pc.group = some 1 ∧
      ∃ gr, st_bound.groups 1 = some gr ∧ gr.sessions.count 2 = 1 ∧
        ∃ f pf, st_bound.file_hash f = some pf ∧ 1 ∈ pf.groups := by
  obtain ⟨pc, hp, hg⟩ :=
    (cross_references_matched sample_rt st_bound reachable_st_bound).1 7 2 (by decide)
  have hb : pc.group = some 1 := by
    have h2 : st_bound.policies 2 = some
        { selinux := some "app_t"
          config := { priority := false, roaming_policy := 0, type := 0, ecall := false,
                      allowed_bearers := [3, 2] }
          session := 7, group := some 1 } := by decide
    rw [h2] at hp; injection hp with hp; rw [← hp]
  exact ⟨reachable_st_bound, pc, hp, hb, (hg 1).2 hb⟩

/-! ### C2 -/

/-- C2 (as stated, refuted): app.policy defines app_t, so app_t is indexed;
loading bad.policy, whose first section also defines app_t and whose
second section has no selinux key, fails, and afterwards app_t is no longer
in the index although app.policy is still loaded. -/
theorem failed_load_counterexample :
    ∃ r, load_file sample_rt sample_world st_loaded "bad.policy" { groups := [] } = some r ∧
      r.1 < 0 ∧
      st_loaded.selinux_hash "app_t" = some 1 ∧
      st_loaded.file_hash "app.policy" = some { groups := [1] } ∧
      r.2.1.selinux_hash "app_t" = none ∧
      r.2.1.file_hash "app.policy" = some { groups := [1] } :=
  ⟨load_file_body sample_rt sample_world st_loaded broken_keyfile { groups := [] },
    load_file_ok sample_rt sample_world st_loaded "bad.policy" { groups := [] }
      broken_keyfile rfl,
    by decide, by decide, by decide, by decide, by decide⟩

/-- C2 (amended): when load_file returns a negative value it keeps no group
built from the failing file: every address it allocated is free again, the
groups allocated before, the file table, the bindings and the log are
unchanged, no index entry is added or redirected, and the index is the one
before the call with the identities of the sections accepted before the
failing one erased.  When the key-file itself could not be read, the value
returned is minus the GError code, that code is positive and nothing at all
changes.  A GError code that is not positive is not such a failure:
load_keyfile then returns a non-negative value without a key-file and
load_file has no result. -/
theorem failed_load_leaves_no_group (rt : Runtime) (w : World) (st : State) (f : String) :
    (∀ r, load_file rt w st f { groups := [] } = some r → r.1 < 0 →
      (∀ k g, r.2.1.selinux_hash k = some g → st.selinux_hash k = some g) ∧
      (∀ kf, w.load_from_file f = Except.ok kf →
        ∀ k, r.2.1.selinux_hash k
          = if some k ∈ (accepted rt kf kf.group_names).map (section_id kf) then none
            else st.selinux_hash k) ∧
      (∀ code, w.load_from_file f = Except.error code →
        0 < code ∧ r.1 = -code ∧ r.2.1 = st) ∧
      (∀ a, a < st.heap_top → r.2.1.groups a = st.groups a) ∧
      (∀ a, st.heap_top ≤ a → a < r.2.1.heap_top → r.2.1.groups a = none) ∧
      r.2.1.policies = st.policies ∧
      r.2.1.file_hash = st.file_hash ∧
      r.2.1.session_hash = st.session_hash ∧
      r.2.1.log = st.log) ∧
    (∀ code, w.load_from_file f = Except.error code → code ≤ 0 →
      (load_keyfile w f).1 = -code ∧ ¬ (load_keyfile w f).1 < 0 ∧
      (load_keyfile w f).2 = none ∧
      load_file rt w st f { groups := [] } = none) := by
  constructor
  · intro r hl hfail
    rcases load_file_some hl with ⟨code, hk, hpos, e⟩ | ⟨kf, hk, e⟩
    · subst e
      refine ⟨fun k g h => h, ?_, ?_, fun a _ => rfl, ?_, rfl, rfl, rfl, rfl⟩
      · intro kf h2; rw [hk] at h2; injection h2
      · intro c2 h2
        rw [hk] at h2; injection h2 with h2; subst h2
        exact ⟨hpos, rfl, rfl⟩
      · intro a h1 h2; simp only at h2; omega
    · subst e
      obtain ⟨a1, a2, a3, _, a5, a6, a7, a8⟩ := load_file_failure rt w st kf hfail
      refine ⟨?_, ?_, ?_, a2, a3, a5, a6, a7, a8⟩
      · intro k g h
        rw [a1 k] at h
        by_cases hin : some k ∈ (accepted rt kf kf.group_names).map (section_id kf)
        · rw [if_pos hin] at h; exact absurd h (by simp)
        · rw [if_neg hin] at h; exact h
      · intro kf2 h2
        rw [hk] at h2
        injection h2 with h2; subst h2
        exact a1
      · intro c2 h2; rw [hk] at h2; injection h2
  · intro code hk hle
    refine ⟨?_, ?_, ?_, load_file_killed rt w st f _ code hk hle⟩
    · unfold load_keyfile; rw [hk]
    · unfold load_keyfile; rw [hk]; simp only; omega
    · unfold load_keyfile; rw [hk]

theorem failed_load_leaves_no_group_witness :
    (load_file_body sample_rt sample_world st_loaded broken_keyfile
      { groups := [] }).2.1.groups 2 = none ∧
    load_file sample_rt sample_world st_loaded "enc.policy" { groups := [] } = none :=
  ⟨((failed_load_leaves_no_group sample_rt sample_world st_loaded "bad.policy").1
      (load_file_body sample_rt sample_world st_loaded broken_keyfile { groups := [] })
      (load_file_ok sample_rt sample_world st_loaded "bad.policy" { groups := [] }
        broken_keyfile rfl)
      (by decide)).2.2.2.2.1 2 (by decide) (by decide),
   ((failed_load_leaves_no_group sample_rt sample_world st_loaded "enc.policy").2
      0 rfl (by decide)).2.2.2⟩

/-! ### C3 -/

/-- C3 (amended): when the identity resolution reports an error (err < 0),
selinux_context_reply delivers a null config together with the reported
error and records nothing: the state is the old state plus that callback, so
the session table, the heap and the index are unchanged and recheck_sessions
finds no binding of that completion to rebind. -/
theorem selinux_context_reply_error (rt : Runtime) (st : State) (context : String)
    (session : Nat) (err : Int) (herr : err < 0) :
    selinux_context_reply rt st context session err
      = emit st (Effect.callback session none err) ∧
    (selinux_context_reply rt st context session err).session_hash = st.session_hash ∧
    (selinux_context_reply rt st context session err).policies = st.policies ∧
    (selinux_context_reply rt st context session err).log
      = st.log ++ [Effect.callback session none err] := by
  unfold selinux_context_reply
  rw [if_pos herr]
  exact ⟨rfl, rfl, rfl, rfl⟩

theorem selinux_context_reply_error_witness :
    (selinux_context_reply sample_rt st_loaded "" 7 (-5)).log
      = st_loaded.log ++ [Effect.callback 7 none (-5)] :=
  (selinux_context_reply_error sample_rt st_loaded "" 7 (-5) (by decide)).2.2.2

/-- C3 (as stated, refuted): for session 7 and the error -5 on the empty
tables, no callback carrying a config is delivered, and session 7 is not
recorded in the session table. -/
theorem selinux_context_reply_error_counterexample :
    ¬ (∃ cfg, Effect.callback 7 (some cfg) (-5)
        ∈ (selinux_context_reply sample_rt init "" 7 (-5)).log) ∧
    (selinux_context_reply sample_rt init "" 7 (-5)).session_hash.lookup 7 = none := by
  constructor
  · rintro ⟨cfg, hm⟩
    have hl : (selinux_context_reply sample_rt init "" 7 (-5)).log
        = [Effect.callback 7 none (-5)] := by decide
    rw [hl] at hm
    simp at hm
  · decide

/-! ### C4 -/

/-- C4: for a modify or moved-to event (an event of one kind: its mask has
the modify or the moved-to bit and none of the create, delete and moved-from
bits) on a valid file name, notify_handler is the removal of the file
(file_hash_remove), then load_file on the state the removal left, then, when
the load succeeded, the registration of the file and recheck_sessions; when
it failed, the state load_file left; it returns exactly when load_file
does.  In a reachable state, in the intermediate state after the removal,
every binding that was bound to a group of the old file is unbound with the
default configuration, no index entry points to a group of the old file,
those groups are freed and the name is out of the file table. -/
theorem notify_handler_reload_order (rt : Runtime) (w : World) (st : State) (mask : Nat)
    (f : String) (hc : mask &&& IN_CREATE = 0) (hv : is_filename_valid (some f) = true)
    (hd : mask &&& (IN_DELETE ||| IN_MOVED_FROM) = 0)
    (hm : mask &&& (IN_MOVED_TO ||| IN_MODIFY) ≠ 0) :
    notify_handler rt w st mask (some f)
      = (load_file rt w (file_hash_remove rt w st f) f { groups := [] }).map
          (fun r => if r.1 < 0 then r.2.1
            else recheck_sessions w (file_hash_replace rt w r.2.1 f r.2.2)) ∧
    (Reachable rt st → ∀ pf, st.file_hash f = some pf →
      (∀ p pc g, st.policies p = some pc → pc.group = some g → g ∈ pf.groups →
        (file_hash_remove rt w st f).policies p
          = some { pc with config := rt.default_config, group := none }) ∧
      (∀ k g, (file_hash_remove rt w st f).selinux_hash k = some g → g ∉ pf.groups) ∧
      (∀ g, g ∈ pf.groups → (file_hash_remove rt w st f).groups g = none) ∧
      (file_hash_remove rt w st f).file_hash f = none) := by
  refine ⟨notify_handler_reload rt w st mask f hc hv hd hm, ?_⟩
  intro hr pf hf
  have hinv := reachable_inv hr
  have hh := hinv.1
  have hmid : Inv (file_hash_remove rt w st f) := inv_file_hash_remove hinv f
  have hnd := hh.file_nodup f pf hf
  obtain ⟨_, _, _, c4, c5, _, _⟩ := cleanup_loop_frame rt w pf.groups
    { st with file_hash := Function.update st.file_hash f none } hnd
  rw [← file_hash_remove_present rt w st f pf hf] at c4 c5
  have hfree : ∀ g, g ∈ pf.groups → (file_hash_remove rt w st f).groups g = none := by
    intro g hg; rw [c4 g, if_pos hg]
  refine ⟨?_, ?_, hfree, ?_⟩
  · intro p pc g hp hb hg
    have hin : p ∈ bound_of st pf.groups :=
      (mem_bound_of_iff hh pf.groups p).mpr ⟨pc, g, hp, hb, hg⟩
    rw [c5 p]
    have hin2 : p ∈ bound_of { st with file_hash := Function.update st.file_hash f none }
        pf.groups := hin
    rw [if_pos hin2]
    show (st.policies p).map (detach rt) = _
    rw [hp]; rfl
  · intro k g hk hg
    obtain ⟨gr, hl, _⟩ := hmid.1.idx k g hk
    rw [hfree g hg] at hl
    exact absurd hl (by simp)
  · rw [file_hash_remove_at]; simp

theorem notify_handler_reload_order_witness :
    (file_hash_remove sample_rt sample_world st_bound "app.policy").policies 2
      = some { selinux := some "app_t", config := sample_rt.default_config,
               session := 7, group := none } :=
  ((notify_handler_reload_order sample_rt sample_world st_bound IN_MODIFY "app.policy"
    (by decide) (by decide) (by decide) (by decide)).2 reachable_st_bound
    { groups := [1] } (by decide)).1 2
      { selinux := some "app_t"
        config := { priority := false, roaming_policy := 0, type := 0, ecall := false,
                    allowed_bearers := [3, 2] }
        session := 7, group := some 1 }
      1 (by decide) rfl (by decide)

/-! ### C5 -/

/-- C5: in a reachable state where the file table holds a file, whose K
bound bindings are the members of the sessions lists of its groups (a list
without repetition, holding exactly the bindings whose bound_group is a
group of the file), cleanup_file with every push accepted detaches exactly
those: each ends with bound_group absent and the default configuration,
every other binding is unchanged, the log grows by exactly one
config-update push per bound binding, for that binding's session, the
groups of the file are freed, every other group is unchanged, and no
surviving group's sessions list mentions one of the K bindings. -/
theorem cleanup_file_detaches_bound (rt : Runtime) (w : World) (st : State) (f : String)
    (pf : policy_file) (hr : Reachable rt st) (hf : st.file_hash f = some pf)
    (hacc : ∀ s, ¬ w.config_update s < 0) :
    (bound_of st pf.groups).Nodup ∧
    (∀ p, p ∈ bound_of st pf.groups ↔
      ∃ pc g, st.policies p = some pc ∧ pc.group = some g ∧ g ∈ pf.groups) ∧
    (∀ p pc, p ∈ bound_of st pf.groups → st.policies p = some pc →
      (cleanup_file rt w st pf).policies p
        = some { pc with config := rt.default_config, group := none }) ∧
    (∀ p, p ∉ bound_of st pf.groups →
      (cleanup_file rt w st pf).policies p = st.policies p) ∧
    (∃ pushes, (cleanup_file rt w st pf).log = st.log ++ pushes ∧
      pushes.length = (bound_of st pf.groups).length ∧
      pushes = (bound_of st pf.groups).map (fun p =>
        Effect.config_update (match st.policies p with
          | some pc => pc.session
          | none => 0))) ∧
    (∀ g, g ∈ pf.groups → (cleanup_file rt w st pf).groups g = none) ∧
    (∀ g, g ∉ pf.groups → (cleanup_file rt w st pf).groups g = st.groups g) ∧
    (∀ g gr p, (cleanup_file rt w st pf).groups g = some gr → p ∈ gr.sessions →
      p ∉ bound_of st pf.groups) ∧
    (cleanup_file rt w st pf).session_hash = st.session_hash := by
  obtain ⟨hh, ht⟩ := reachable_inv hr
  have hnd := hh.file_nodup f pf hf
  obtain ⟨c1, c2, c3, c4, c5, c6, c7⟩ := cleanup_loop_frame rt w pf.groups st hnd
  have hmem := mem_bound_of_iff hh pf.groups
  unfold cleanup_file
  refine ⟨bound_of_nodup hh pf.groups hnd, hmem, ?_, ?_, ?_, ?_, ?_, ?_, c2⟩
  · intro p pc hp hpc
    rw [c5 p, if_pos hp, hpc]; rfl
  · intro p hp
    rw [c5 p, if_neg hp]
  · have hpush : ((bound_of st pf.groups).flatMap fun p => push_effects w (st.policies p))
        = (bound_of st pf.groups).map (fun p =>
            Effect.config_update (match st.policies p with
              | some pc => pc.session
              | none => 0)) := by
      have : ∀ p, p ∈ bound_of st pf.groups →
          push_effects w (st.policies p) = [Effect.config_update (match st.policies p with
            | some pc => pc.session
            | none => 0)] := by
        intro p hp
        obtain ⟨pc, g, h1, _, _⟩ := (hmem p).mp hp
        rw [h1, push_effects_accepted w pc (ht.has_id p pc h1).2 hacc]
      rw [List.flatMap_congr this, flatMap_singleton_map]
    refine ⟨_, c7, ?_, hpush⟩
    rw [hpush, List.length_map]
  · intro g hg
    rw [c4 g, if_pos hg]
  · intro g hg
    rw [c4 g, if_neg hg]
  · intro g gr p hl hp hb
    rw [c4 g] at hl
    by_cases hg : g ∈ pf.groups
    · rw [if_pos hg] at hl; exact absurd hl (by simp)
    · rw [if_neg hg] at hl
      obtain ⟨pc, g2, h1, h2, h3⟩ := (hmem p).mp hb
      obtain ⟨pc2, b1, b2⟩ := hh.in_bound g gr p hl hp
      rw [h1] at b1; injection b1 with b1; subst b1
      rw [h2] at b2; injection b2 with b2; subst b2
      exact hg h3

theorem cleanup_file_detaches_bound_witness :
    (cleanup_file sample_rt sample_world st_two { groups := [1] }).policies 2
      = some { selinux := some "app_t", config := sample_rt.default_config,
               session := 7, group := none } :=
  (cleanup_file_detaches_bound sample_rt sample_world st_two "app.policy" { groups := [1] }
    reachable_st_two (by decide) (fun s => by show ¬ ((0 : Int) < 0); decide)).2.2.1 2
      { selinux := some "app_t"
        config := { priority := false, roaming_policy := 0, type := 0, ecall := false,
                    allowed_bearers := [3, 2] }
        session := 7, group := some 1 }
      (by decide) (by decide)

/-! ### C6 -/

/-- C6: in a reachable state, when the identity resolution succeeds (err is
not negative) and the context parses to an identity, selinux_context_reply
records for the session a new binding holding that identity and delivers
its config with the unchanged, non-negative err.  If the index has a group
for the identity, the binding's bound_group is that group, the binding is
in the group's sessions list, the delivered config equals the group's config
(all five fields, the bearers in order) and the group's config is unchanged;
otherwise bound_group is absent and the delivered config is the default.
With the group app_t of app.policy (AllowedBearers wifi ethernet) and the
context unconfined_u:object_r:app_t:s0 the delivered bearers are wifi,
ethernet (service types 3, 2). -/
theorem selinux_context_reply_binds (rt : Runtime) (st : State) (context : String)
    (session : Nat) (err : Int) (ident : String) (hr : Reachable rt st)
    (herr : ¬ err < 0) (hid : parse_selinux_type context = some ident) :
    (∃ pc, (selinux_context_reply rt st context session err).policies st.heap_top = some pc ∧
      pc.selinux = some ident ∧ pc.session = session ∧
      (selinux_context_reply rt st context session err).session_hash.lookup session
        = some st.heap_top ∧
      (selinux_context_reply rt st context session err).log
        = st.log ++ [Effect.callback session (some pc.config) err] ∧
      (∀ g, st.selinux_hash ident = some g →
        ∃ gr gr2, st.groups g = some gr ∧
          (selinux_context_reply rt st context session err).groups g = some gr2 ∧
          gr2.config = gr.config ∧ st.heap_top ∈ gr2.sessions ∧
          pc.group = some g ∧ pc.config = gr.config) ∧
      (st.selinux_hash ident = none → pc.group = none ∧ pc.config = rt.default_config)) ∧
    (selinux_context_reply sample_rt st_loaded "unconfined_u:object_r:app_t:s0" 7 0).log
      = [Effect.callback 7
          (some { priority := false, roaming_policy := 0, type := 0, ecall := false,
                  allowed_bearers := [3, 2] }) 0] := by
  refine ⟨?_, by decide⟩
  obtain ⟨hh, ht⟩ := reachable_inv hr
  have hfresh := hh.pol_fresh st.heap_top (Nat.le_refl _)
  have hnl := lookup_fresh ht session st.heap_top hfresh
  have h1 := heap_alloc_policy hh
    { create_policy rt with selinux := some ident, session := session } rfl
  unfold selinux_context_reply
  rw [if_neg herr, hid]
  simp only
  cases hl : st.selinux_hash ident with
  | none =>
    simp only
    obtain ⟨_, f2, _, f4, _, f6⟩ := session_hash_replace_frame
      { st with
        policies := Function.update st.policies st.heap_top
          (some { create_policy rt with selinux := some ident, session := session })
        heap_top := st.heap_top + 1 } session st.heap_top
    have hp := f4 st.heap_top
    rw [if_neg hnl] at hp
    simp only [Function.update_same] at hp
    refine ⟨{ create_policy rt with selinux := some ident, session := session },
      hp, rfl, rfl, ?_, ?_, ?_, ?_⟩
    · show List.lookup session (session_hash_replace _ session st.heap_top).session_hash = _
      rw [f2]; simp [List.lookup]
    · show (session_hash_replace _ session st.heap_top).log ++ _ = _
      rw [f6, hp]; rfl
    · intro g hg; exact absurd hg (by simp)
    · intro _; exact ⟨rfl, rfl⟩
  | some g =>
    simp only
    obtain ⟨gr, hg, hsel⟩ := hh.idx ident g hl
    have hfr := set_policy_frame
      { st with
        policies := Function.update st.policies st.heap_top
          (some { create_policy rt with selinux := some ident, session := session })
        heap_top := st.heap_top + 1 } st.heap_top g
      { create_policy rt with selinux := some ident, session := session } gr
      (by simp) hg
    have h2 := heap_set_policy h1 st.heap_top g
      { create_policy rt with selinux := some ident, session := session } gr
      (by simp) rfl hg hsel
    rw [hfr] at h2 ⊢
    obtain ⟨_, f2, _, f4, _, f6⟩ := session_hash_replace_frame
      { st with
        groups := Function.update st.groups g
          (some { gr with sessions := st.heap_top :: gr.sessions })
        policies := Function.update
          (Function.update st.policies st.heap_top
            (some { create_policy rt with selinux := some ident, session := session }))
          st.heap_top
          (some { selinux := some ident
                  config := copy_session_config (create_policy rt).config gr.config
                  session := session, group := some g })
        heap_top := st.heap_top + 1 } session st.heap_top
    have hp := f4 st.heap_top
    rw [if_neg hnl] at hp
    simp only [Function.update_same] at hp
    obtain ⟨gr2, g1, g2, _, g4⟩ := session_hash_replace_groups h2 session st.heap_top g
      { gr with sessions := st.heap_top :: gr.sessions } (by simp)
    refine ⟨{ selinux := some ident
              config := copy_session_config (create_policy rt).config gr.config
              session := session, group := some g },
      hp, rfl, rfl, ?_, ?_, ?_, ?_⟩
    · show List.lookup session (session_hash_replace _ session st.heap_top).session_hash = _
      rw [f2]; simp [List.lookup]
    · show (session_hash_replace _ session st.heap_top).log ++ _ = _
      rw [f6, hp]; rfl
    · intro g0 hg0
      injection hg0 with hg0; subst hg0
      exact ⟨gr, gr2, hg, g1, g2, g4 st.heap_top (List.mem_cons_self _ _) hnl, rfl,
        copy_session_config_eq (create_policy rt).config gr.config⟩
    · intro hno; exact absurd hno (by simp)

theorem selinux_context_reply_binds_witness :
    ∃ pc, st_bound.policies st_loaded.heap_top = some pc ∧
      pc.selinux = some "app_t" ∧ pc.session = 7 ∧ pc.group = some 1 := by
  obtain ⟨pc, h1, h2, h3, _, _, h6, _⟩ :=
    (selinux_context_reply_binds sample_rt st_loaded "unconfined_u:object_r:app_t:s0" 7 0
      "app_t" reachable_st_loaded (by decide) (by decide)).1
  obtain ⟨_, _, _, _, _, _, h7, _⟩ := h6 1 (by decide)
  exact ⟨pc, h1, h2, h3, h7⟩

/-! ### C7 -/

/-- C7: parse_selinux_type returns the third colon-separated field of a
context with at least three fields (a context a:b:c or a:b:c:rest gives c),
an identity whenever there are at least two colons, and no identity for a
context with fewer than three fields, that is with fewer than two colons,
the empty string and the two-field strings included;
selinux_context_reply then reports -EINVAL with a null config and records no
binding: the state is the old state plus the callback.  The context
unconfined_u:object_r:app_t:s0 yields app_t. -/
theorem parse_selinux_type_third_field (context : String) :
    (∀ a b c rest : List Char, ':' ∉ a → ':' ∉ b → ':' ∉ c →
      (rest = [] ∨ rest.head? = some ':') →
      context.data = a ++ ':' :: (b ++ ':' :: (c ++ rest)) →
      parse_selinux_type context = some (String.mk c)) ∧
    (context.data.count ':' < 2 →
      parse_selinux_type context = none ∧
      ∀ (rt : Runtime) (st : State) (session : Nat) (err : Int), ¬ err < 0 →
        selinux_context_reply rt st context session err
          = emit st (Effect.callback session none (-EINVAL))) ∧
    (2 ≤ context.data.count ':' → (parse_selinux_type context).isSome = true) ∧
    parse_selinux_type "unconfined_u:object_r:app_t:s0" = some "app_t" := by
  refine ⟨?_, ?_, parse_selinux_type_some_of_count context, by decide⟩
  · intro a b c rest ha hb hc hr hd
    obtain ⟨tl, ht⟩ := splitChars_third ':' a b c rest ha hb hc hr
    have hne : context.data ≠ [] := by rw [hd]; simp
    unfold parse_selinux_type g_strsplit
    simp [hne, hd, ht]
  · intro hcount
    have hnone : parse_selinux_type context = none := by
      unfold parse_selinux_type g_strsplit
      by_cases he : context.data = []
      · simp [he]
      · simp only [he, if_false, List.length_map, splitChars_length]
        have h1 : context.data.count ':' + 1 < 2 ∨ context.data.count ':' = 1 := by omega
        rcases h1 with h1 | h1
        · simp [h1]
        · have hlen : (splitChars ':' context.data).length = 2 := by
            rw [splitChars_length, h1]
          rw [if_neg (by omega)]
          apply List.get?_eq_none.mpr
          simp [hlen]
    refine ⟨hnone, ?_⟩
    intro rt st session err herr
    unfold selinux_context_reply
    rw [if_neg herr, hnone]

theorem parse_selinux_type_third_field_witness :
    parse_selinux_type "unconfined_u:object_r:haifux_t:s0" = some "haifux_t" ∧
    parse_selinux_type "unconfined_u:object_r" = none :=
  ⟨(parse_selinux_type_third_field "unconfined_u:object_r:haifux_t:s0").1
      "unconfined_u".data "object_r".data "haifux_t".data ":s0".data
      (by decide) (by decide) (by decide) (Or.inr (by decide)) (by decide),
   ((parse_selinux_type_third_field "unconfined_u:object_r").2.1 (by decide)).1⟩

/-! ### C8 -/

/-- C8: for a key-file that loads, load_file returns, and it returns an error
exactly when some section lacks the selinux key or has an AllowedBearers
token the bearer parser rejects.  In that case the identities of the
sections accepted before the failing one are absent from the index, every
group allocated for the file is freed and load_file does not touch the file
table; a modify or moved-to event for such a file leaves the file name out
of the file table, and in a reachable state every group still reachable
through the index then belongs to another file of the table. -/
theorem load_file_fails_on_bad_section (rt : Runtime) (w : World) (st : State)
    (f : String) (kf : GKeyFile) (hk : w.load_from_file f = Except.ok kf) :
    load_file rt w st f { groups := [] }
      = some (load_file_body rt w st kf { groups := [] }) ∧
    ((load_file_body rt w st kf { groups := [] }).1 < 0 ↔
      ∃ n, n ∈ kf.group_names ∧
        (kf.get_string n "selinux" = none ∨
         ∃ str, kf.get_string n "AllowedBearers" = some str ∧
           ∃ t, t ∈ g_strsplit str ' ' ∧ rt.bearers_rc t < 0)) ∧
    ((load_file_body rt w st kf { groups := [] }).1 < 0 →
      (∀ k, some k ∈ (accepted rt kf kf.group_names).map (section_id kf) →
        (load_file_body rt w st kf { groups := [] }).2.1.selinux_hash k = none) ∧
      (∀ a, st.heap_top ≤ a →
        a < (load_file_body rt w st kf { groups := [] }).2.1.heap_top →
        (load_file_body rt w st kf { groups := [] }).2.1.groups a = none) ∧
      (load_file_body rt w st kf { groups := [] }).2.1.file_hash = st.file_hash) ∧
    (∀ mask, mask &&& IN_CREATE = 0 → is_filename_valid (some f) = true →
      mask &&& (IN_DELETE ||| IN_MOVED_FROM) = 0 →
      mask &&& (IN_MOVED_TO ||| IN_MODIFY) ≠ 0 →
      (∃ n, n ∈ kf.group_names ∧
        (kf.get_string n "selinux" = none ∨
         ∃ str, kf.get_string n "AllowedBearers" = some str ∧
           ∃ t, t ∈ g_strsplit str ' ' ∧ rt.bearers_rc t < 0)) →
      ∃ st2, notify_handler rt w st mask (some f) = some st2 ∧
        st2.file_hash f = none ∧
        (Reachable rt st →
          ∀ k g, st2.selinux_hash k = some g →
            ∃ f2 pf, f2 ≠ f ∧ st2.file_hash f2 = some pf ∧ g ∈ pf.groups)) := by
  have hiff : ∀ st2 : State, ((load_file_body rt w st2 kf { groups := [] }).1 < 0 ↔
      ∃ n, n ∈ kf.group_names ∧
        (kf.get_string n "selinux" = none ∨
         ∃ str, kf.get_string n "AllowedBearers" = some str ∧
           ∃ t, t ∈ g_strsplit str ' ' ∧ rt.bearers_rc t < 0)) := by
    intro st2
    rw [load_file_fails_iff rt w st2 kf { groups := [] }]
    constructor
    · rintro ⟨n, hn, hb⟩
      exact ⟨n, hn, (load_policy_neg rt kf n zero_group).mp hb⟩
    · rintro ⟨n, hn, hb⟩
      exact ⟨n, hn, (load_policy_neg rt kf n zero_group).mpr hb⟩
  refine ⟨load_file_ok rt w st f _ kf hk, hiff st, ?_, ?_⟩
  · intro hfail
    obtain ⟨a1, _, a3, _, _, a6, _, _⟩ := load_file_failure rt w st kf hfail
    refine ⟨?_, a3, a6⟩
    intro k hin
    rw [a1 k, if_pos hin]
  · intro mask hc hv hd hm hbad
    have hfail := (hiff (file_hash_remove rt w st f)).mpr hbad
    have hn := notify_handler_reload_ok rt w st mask f kf hc hv hd hm hk
    rw [if_pos hfail] at hn
    have hfile : (load_file_body rt w (file_hash_remove rt w st f) kf
        { groups := [] }).2.1.file_hash f = none := by
      rw [load_file_body_file_hash, file_hash_remove_at]
      simp
    refine ⟨_, hn, hfile, ?_⟩
    intro hreach k g hg
    obtain ⟨hh, _⟩ := reachable_inv (Reachable.notify st _ w mask (some f) hreach hn)
    obtain ⟨gr, hl, _⟩ := hh.idx k g hg
    rcases hh.owned g gr hl with hp | ⟨f2, pf, h2, h3⟩
    · exact absurd hp (List.not_mem_nil _)
    · refine ⟨f2, pf, ?_, h2, h3⟩
      intro e
      rw [e, hfile] at h2
      exact absurd h2 (by simp)

theorem load_file_fails_on_bad_section_witness :
    (load_file_body sample_rt sample_world st_bound broken_keyfile { groups := [] }).1 < 0 ∧
    ∃ st2, notify_handler sample_rt sample_world st_bound IN_MODIFY (some "bad.policy")
        = some st2 ∧ st2.file_hash "bad.policy" = none :=
  ⟨(load_file_fails_on_bad_section sample_rt sample_world st_bound "bad.policy"
      broken_keyfile rfl).2.1.mpr ⟨"two", by decide, Or.inl (by decide)⟩,
   (((load_file_fails_on_bad_section sample_rt sample_world st_bound "bad.policy"
      broken_keyfile rfl).2.2.2 IN_MODIFY (by decide) (by decide) (by decide) (by decide)
      ⟨"two", by decide, Or.inl (by decide)⟩).imp (fun _ h => ⟨h.1, h.2.1⟩))⟩

/-! ### C9 -/

/-- C9: load_file of a key-file that loads returns; after a successful one,
section number i has a group at the fresh address heap_top + i holding exactly what load_policy
parsed from that section; for the identity k of every section the index
maps k to the group of a section of this file defining k (the last one),
and to the group of section i itself when no other section defines k; the
file's group list holds exactly the new groups; identities that no section
of the file defines keep their index entry; every group allocated before, every
binding, the file table, the session table and the log are unchanged, so a
group replaced in the index stays in its file with its sessions bound. -/
theorem load_file_indexes_sections (rt : Runtime) (w : World) (st : State) (f : String)
    (kf : GKeyFile) (hk : w.load_from_file f = Except.ok kf)
    (hok : ¬ (load_file_body rt w st kf { groups := [] }).1 < 0) :
    load_file rt w st f { groups := [] }
      = some (load_file_body rt w st kf { groups := [] }) ∧
    (∀ i n, kf.group_names.get? i = some n →
      (load_file_body rt w st kf { groups := [] }).2.1.groups (st.heap_top + i)
        = some (load_policy rt kf n zero_group).2 ∧
      ∃ k, section_id kf n = some k ∧
        (load_policy rt kf n zero_group).2.selinux = some k ∧
        (∃ j n2, kf.group_names.get? j = some n2 ∧ section_id kf n2 = some k ∧
          (load_file_body rt w st kf { groups := [] }).2.1.selinux_hash k
            = some (st.heap_top + j)) ∧
        ((∀ j n2, kf.group_names.get? j = some n2 → section_id kf n2 = some k → j = i) →
          (load_file_body rt w st kf { groups := [] }).2.1.selinux_hash k
            = some (st.heap_top + i))) ∧
    (load_file_body rt w st kf { groups := [] }).2.2.groups
      = (List.range' st.heap_top kf.group_names.length).reverse ∧
    (∀ k, (∀ n, n ∈ kf.group_names → section_id kf n ≠ some k) →
      (load_file_body rt w st kf { groups := [] }).2.1.selinux_hash k = st.selinux_hash k) ∧
    (∀ a, a < st.heap_top →
      (load_file_body rt w st kf { groups := [] }).2.1.groups a = st.groups a) ∧
    (load_file_body rt w st kf { groups := [] }).2.1.policies = st.policies ∧
    (load_file_body rt w st kf { groups := [] }).2.1.file_hash = st.file_hash ∧
    (load_file_body rt w st kf { groups := [] }).2.1.session_hash = st.session_hash ∧
    (load_file_body rt w st kf { groups := [] }).2.1.log = st.log := by
  obtain ⟨hl, hacc⟩ := load_file_groups_ok rt w st kf { groups := [] } hok
  obtain ⟨i1, _, i3, i4, _, _, i7, _, _⟩ :=
    load_groups_spec rt kf kf.group_names st { groups := [] } 0
  obtain ⟨g1, g2, g3, g4⟩ := load_groups_frame rt kf kf.group_names st { groups := [] } 0
  refine ⟨load_file_ok rt w st f _ kf hk, ?_⟩
  rw [hl]
  rw [hacc] at i1 i4 i7
  refine ⟨?_, by simpa using i1, ?_, i3, g3, g1, g2, g4⟩
  · intro i n hn
    refine ⟨i4 i n hn, ?_⟩
    have hmem : n ∈ accepted rt kf kf.group_names := by rw [hacc]; exact List.get?_mem hn
    obtain ⟨k, hk2⟩ := load_policy_ok rt kf n zero_group (accepted_all rt kf _ n hmem)
    refine ⟨k, hk2, by rw [load_policy_selinux, hk2], ?_, ?_⟩
    · have hin : some k ∈ kf.group_names.map (section_id kf) :=
        List.mem_map.mpr ⟨n, List.get?_mem hn, hk2⟩
      cases hli : last_index (kf.group_names.map (section_id kf)) (some k) with
      | none => exact absurd hin ((last_index_none_iff _ _).mp hli)
      | some j =>
        obtain ⟨a1, _⟩ := last_index_some _ _ j hli
        rw [get?_map_eq] at a1
        cases hj : kf.group_names.get? j with
        | none => rw [hj] at a1; simp at a1
        | some n2 =>
          rw [hj] at a1
          simp only [Option.map_some', Option.some.injEq] at a1
          refine ⟨j, n2, hj, a1, ?_⟩
          rw [i7 k, hli]
    · intro huniq
      have hli : last_index (kf.group_names.map (section_id kf)) (some k) = some i := by
        apply last_index_unique
        · rw [get?_map_eq, hn]; simp [section_id, hk2]
        · intro j hj hg
          rw [get?_map_eq] at hg
          cases hj2 : kf.group_names.get? j with
          | none => rw [hj2] at hg; simp at hg
          | some n2 =>
            rw [hj2] at hg
            simp only [Option.map_some', Option.some.injEq] at hg
            have := huniq j n2 hj2 hg
            omega
      rw [i7 k, hli]
  · intro k hno
    rw [i7 k]
    have : some k ∉ kf.group_names.map (section_id kf) := by
      intro hin
      obtain ⟨n, hn, he⟩ := List.mem_map.mp hin
      exact hno n hn he
    rw [(last_index_none_iff _ _).mpr this]

theorem load_file_indexes_sections_witness :
    load_file sample_rt sample_world init "app.policy" { groups := [] }
      = some (load_file_body sample_rt sample_world init sample_keyfile { groups := [] }) ∧
    (load_file_body sample_rt sample_world init sample_keyfile { groups := [] }).2.1.groups
      (init.heap_top + 0)
      = some (load_policy sample_rt sample_keyfile "app" zero_group).2 :=
  ⟨(load_file_indexes_sections sample_rt sample_world init "app.policy" sample_keyfile
      rfl (by decide)).1,
   ((load_file_indexes_sections sample_rt sample_world init "app.policy" sample_keyfile
      rfl (by decide)).2.1 0 "app" rfl).1⟩

/-! ### C10 -/

/-- C10: in a consistent state (Inv, which holds where notify_handler calls
recheck_sessions), with every config-update push accepted, recheck_sessions
binds exactly the unmatched bindings whose identity is indexed: such a
binding ends bound to the indexed group, is in that group's sessions list,
has a config equal to the group's config, which is unchanged, and exactly
one config-update push is issued for its session; a binding that was already
bound, or whose identity has no indexed group, is unchanged and no push is
issued for its session.  The log grows by exactly the pushes of the bound
bindings, in table order; the tables are unchanged. -/
theorem recheck_sessions_binds_unmatched (w : World) (st : State) (hinv : Inv st)
    (hacc : ∀ s, ¬ w.config_update s < 0) :
    (∃ pushes, (recheck_sessions w st).log = st.log ++ pushes ∧
      pushes = (st.session_hash.filter (fun e => (recheck_target st e.2).isSome)).map
        (fun e => Effect.config_update e.1) ∧
      ∀ s p, (s, p) ∈ st.session_hash →
        ∃ pc ident, st.policies p = some pc ∧ pc.session = s ∧ pc.selinux = some ident ∧
          (∀ g, pc.group = none → st.selinux_hash ident = some g →
            ∃ gr gr2, st.groups g = some gr ∧
              (recheck_sessions w st).policies p
                = some { pc with group := some g, config := gr.config } ∧
              (recheck_sessions w st).groups g = some gr2 ∧ p ∈ gr2.sessions ∧
              gr2.config = gr.config ∧
              pushes.count (Effect.config_update s) = 1) ∧
          ((pc.group ≠ none ∨ st.selinux_hash ident = none) →
            (recheck_sessions w st).policies p = some pc ∧
            pushes.count (Effect.config_update s) = 0)) ∧
    (recheck_sessions w st).session_hash = st.session_hash ∧
    (recheck_sessions w st).selinux_hash = st.selinux_hash ∧
    (recheck_sessions w st).file_hash = st.file_hash := by
  obtain ⟨hh, ht⟩ := hinv
  have hvn := table_values_nodup ht
  obtain ⟨r1, r2, r3, _, r5, r6, _, r8⟩ := recheck_loop_spec w st.session_hash hh hvn
  unfold recheck_sessions
  have hpush : (st.session_hash.flatMap (fun e => match recheck_target st e.2 with
      | some _ => push_effects w (st.policies e.2)
      | none => []))
      = (st.session_hash.filter (fun e => (recheck_target st e.2).isSome)).map
          (fun e => Effect.config_update e.1) := by
    apply flatMap_filter_map
    · intro e he hc
      obtain ⟨pc, hp, hs⟩ := ht.tab_live e.1 e.2 he
      cases htg : recheck_target st e.2 with
      | none => rw [htg] at hc; simp at hc
      | some g =>
        simp only
        rw [hp, push_effects_accepted w pc (ht.has_id e.2 pc hp).2 hacc, hs]
    · intro e he hc
      cases htg : recheck_target st e.2 with
      | none => rfl
      | some g => rw [htg] at hc; simp at hc
  have r9 : (st.session_hash.foldl (recheck_one w) st).log
      = st.log ++ (st.session_hash.filter (fun e => (recheck_target st e.2).isSome)).map
          (fun e => Effect.config_update e.1) :=
    r8.trans (congrArg (fun x => st.log ++ x) hpush)
  refine ⟨⟨_, r9, rfl, ?_⟩, r2, r1, r3⟩
  · intro s p hm
    obtain ⟨pc, hp, hs⟩ := ht.tab_live s p hm
    obtain ⟨hid, _⟩ := ht.has_id p pc hp
    cases hsel : pc.selinux with
    | none => exact absurd hsel hid
    | some ident =>
      have hcount := count_push st.session_hash
        (fun e => (recheck_target st e.2).isSome) ht.tab_keys s p hm
      refine ⟨pc, ident, hp, hs, hsel, ?_, ?_⟩
      · intro g hb hg
        have htg : recheck_target st p = some g := by
          unfold recheck_target; rw [hp]; simp only; rw [hb]; simp only; rw [hsel]; exact hg
        obtain ⟨gr, hgr, _⟩ := hh.idx ident g hg
        obtain ⟨a1, gr2, a2, a3, a4⟩ := r6 p g pc gr
          (List.mem_map.mpr ⟨(s, p), hm, rfl⟩) htg hp hgr
        refine ⟨gr, gr2, hgr, a1, a2, a3, a4, ?_⟩
        rw [hcount]; simp [htg]
      · intro hcase
        have htg : recheck_target st p = none := by
          unfold recheck_target; rw [hp]; simp only
          rcases hcase with hb | hno
          · cases hg : pc.group with
            | none => exact absurd hg hb
            | some g => rfl
          · cases hg : pc.group with
            | none => simp only; rw [hsel]; exact hno
            | some g => rfl
        refine ⟨by rw [r5 p htg, hp], ?_⟩
        rw [hcount]; simp [htg]

theorem recheck_sessions_binds_unmatched_witness :
    (recheck_sessions sample_world st_before_recheck).log
      = st_before_recheck.log ++ [Effect.config_update 7] := by
  obtain ⟨pushes, h1, h2, _⟩ :=
    (recheck_sessions_binds_unmatched sample_world st_before_recheck inv_st_before_recheck
      (fun s => by show ¬ ((0 : Int) < 0); decide)).1
  rw [h1, h2]
  decide

/-! ### C11 -/

/-- C11: for an event whose mask has the delete or the moved-from bit and not
the create bit, on a valid file name, whatever the modify and moved-to bits
are, notify_handler returns and is exactly the removal g_hash_table_remove
of the file name: no file is parsed or loaded (the outcome does not depend
on what g_key_file_load_from_file would do) and afterwards the name is not
in the file table.
In a state reachable from the directory scan where the file table held the
file: the identity of every group the file held is absent from the index,
the groups are freed, every binding bound to one of them is detached to the
default configuration, and no recheck runs: every other binding, the session
table and the heap top are unchanged.  When the file was not in the table
nothing changes at all. -/
theorem notify_handler_delete_removes (rt : Runtime) (w : World) (st : State) (mask : Nat)
    (f : String) (hc : mask &&& IN_CREATE = 0) (hv : is_filename_valid (some f) = true)
    (hd : mask &&& (IN_DELETE ||| IN_MOVED_FROM) ≠ 0) :
    notify_handler rt w st mask (some f) = some (file_hash_remove rt w st f) ∧
    (∀ w2 : World, w2.config_update = w.config_update →
      notify_handler rt w2 st mask (some f) = notify_handler rt w st mask (some f)) ∧
    (file_hash_remove rt w st f).file_hash f = none ∧
    (st.file_hash f = none → notify_handler rt w st mask (some f) = some st) ∧
    (ReachableScan rt st → ∀ pf, st.file_hash f = some pf →
      (∀ g gr k, g ∈ pf.groups → st.groups g = some gr → gr.selinux = some k →
        (file_hash_remove rt w st f).selinux_hash k = none) ∧
      (∀ g, g ∈ pf.groups → (file_hash_remove rt w st f).groups g = none) ∧
      (∀ p pc g, st.policies p = some pc → pc.group = some g → g ∈ pf.groups →
        (file_hash_remove rt w st f).policies p
          = some { pc with config := rt.default_config, group := none }) ∧
      (∀ p pc, st.policies p = some pc → (∀ g, pc.group = some g → g ∉ pf.groups) →
        (file_hash_remove rt w st f).policies p = some pc) ∧
      (file_hash_remove rt w st f).session_hash = st.session_hash ∧
      (file_hash_remove rt w st f).heap_top = st.heap_top) := by
  have hn : ∀ w0 : World,
      notify_handler rt w0 st mask (some f) = some (file_hash_remove rt w0 st f) :=
    fun w0 => notify_handler_remove rt w0 st mask f hc hv hd
  rw [hn w]
  refine ⟨rfl, ?_, ?_, fun h0 => by rw [file_hash_remove_absent rt w st f h0], ?_⟩
  · intro w2 h2
    rw [hn w2, file_hash_remove_world rt w w2 h2]
  · rw [file_hash_remove_at]; simp
  · intro hr pf hf
    have hh := (reachable_scan_inv hr).1.1
    obtain ⟨_, c2, c3, c4, c5, c6, _⟩ := cleanup_loop_frame rt w pf.groups
      { st with file_hash := Function.update st.file_hash f none } (hh.file_nodup f pf hf)
    rw [← file_hash_remove_present rt w st f pf hf] at c2 c3 c4 c5 c6
    refine ⟨?_, ?_, ?_, ?_, c2, c6⟩
    · intro g gr k hg hl hs
      have hk : k ∈ ids_of { st with file_hash := Function.update st.file_hash f none }
          pf.groups := mem_ids_of st pf.groups g gr k hg hl hs
      rw [c3 k, if_pos hk]
    · intro g hg
      rw [c4 g, if_pos hg]
    · intro p pc g hp hb hg
      have hin : p ∈ bound_of { st with file_hash := Function.update st.file_hash f none }
          pf.groups := (mem_bound_of_iff hh pf.groups p).mpr ⟨pc, g, hp, hb, hg⟩
      rw [c5 p, if_pos hin]
      show (st.policies p).map (detach rt) = _
      rw [hp]; rfl
    · intro p pc hp hno
      have hin : p ∉ bound_of { st with file_hash := Function.update st.file_hash f none }
          pf.groups := by
        intro hin
        obtain ⟨pc2, g, h1, h2, h3⟩ := (mem_bound_of_iff hh pf.groups p).mp hin
        rw [hp] at h1; injection h1 with h1; subst h1
        exact hno g h2 h3
      rw [c5 p, if_neg hin]
      exact hp

theorem notify_handler_delete_removes_witness :
    notify_handler sample_rt sample_world st_bound (IN_DELETE ||| IN_MODIFY)
        (some "app.policy")
      = some (file_hash_remove sample_rt sample_world st_bound "app.policy") ∧
    (file_hash_remove sample_rt sample_world st_bound "app.policy").selinux_hash "app_t"
      = none :=
  ⟨(notify_handler_delete_removes sample_rt sample_world st_bound (IN_DELETE ||| IN_MODIFY)
    "app.policy" (by decide) (by decide) (by decide)).1,
   ((notify_handler_delete_removes sample_rt sample_world st_bound (IN_DELETE ||| IN_MODIFY)
    "app.policy" (by decide) (by decide) (by decide)).2.2.2.2 reachable_scan_st_bound
    { groups := [1] } (by decide)).1 1
      { selinux := some "app_t"
        config := { priority := false, roaming_policy := 0, type := 0, ecall := false,
                    allowed_bearers := [3, 2] }
        sessions := [2] }
      "app_t" (by decide) (by decide) rfl⟩

/-! ### C12 -/

/-- C12: let the key-file of the file name f parse successfully (load_policy
accepts every section) and let st be a consistent state.  Then load_file
returns with success on st; after cleanup_file of the file it built,
load_file on the same content returns with success again, and the index read as a map from identity to
group config is the same after the second load as after the first: an
identity the file has a section for maps to the config of the last such
section, any other identity to what it mapped to in st.  The same holds for
the events of the watch: a reload event for f, a removal event for f and a
second reload event for f leave the index, read as a map from identity to
group config, as it was after the first reload event, whatever the state
before held for f. -/
theorem load_remove_load_round_trip (rt : Runtime) (w : World) (st : State) (f : String)
    (kf : GKeyFile) (hinv : Inv st) (hk : w.load_from_file f = Except.ok kf)
    (hparse : ∀ n, n ∈ kf.group_names → ¬ (load_policy rt kf n zero_group).1 < 0) :
    load_file rt w st f { groups := [] }
      = some (load_file_body rt w st kf { groups := [] }) ∧
    ¬ (load_file_body rt w st kf { groups := [] }).1 < 0 ∧
    load_file rt w
        (cleanup_file rt w (load_file_body rt w st kf { groups := [] }).2.1
          (load_file_body rt w st kf { groups := [] }).2.2) f { groups := [] }
      = some (load_file_body rt w
          (cleanup_file rt w (load_file_body rt w st kf { groups := [] }).2.1
            (load_file_body rt w st kf { groups := [] }).2.2) kf { groups := [] }) ∧
    ¬ (load_file_body rt w
        (cleanup_file rt w (load_file_body rt w st kf { groups := [] }).2.1
          (load_file_body rt w st kf { groups := [] }).2.2) kf { groups := [] }).1 < 0 ∧
    (∀ k, index_config (load_file_body rt w
        (cleanup_file rt w (load_file_body rt w st kf { groups := [] }).2.1
          (load_file_body rt w st kf { groups := [] }).2.2) kf { groups := [] }).2.1 k
      = index_config (load_file_body rt w st kf { groups := [] }).2.1 k) ∧
    (∀ k, index_config (load_file_body rt w st kf { groups := [] }).2.1 k
      = match last_index (kf.group_names.map (section_id kf)) (some k) with
        | some i => (kf.group_names.get? i).map
            (fun n => (load_policy rt kf n zero_group).2.config)
        | none => index_config st k) ∧
    (is_filename_valid (some f) = true → ∀ m1 m2 m3 : Nat,
      m1 &&& IN_CREATE = 0 → m1 &&& (IN_DELETE ||| IN_MOVED_FROM) = 0 →
      m1 &&& (IN_MOVED_TO ||| IN_MODIFY) ≠ 0 →
      m2 &&& IN_CREATE = 0 → m2 &&& (IN_DELETE ||| IN_MOVED_FROM) ≠ 0 →
      m3 &&& IN_CREATE = 0 → m3 &&& (IN_DELETE ||| IN_MOVED_FROM) = 0 →
      m3 &&& (IN_MOVED_TO ||| IN_MODIFY) ≠ 0 →
      ∃ e1 e2 e3, notify_handler rt w st m1 (some f) = some e1 ∧
        notify_handler rt w e1 m2 (some f) = some e2 ∧
        notify_handler rt w e2 m3 (some f) = some e3 ∧
        ∀ k, index_config e3 k = index_config e1 k) := by
  have hok := load_file_parses rt w st kf hparse
  have hpend := (@heap_load_file_body rt w st [] kf hinv.1).2 hok
  have ht : HeapInv (cleanup_file rt w (load_file_body rt w st kf { groups := [] }).2.1
      (load_file_body rt w st kf { groups := [] }).2.2) [] := heap_cleanup_loop _ hpend
  refine ⟨load_file_ok rt w st f _ kf hk, hok, load_file_ok rt w _ f _ kf hk,
    load_file_parses rt w _ kf hparse, fun k => ?_, fun k => ?_, ?_⟩
  · exact index_config_round_trip rt w st _ kf hinv.1 hok rfl
      (fun a gr hg => ⟨gr, hg, rfl, rfl⟩) ht k
  · exact index_config_after_load rt w st kf hok (heap_index_lt hinv.1) k
  · intro hv m1 m2 m3 hc1 hd1 hm1 hc2 hd2 hc3 hd3 hm3
    exact notify_handler_round_trip rt w st f kf hinv hk hparse hv m1 m2 m3
      hc1 hd1 hm1 hc2 hd2 hc3 hd3 hm3

theorem load_remove_load_round_trip_witness :
    ∃ e1 e2 e3,
      notify_handler sample_rt sample_world st_bound IN_MODIFY (some "app.policy") = some e1 ∧
      notify_handler sample_rt sample_world e1 IN_DELETE (some "app.policy") = some e2 ∧
      notify_handler sample_rt sample_world e2 IN_MOVED_TO (some "app.policy") = some e3 ∧
      index_config e3 "app_t" = index_config e1 "app_t" ∧
      index_config e1 "app_t"
        = some { priority := false, roaming_policy := 0, type := 0, ecall := false,
                 allowed_bearers := [3, 2] } := by
  obtain ⟨e1, e2, e3, h1, h2, h3, h4⟩ :=
    (load_remove_load_round_trip sample_rt sample_world st_bound "app.policy" sample_keyfile
      (reachable_inv reachable_st_bound) rfl
      (fun n hn => by
        have e : n = "app" := by simpa [sample_keyfile] using hn
        subst e; decide)).2.2.2.2.2.2 (by decide) IN_MODIFY IN_DELETE IN_MOVED_TO
      (by decide) (by decide) (by decide) (by decide) (by decide) (by decide) (by decide)
      (by decide)
  refine ⟨e1, e2, e3, h1, h2, h3, h4 "app_t", ?_⟩
  have he := some_getD
    (notify_handler sample_rt sample_world st_bound IN_MODIFY (some "app.policy")) init
    (by decide)
  rw [he] at h1
  injection h1 with h1
  rw [← h1]
  decide

/-! ### C13 -/

/-- C13: notify_handler ignores every event whose mask includes the create
bit and every event whose file name is invalid, whatever the other mask bits
are: it returns and the state after is the state before, so the file table, the index,
every group, every binding, the session table and the log (no config-update
push) are exactly as before. -/
theorem notify_handler_ignores (rt : Runtime) (w : World) (st : State) (mask : Nat)
    (filename : Option String)
    (h : mask &&& IN_CREATE ≠ 0 ∨ is_filename_valid filename = false) :
    notify_handler rt w st mask filename = some st ∧
    ∀ st2, notify_handler rt w st mask filename = some st2 →
      st2.file_hash = st.file_hash ∧
      st2.selinux_hash = st.selinux_hash ∧
      st2.session_hash = st.session_hash ∧
      st2.policies = st.policies ∧
      st2.groups = st.groups ∧
      st2.log = st.log := by
  have he : notify_handler rt w st mask filename = some st := by
    unfold notify_handler
    by_cases h1 : mask &&& IN_CREATE ≠ 0
    · rw [if_pos h1]
    · rw [if_neg h1]
      rcases h with h | h
      · exact absurd h h1
      · rw [if_pos h]
  refine ⟨he, ?_⟩
  intro st2 h2
  rw [he] at h2
  injection h2 with h2
  rw [← h2]
  exact ⟨rfl, rfl, rfl, rfl, rfl, rfl⟩

theorem notify_handler_ignores_witness :
    notify_handler sample_rt sample_world st_bound (IN_CREATE ||| IN_DELETE)
      (some "app.policy") = some st_bound ∧
    notify_handler sample_rt sample_world st_bound IN_DELETE (some ".app.policy")
      = some st_bound :=
  ⟨(notify_handler_ignores sample_rt sample_world st_bound (IN_CREATE ||| IN_DELETE)
      (some "app.policy") (Or.inl (by decide))).1,
   (notify_handler_ignores sample_rt sample_world st_bound IN_DELETE
      (some ".app.policy") (Or.inr (by decide))).1⟩

/-! ### C14 -/

/-- C14: is_filename_valid accepts a file name if and only if it is present
(not NULL), its first character is not a dot and it ends with the suffix
.policy; NULL, the empty name, the bare name .policy, .app.policy and every
other name starting with a dot are rejected, app.policy is accepted. -/
theorem is_filename_valid_iff (filename : Option String) :
    (is_filename_valid filename = true ↔
      ∃ name, filename = some name ∧ name.data.head? ≠ some '.' ∧
        ∃ stem : List Char, name.data = stem ++ ".policy".data) ∧
    is_filename_valid none = false ∧
    is_filename_valid (some "") = false ∧
    is_filename_valid (some ".policy") = false ∧
    is_filename_valid (some ".app.policy") = false ∧
    (∀ rest : List Char, is_filename_valid (some (String.mk ('.' :: rest))) = false) ∧
    is_filename_valid (some "app.policy") = true := by
  refine ⟨?_, by decide, by decide, by decide, by decide, ?_, by decide⟩
  · cases filename with
    | none => simp [is_filename_valid]
    | some name =>
      have hsuf : (".policy".data.isSuffixOf name.data = true)
          ↔ ∃ stem : List Char, name.data = stem ++ ".policy".data := by
        rw [List.isSuffixOf_iff_suffix]
        constructor
        · rintro ⟨t, ht⟩; exact ⟨t, ht.symm⟩
        · rintro ⟨t, ht⟩; exact ⟨t, ht.symm⟩
      unfold is_filename_valid g_str_has_suffix
      by_cases hdot : name.data.head? = some '.'
      · simp [hdot]
      · simp only [hdot, if_false]
        rw [hsuf]
        constructor
        · intro h; exact ⟨name, rfl, hdot, h⟩
        · rintro ⟨n2, h1, _, h3⟩
          injection h1 with h1; subst h1; exact h3
  · intro rest
    simp [is_filename_valid]

/-! ### C15 -/

/-- C15: in every state reachable from the directory scan (the empty tables
included) by watch events, completions of session creations and session
destructions, every index entry maps its identity to a live group whose own
identity is the entry's key and which belongs to the group list of a file of
the file table.  After the failed load of bad.policy next to app.policy the
entry of app_t is gone and nothing dangles; after app.policy and twin.policy
both defined app_t and app.policy was removed, the entry of app_t is erased
although twin.policy's group is still loaded with that identity. -/
theorem index_never_dangles (rt : Runtime) (st : State) :
    (ReachableScan rt st →
      ∀ k g, st.selinux_hash k = some g →
        ∃ gr f pf, st.groups g = some gr ∧ gr.selinux = some k ∧
          st.file_hash f = some pf ∧ g ∈ pf.groups) ∧
    (st_failed.selinux_hash "app_t" = none ∧
      st_failed.file_hash "app.policy" = some { groups := [1] } ∧
      st_failed.file_hash "bad.policy" = none ∧
      st_failed.groups 2 = none) ∧
    (st_twin.selinux_hash "app_t" = some 2 ∧
      st_twin_removed.selinux_hash "app_t" = none ∧
      st_twin_removed.file_hash "twin.policy" = some { groups := [2] } ∧
      (st_twin_removed.groups 2).map (fun gr => gr.selinux) = some (some "app_t")) := by
  refine ⟨?_, by decide, by decide⟩
  intro h k g hk
  have hh := (reachable_scan_inv h).1.1
  obtain ⟨gr, hg, hs⟩ := hh.idx k g hk
  rcases hh.owned g gr hg with hp | ⟨f, pf, h1, h2⟩
  · exact absurd hp (List.not_mem_nil _)
  · exact ⟨gr, f, pf, hg, hs, h1, h2⟩

theorem index_never_dangles_witness :
    ∃ gr f pf, st_twin.groups 2 = some gr ∧ gr.selinux = some "app_t" ∧
      st_twin.file_hash f = some pf ∧ 2 ∈ pf.groups :=
  (index_never_dangles sample_rt st_twin).1 reachable_scan_st_twin "app_t" 2 (by decide)

/-! ### C16 -/

/-- C16: in every state reachable from the directory scan with no session
yet by watch events, completions of session creations and session
destructions, every binding recorded in session_hash is a live policy_config
of that session with a present identity, and when its bound_group is absent
the index has no entry for its identity. -/
theorem no_binding_left_unmatched (rt : Runtime) (st : State) (h : ReachableScan rt st) :
    ∀ s p, (s, p) ∈ st.session_hash →
      ∃ pc k, st.policies p = some pc ∧ pc.session = s ∧ pc.selinux = some k ∧
        (pc.group = none → st.selinux_hash k = none) := by
  obtain ⟨⟨_, ht⟩, hm⟩ := reachable_scan_inv h
  intro s p hmem
  obtain ⟨pc, hp, hs⟩ := ht.tab_live s p hmem
  cases hsel : pc.selinux with
  | none => exact absurd hsel (ht.has_id p pc hp).1
  | some k => exact ⟨pc, k, hp, hs, hsel, fun hb => hm p pc k hp hb hsel⟩

theorem no_binding_left_unmatched_witness :
    ∃ pc k, st_scan_session.policies 4 = some pc ∧ pc.session = 9 ∧
      pc.selinux = some k ∧ (pc.group = none → st_scan_session.selinux_hash k = none) :=
  no_binding_left_unmatched sample_rt st_scan_session reachable_scan_st_scan_session 9 4
    (by decide)

end SessionPolicyLocal
